import Mathlib

/-!
# Verification of `byExist/stacks`

A shallow embedding of `src/stacks.go`.

The Go program manipulates `*Stack[T]` pointers whose single field `items` is a
slice.  A slice is a header (backing array, length, capacity) over a heap
allocated array, so two headers may share storage.  The embedding keeps that
sharing explicit: a `Heap` holds the backing arrays and the `Stack` structs,
pointers are indices, and every operation is a function on heaps.  `none`
stands for a run-time panic (nil dereference, index out of range).

Library code the package calls is modelled next to it: `append`, `make` and
`slices.Clone` on slices, `iter.Seq` as a function of its `yield`, and, for
stacks of `int`, `encoding/json`: a scanner for JSON text and the decoder's
loop that writes an array into a slice.  Byte strings are lists of byte
values, and `fmt.Sprint` at the element type is a parameter.  For the other
element types `json.Marshal` of a slice takes the encoder of one element as a
parameter, and the decoder's loop the decoder of one element.
-/

namespace Stacks

/-! ## Go slices and the heap -/

/-- A Go slice header.  `arr = none` is the nil slice; otherwise `arr` is the
index of the backing array and the slice covers its cells `0 .. len - 1`, with
cells up to `cap - 1` available to `append` without reallocation. -/
structure Slice where
  arr : Option Nat
  len : Nat
  cap : Nat
deriving DecidableEq

/-- The program heap: the backing arrays, and the `Stack[T]` structs
(each one is just its field `items`).  A `*Stack[T]` is an index into
`structs`. -/
structure Heap (T : Type) where
  arrays : List (List T)
  structs : List Slice
deriving DecidableEq

/-- The nil slice, the zero value of `[]T`. -/
def nilSlice : Slice := ⟨none, 0, 0⟩

/-- The Go builtin `make([]T, 0, c)`: a fresh array of `c` zero values. -/
def makeSlice {T : Type} [Inhabited T] (c : Nat) (h : Heap T) : Slice × Heap T :=
  (⟨some h.arrays.length, 0, c⟩,
   { h with arrays := h.arrays ++ [List.replicate c default] })

/-- The Go index expression `s[i]`; panics unless `i < len(s)`. -/
def index {T : Type} (s : Slice) (i : Nat) (h : Heap T) : Option T :=
  if i < s.len then
    match s.arr with
    | none => none
    | some a =>
      match h.arrays[a]? with
      | none => none
      | some xs => xs[i]?
  else none

/-- The Go slice expression `s[:j]`; panics unless `j ≤ cap(s)`. -/
def reslice (s : Slice) (j : Nat) : Option Slice :=
  if j ≤ s.cap then some { s with len := j } else none

/-- The elements `s[0], ..., s[len(s)-1]` of a slice. -/
def elems {T : Type} (s : Slice) (h : Heap T) : Option (List T) :=
  match s.arr with
  | none => if s.len = 0 then some [] else none
  | some a =>
    match h.arrays[a]? with
    | none => none
    | some xs => if s.len ≤ xs.length then some (xs.take s.len) else none

/-- The Go builtin `append(s, vs...)`.  With room in the backing array the
values are written in place after the current length; otherwise a new array
is allocated, the old elements are copied and the values follow.  The
capacity of the new array is chosen by the runtime: `g oldcap needed` is its
growth policy, and the language only promises that the result is large
enough, hence the `max`. -/
def append {T : Type} [Inhabited T] (g : Nat → Nat → Nat) (s : Slice) (vs : List T)
    (h : Heap T) : Option (Slice × Heap T) :=
  match vs with
  | [] => some (s, h)
  | v :: rest =>
    let need := s.len + (v :: rest).length
    if need ≤ s.cap then
      match s.arr with
      | none => none
      | some a =>
        match h.arrays[a]? with
        | none => none
        | some xs =>
          if s.cap ≤ xs.length then
            some ({ s with len := need },
                  { h with arrays :=
                      h.arrays.set a (xs.take s.len ++ (v :: rest) ++ xs.drop need) })
          else none
    else
      match elems s h with
      | none => none
      | some old =>
        let c := max need (g s.cap need)
        some (⟨some h.arrays.length, need, c⟩,
              { h with arrays :=
                  h.arrays ++ [old ++ (v :: rest) ++ List.replicate (c - need) default] })

/-- The standard library `slices.Clone`: nil stays nil, anything else is
`append(S{}, s...)` where `S{}` is a fresh empty non-nil slice. -/
def slicesClone {T : Type} [Inhabited T] (g : Nat → Nat → Nat) (s : Slice) (h : Heap T) :
    Option (Slice × Heap T) :=
  match s.arr with
  | none => some (nilSlice, h)
  | some _ =>
    match elems s h with
    | none => none
    | some xs =>
      let (e, h1) := makeSlice 0 h
      append g e xs h1

/-- Read the field `s.items` through the pointer `p`; a bad pointer panics. -/
def load {T : Type} (p : Nat) (h : Heap T) : Option Slice := h.structs[p]?

/-- Assign the field `s.items` through the pointer `p`. -/
def store {T : Type} (p : Nat) (s : Slice) (h : Heap T) : Heap T :=
  { h with structs := h.structs.set p s }

/-- Allocate a struct, `&Stack[T]{items: s}`, and return its address. -/
def alloc {T : Type} (s : Slice) (h : Heap T) : Nat × Heap T :=
  (h.structs.length, { h with structs := h.structs ++ [s] })

/-! ## Iterators (`iter.Seq[T]`) -/

/-- A `yield` callback: it receives an element, may read and write the heap
and its own local state `σ`, and answers whether the traversal goes on. -/
abbrev Yield (T σ : Type) := T → σ → Heap T → Option (Bool × σ × Heap T)

/-- An `iter.Seq[T]`: a function that, given a `yield`, runs a traversal. -/
def Seq (T : Type) : Type 1 :=
  (σ : Type) → Yield T σ → σ → Heap T → Option (σ × Heap T)

/-- The loop `for _, v := range x { if !yield(v) { break } }` over a slice
whose header was read before the loop: `n` iterations remain, `i` is the
current index, and each element is read from the array when its turn comes. -/
def rangeLoop {T σ : Type} (a : Option Nat) (yield : Yield T σ) :
    Nat → Nat → σ → Heap T → Option (σ × Heap T)
  | 0, _, c, h => some (c, h)
  | n + 1, i, c, h =>
    match a with
    | none => none
    | some a' =>
      match h.arrays[a']? with
      | none => none
      | some xs =>
        match xs[i]? with
        | none => none
        | some v =>
          match yield v c h with
          | none => none
          | some (false, c', h') => some (c', h')
          | some (true, c', h') => rangeLoop a yield n (i + 1) c' h'

/-- The loop of `slices.Values`: yield the elements in order until the
consumer stops. -/
def slicesValuesLoop {T σ : Type} (yield : Yield T σ) :
    List T → σ → Heap T → Option (σ × Heap T)
  | [], c, h => some (c, h)
  | e :: rest, c, h =>
    match yield e c h with
    | none => none
    | some (false, c', h') => some (c', h')
    | some (true, c', h') => slicesValuesLoop yield rest c' h'

/-- The standard library `slices.Values` over the elements `es`. -/
def slicesValues {T : Type} (es : List T) : Seq T := fun _ yield c h =>
  slicesValuesLoop yield es c h

/-- The standard library `slices.Collect`: run the traversal and gather what
it yields, in order. -/
def slicesCollect {T : Type} (i : Seq T) (h : Heap T) : Option (List T × Heap T) :=
  i (List T) (fun v acc hh => some (true, acc ++ [v], hh)) [] h

/-! ## The package `stacks` -/

/-- Go `New`: `&Stack[T]{items: make([]T, 0)}`. -/
def New {T : Type} [Inhabited T] (h : Heap T) : Nat × Heap T :=
  let (s, h1) := makeSlice 0 h
  alloc s h1

/-- Go `Peek`: the top element and `true`, or the zero value and `false`. -/
def Peek {T : Type} [Inhabited T] (p : Nat) (h : Heap T) : Option ((T × Bool) × Heap T) :=
  match load p h with
  | none => none
  | some s =>
    if s.len = 0 then some ((default, false), h)
    else
      match index s (s.len - 1) h with
      | none => none
      | some v => some ((v, true), h)

/-- Go `Push`: `s.items = append(s.items, item)`. -/
def Push {T : Type} [Inhabited T] (g : Nat → Nat → Nat) (p : Nat) (item : T) (h : Heap T) :
    Option (Heap T) :=
  match load p h with
  | none => none
  | some s =>
    match append g s [item] h with
    | none => none
    | some (s', h') => some (store p s' h')

/-- Go `Pop`: remove and return the top element, or the zero value and `false`. -/
def Pop {T : Type} [Inhabited T] (p : Nat) (h : Heap T) : Option ((T × Bool) × Heap T) :=
  match load p h with
  | none => none
  | some s =>
    if s.len = 0 then some ((default, false), h)
    else
      let idx := s.len - 1
      match index s idx h with
      | none => none
      | some item =>
        match reslice s idx with
        | none => none
        | some s' => some ((item, true), store p s' h)

/-- Go `Len`: `len(s.items)`, a Go `int`. -/
def Len {T : Type} (p : Nat) (h : Heap T) : Option (Int × Heap T) :=
  match load p h with
  | none => none
  | some s => some ((s.len : Int), h)

/-- Go `Values`: the returned closure captures the pointer; `s.items` is read
when the closure is run. -/
def Values {T : Type} (p : Nat) : Seq T := fun _ yield c h =>
  match load p h with
  | none => none
  | some s => rangeLoop s.arr yield s.len 0 c h

/-- Go `Clear`: `s.items = make([]T, 0, cap(s.items))`. -/
def Clear {T : Type} [Inhabited T] (p : Nat) (h : Heap T) : Option (Heap T) :=
  match load p h with
  | none => none
  | some s =>
    let (s', h') := makeSlice s.cap h
    some (store p s' h')

/-- Go `Clone`: `&Stack[T]{items: slices.Clone(s.items)}`. -/
def Clone {T : Type} [Inhabited T] (g : Nat → Nat → Nat) (p : Nat) (h : Heap T) :
    Option (Nat × Heap T) :=
  match load p h with
  | none => none
  | some s =>
    match slicesClone g s h with
    | none => none
    | some (s', h') => some (alloc s' h')

/-- Go `Collect`: a new stack, then `Push` for every element the sequence yields. -/
def Collect {T : Type} [Inhabited T] (g : Nat → Nat → Nat) (i : Seq T) (h : Heap T) :
    Option (Nat × Heap T) :=
  let (s, h1) := New h
  match i Unit (fun e _ hh =>
      match Push g s e hh with
      | none => none
      | some hh' => some (true, (), hh')) () h1 with
  | none => none
  | some (_, h2) => some (s, h2)

/-! ## Observations and drivers used to state the properties -/

/-- A slice header is consistent with the heap: `len ≤ cap`, and either it is
nil with capacity 0 or its array exists and has at least `cap` cells. -/
def Slice.ok {T : Type} (s : Slice) (h : Heap T) : Bool :=
  decide (s.len ≤ s.cap) &&
    match s.arr with
    | none => decide (s.cap = 0)
    | some a =>
      match h.arrays[a]? with
      | none => false
      | some xs => decide (s.cap ≤ xs.length)

/-- The pointer `p` addresses a stack whose `items` header is consistent. -/
def Valid {T : Type} (p : Nat) (h : Heap T) : Bool :=
  match load p h with
  | none => false
  | some s => s.ok h

/-- The contents of the stack at `p`, bottom to top: the elements of `s.items`. -/
def items {T : Type} (p : Nat) (h : Heap T) : Option (List T) :=
  match load p h with
  | none => none
  | some s => elems s h

/-- The zero value `var s Stack[T]`, addressed: its `items` is nil. -/
def zeroStack {T : Type} (h : Heap T) : Nat × Heap T := alloc nilSlice h

/-- The calls `Push(s, v1); ...; Push(s, vn)`, in that order. -/
def pushAll {T : Type} [Inhabited T] (g : Nat → Nat → Nat) (p : Nat) :
    List T → Heap T → Option (Heap T)
  | [], h => some h
  | v :: vs, h =>
    match Push g p v h with
    | none => none
    | some h' => pushAll g p vs h'

/-- The results of `n` successive calls of `Pop(s)`, first call first. -/
def popN {T : Type} [Inhabited T] (p : Nat) : Nat → Heap T → Option (List (T × Bool) × Heap T)
  | 0, h => some ([], h)
  | n + 1, h =>
    match Pop p h with
    | none => none
    | some (r, h') =>
      match popN p n h' with
      | none => none
      | some (rs, h'') => some (r :: rs, h'')

/-- The results of `n` successive calls of `Peek(s)`, first call first. -/
def peekN {T : Type} [Inhabited T] (p : Nat) : Nat → Heap T → Option (List (T × Bool) × Heap T)
  | 0, h => some ([], h)
  | n + 1, h =>
    match Peek p h with
    | none => none
    | some (r, h') =>
      match peekN p n h' with
      | none => none
      | some (rs, h'') => some (r :: rs, h'')

/-- A mutating call on a stack. -/
inductive Op (T : Type) where
  | push (v : T)
  | pop
  | clear
deriving DecidableEq

/-- Run one mutating call on the stack at `p`. -/
def applyOp {T : Type} [Inhabited T] (g : Nat → Nat → Nat) (p : Nat) (op : Op T) (h : Heap T) :
    Option (Heap T) :=
  match op with
  | .push v => Push g p v h
  | .pop => (Pop p h).map Prod.snd
  | .clear => Clear p h

/-- Run mutating calls on the stack at `p`, in order. -/
def applyOps {T : Type} [Inhabited T] (g : Nat → Nat → Nat) (p : Nat) :
    List (Op T) → Heap T → Option (Heap T)
  | [], h => some h
  | op :: ops, h =>
    match applyOp g p op h with
    | none => none
    | some h' => applyOps g p ops h'

/-- The number of `Push` calls in a run. -/
def countPush {T : Type} : List (Op T) → Nat
  | [] => 0
  | .push _ :: ops => countPush ops + 1
  | _ :: ops => countPush ops

/-- The number of `Pop` calls in a run. -/
def countPop {T : Type} : List (Op T) → Nat
  | [] => 0
  | .pop :: ops => countPop ops + 1
  | _ :: ops => countPop ops

/-- The empty heap: nothing allocated yet. -/
def emptyHeap {T : Type} : Heap T := ⟨[], []⟩

/-- The doubling growth policy, used in examples. -/
def double (oldcap needed : Nat) : Nat := max needed (2 * oldcap)

/-- Every prefix of the run has at least as many `Push` as `Pop` calls. -/
def balancedRun {T : Type} (ops : List (Op T)) : Prop :=
  ∀ k, k ≤ ops.length → countPop (ops.take k) ≤ countPush (ops.take k)

/-! ## Separation and framing -/

/-- Arrays other than `a` are the same in `h'` as in `h`. -/
def ArrFrame {T : Type} (a : Option Nat) (h h' : Heap T) : Prop :=
  ∀ b ys, h.arrays[b]? = some ys → a ≠ some b → h'.arrays[b]? = some ys

/-- The stacks `p` and `q` are different structs and share no backing array. -/
def Sep {T : Type} (p q : Nat) (h : Heap T) : Prop :=
  p ≠ q ∧ ∀ sp sq a, load p h = some sp → load q h = some sq → sp.arr = some a →
    sq.arr ≠ some a

/-- What a mutating call on the stack `p` may change: only the struct `p`,
and only the array `p` used before the call; an array `p` switches to is a
newly allocated one. -/
structure StackFrame {T : Type} (p : Nat) (h h' : Heap T) : Prop where
  others : ∀ q, q ≠ p → load q h' = load q h
  arrays : ∀ s, load p h = some s → ArrFrame s.arr h h'
  fresh : ∀ s s', load p h = some s → load p h' = some s' →
    s'.arr = s.arr ∨ ∃ a, s'.arr = some a ∧ h.arrays.length ≤ a

/-- What work on one slice may change in the heap, `s` being the header
before and `s'` the header after: arrays are only added, arrays other than
the one of `s` keep their contents, and a changed array pointer is a new
array. -/
structure SliceFrame {T : Type} (s s' : Slice) (h h' : Heap T) : Prop where
  grows : h.arrays.length ≤ h'.arrays.length
  arrays : ArrFrame s.arr h h'
  fresh : s'.arr = s.arr ∨ ∃ a, s'.arr = some a ∧ h.arrays.length ≤ a

/-! ## Sample states -/

/-- The heap after `s := New[int](); Push(s, 4); Push(s, 5)` under `double`. -/
def sampleHeap : Heap Nat := ⟨[[], [4], [4, 5]], [⟨some 2, 2, 2⟩]⟩

/-- The heap after `s := New[int]()`. -/
def freshHeap : Heap Nat := ⟨[[]], [⟨some 0, 0, 0⟩]⟩

/-! ## Observable calls and their list model -/

/-- A call on a stack whose answer can be observed. -/
inductive Call (T : Type) where
  | push (v : T)
  | pop
  | peek
  | len
  | values
deriving DecidableEq

/-- The answer of a call: nothing for `Push`, the pair for `Pop` and `Peek`,
the `int` for `Len`, the collected sequence for `Values`. -/
inductive Answer (T : Type) where
  | done
  | popped (r : T × Bool)
  | peeked (r : T × Bool)
  | length (n : Int)
  | seq (vs : List T)
deriving DecidableEq

/-- Run one observable call on the stack at `p`. -/
def runCall {T : Type} [Inhabited T] (g : Nat → Nat → Nat) (p : Nat) (c : Call T)
    (h : Heap T) : Option (Answer T × Heap T) :=
  match c with
  | .push v => (Push g p v h).map (fun h' => (Answer.done, h'))
  | .pop => (Pop p h).map (fun r => (Answer.popped r.1, r.2))
  | .peek => (Peek p h).map (fun r => (Answer.peeked r.1, r.2))
  | .len => (Len p h).map (fun r => (Answer.length r.1, r.2))
  | .values => (slicesCollect (Values p) h).map (fun r => (Answer.seq r.1, r.2))

/-- Run observable calls on the stack at `p`, in order, gathering the answers. -/
def runCalls {T : Type} [Inhabited T] (g : Nat → Nat → Nat) (p : Nat) :
    List (Call T) → Heap T → Option (List (Answer T) × Heap T)
  | [], h => some ([], h)
  | c :: cs, h =>
    match runCall g p c h with
    | none => none
    | some (r, h') =>
      match runCalls g p cs h' with
      | none => none
      | some (rs, h'') => some (r :: rs, h'')

/-- The top of a list of contents as `Pop` and `Peek` report it. -/
def modelTop {T : Type} [Inhabited T] (xs : List T) : T × Bool :=
  match xs.getLast? with
  | some x => (x, true)
  | none => (default, false)

/-- The answer a call gives on a stack with contents `xs`, in the list model. -/
def modelAnswer {T : Type} [Inhabited T] (c : Call T) (xs : List T) : Answer T :=
  match c with
  | .push _ => Answer.done
  | .pop => Answer.popped (modelTop xs)
  | .peek => Answer.peeked (modelTop xs)
  | .len => Answer.length (xs.length : Int)
  | .values => Answer.seq xs

/-- The contents after a call on a stack with contents `xs`, in the list model. -/
def modelItems {T : Type} (c : Call T) (xs : List T) : List T :=
  match c with
  | .push v => xs ++ [v]
  | .pop => xs.dropLast
  | _ => xs

/-- The answers of a run of calls in the list model. -/
def modelRun {T : Type} [Inhabited T] : List (Call T) → List T → List (Answer T)
  | [], _ => []
  | c :: cs, xs => modelAnswer c xs :: modelRun cs (modelItems c xs)

/-! ## Consumers of a traversal -/

/-- A consumer with a state of its own that leaves the heap alone, wrapped as a
`yield` that also records every element it is called with. -/
def loggingYield {T σ : Type} (f : T → σ → σ × Bool) : Yield T (σ × List T) :=
  fun v c h => some ((f v c.1).2, ((f v c.1).1, c.2 ++ [v]), h)

/-- The state of the consumer after it has been called on each element in turn. -/
def stateAfter {T σ : Type} (f : T → σ → σ × Bool) : List T → σ → σ
  | [], c => c
  | e :: es, c => stateAfter f es (f e c).1

/-- The answers of the consumer when it is called on each element in turn. -/
def answers {T σ : Type} (f : T → σ → σ × Bool) : List T → σ → List Bool
  | [], _ => []
  | e :: es, c => (f e c).2 :: answers f es (f e c).1

/-- Feeding elements to the consumer until it answers `false`: the final
state and the record of the elements it was called with. -/
def feed {T σ : Type} (f : T → σ → σ × Bool) : List T → σ → List T → σ × List T
  | [], c, log => (c, log)
  | e :: es, c, log =>
    if (f e c).2 then feed f es (f e c).1 (log ++ [e]) else ((f e c).1, log ++ [e])

/-! ## Bytes and text -/

/-- A Go `[]byte` or `string`: the list of its bytes. -/
abbrev Bytes := List Nat

/-- The bytes of an ASCII text. -/
def bytes (s : String) : Bytes := s.toList.map Char.toNat

/-- The loop of `String`: `b` is the builder so far, `i` the index of the
next element; `sprint` is `fmt.Sprint` at the element type. -/
def stringLoop {T : Type} (sprint : T → Bytes) : List T → Nat → Bytes → Bytes
  | [], _, b => b
  | v :: vs, i, b =>
    stringLoop sprint vs (i + 1) ((if i > 0 then b ++ bytes ", " else b) ++ sprint v)

/-- Go `String`: `Stack{`, the elements separated by `, `, then `}`. -/
def Stack.String {T : Type} (sprint : T → Bytes) (p : Nat) (h : Heap T) :
    Option (Bytes × Heap T) :=
  match load p h with
  | none => none
  | some s =>
    match elems s h with
    | none => none
    | some xs => some (stringLoop sprint xs 0 (bytes "Stack\x7b") ++ bytes "\x7d", h)

/-- The decimal digits of a natural number, most significant first; `fuel`
bounds the number of digits. -/
def renderNatFuel : Nat → Nat → Bytes
  | 0, _ => []
  | fuel + 1, n =>
    if n < 10 then [48 + n] else renderNatFuel fuel (n / 10) ++ [48 + n % 10]

/-- The decimal text of a natural number. -/
def renderNat (n : Nat) : Bytes := renderNatFuel (n + 1) n

/-- The decimal text of a Go `int`, as `strconv` and `fmt.Sprint` print it. -/
def renderInt (n : Int) : Bytes :=
  if n < 0 then 45 :: renderNat n.natAbs else renderNat n.natAbs

/-! ## JSON text (`encoding/json`) for stacks of `int` -/

/-- A scanned JSON value.  A number keeps its literal; the contents of
strings and objects play no part in decoding into `[]int` and are dropped. -/
inductive JSON where
  | null
  | bool
  | num (lit : Bytes)
  | str
  | arr (elems : List JSON)
  | obj

/-- The errors of `encoding/json`: a `SyntaxError` from the scanner, or an
`UnmarshalTypeError` for a value that does not fit the Go type. -/
inductive JSONError where
  | malformed
  | mismatch
deriving DecidableEq

/-- JSON white space: space, tab, line feed, carriage return. -/
def isWs (b : Nat) : Bool := b = 32 || b = 9 || b = 10 || b = 13

/-- The ASCII digits. -/
def isDigit (b : Nat) : Bool := decide (48 ≤ b) && decide (b ≤ 57)

/-- The ASCII hexadecimal digits. -/
def isHex (b : Nat) : Bool :=
  isDigit b || (decide (65 ≤ b) && decide (b ≤ 70)) || (decide (97 ≤ b) && decide (b ≤ 102))

/-- The letters allowed after a backslash, `u` apart. -/
def isEscape (b : Nat) : Bool :=
  b = 34 || b = 92 || b = 47 || b = 98 || b = 102 || b = 110 || b = 114 || b = 116

/-- Drop leading white space. -/
def skipWs : Bytes → Bytes
  | [] => []
  | b :: bs => if isWs b then skipWs bs else b :: bs

/-- Scan the rest of a string after its opening quote; the result is what
follows the closing quote. -/
def scanString : Bytes → Option Bytes
  | [] => none
  | b :: bs =>
    if b = 34 then some bs
    else if b = 92 then
      match bs with
      | [] => none
      | e :: bs1 =>
        if isEscape e then scanString bs1
        else if e = 117 then
          match bs1 with
          | x1 :: x2 :: x3 :: x4 :: bs2 =>
            if isHex x1 && isHex x2 && isHex x3 && isHex x4 then scanString bs2 else none
          | _ => none
        else none
    else if b < 32 then none
    else scanString bs

/-- Split off the leading digits. -/
def spanDigits : Bytes → Bytes × Bytes
  | [] => ([], [])
  | b :: bs => if isDigit b then ((b :: (spanDigits bs).1), (spanDigits bs).2) else ([], b :: bs)

/-- The integer part of a number: `0`, or a non-zero digit and more digits. -/
def scanInt (bs : Bytes) : Option (Bytes × Bytes) :=
  match bs with
  | [] => none
  | b :: rest =>
    if b = 48 then some ([48], rest)
    else if isDigit b then some (b :: (spanDigits rest).1, (spanDigits rest).2)
    else none

/-- The optional fraction: a dot and at least one digit. -/
def scanFrac (bs : Bytes) : Option (Bytes × Bytes) :=
  match bs with
  | [] => some ([], [])
  | b :: rest =>
    if b = 46 then
      if (spanDigits rest).1.isEmpty then none
      else some (46 :: (spanDigits rest).1, (spanDigits rest).2)
    else some ([], b :: rest)

/-- The optional exponent: `e` or `E`, an optional sign, at least one digit. -/
def scanExp (bs : Bytes) : Option (Bytes × Bytes) :=
  match bs with
  | [] => some ([], [])
  | b :: rest =>
    if b = 101 || b = 69 then
      match rest with
      | [] => none
      | c :: rest1 =>
        if c = 43 || c = 45 then
          if (spanDigits rest1).1.isEmpty then none
          else some (b :: c :: (spanDigits rest1).1, (spanDigits rest1).2)
        else
          if (spanDigits (c :: rest1)).1.isEmpty then none
          else some (b :: (spanDigits (c :: rest1)).1, (spanDigits (c :: rest1)).2)
    else some ([], b :: rest)

/-- Scan a JSON number; the result is its literal and what follows. -/
def scanNumber (bs : Bytes) : Option (Bytes × Bytes) :=
  match bs with
  | [] => none
  | b :: rest =>
    match scanInt (if b = 45 then rest else b :: rest) with
    | none => none
    | some (ip, r1) =>
      match scanFrac r1 with
      | none => none
      | some (fp, r2) =>
        match scanExp r2 with
        | none => none
        | some (ep, r3) => some ((if b = 45 then [45] else []) ++ ip ++ fp ++ ep, r3)

/-- The scanner refuses more than this many open arrays and objects. -/
def maxNestingDepth : Nat := 10000

mutual

/-- Parse one JSON value at the head of the input (no leading white space);
`depth` counts the arrays and objects that are open. -/
def parseValue : Nat → Nat → Bytes → Option (JSON × Bytes)
  | 0, _, _ => none
  | _ + 1, _, [] => none
  | fuel + 1, depth, b :: rest =>
    if b = 110 then
      if rest.take 3 = [117, 108, 108] then some (JSON.null, rest.drop 3) else none
    else if b = 116 then
      if rest.take 3 = [114, 117, 101] then some (JSON.bool, rest.drop 3) else none
    else if b = 102 then
      if rest.take 4 = [97, 108, 115, 101] then some (JSON.bool, rest.drop 4) else none
    else if b = 34 then
      match scanString rest with
      | none => none
      | some r => some (JSON.str, r)
    else if b = 91 then
      if depth < maxNestingDepth then
        match skipWs rest with
        | [] => none
        | c :: r => if c = 93 then some (JSON.arr [], r) else parseElems fuel (depth + 1) [] (c :: r)
      else none
    else if b = 123 then
      if depth < maxNestingDepth then
        match skipWs rest with
        | [] => none
        | c :: r => if c = 125 then some (JSON.obj, r) else parseMembers fuel (depth + 1) (c :: r)
      else none
    else
      match scanNumber (b :: rest) with
      | none => none
      | some (lit, r) => some (JSON.num lit, r)

/-- Parse the elements of an array after `[`, up to and including `]`. -/
def parseElems : Nat → Nat → List JSON → Bytes → Option (JSON × Bytes)
  | 0, _, _, _ => none
  | fuel + 1, depth, acc, bs =>
    match parseValue fuel depth bs with
    | none => none
    | some (v, r) =>
      match skipWs r with
      | [] => none
      | c :: r1 =>
        if c = 44 then parseElems fuel depth (acc ++ [v]) (skipWs r1)
        else if c = 93 then some (JSON.arr (acc ++ [v]), r1)
        else none

/-- Parse the members of an object after `{`, up to and including `}`. -/
def parseMembers : Nat → Nat → Bytes → Option (JSON × Bytes)
  | 0, _, _ => none
  | _ + 1, _, [] => none
  | fuel + 1, depth, q :: r =>
    if q = 34 then
      match scanString r with
      | none => none
      | some r1 =>
        match skipWs r1 with
        | [] => none
        | c :: r2 =>
          if c = 58 then
            match parseValue fuel depth (skipWs r2) with
            | none => none
            | some (_, r3) =>
              match skipWs r3 with
              | [] => none
              | d :: r4 =>
                if d = 44 then parseMembers fuel depth (skipWs r4)
                else if d = 125 then some (JSON.obj, r4)
                else none
          else none
    else none

end

/-- The scanner over a whole input (`checkValid`): one value, white space
around it allowed, nothing else.  `none` is a syntax error. -/
def parseJSON (data : Bytes) : Option JSON :=
  match parseValue (2 * data.length + 2) 0 (skipWs data) with
  | none => none
  | some (v, rest) => if (skipWs rest).isEmpty then some v else none

/-- The value of a run of digits. -/
def parseNat (ds : Bytes) : Nat := ds.foldl (fun acc b => acc * 10 + (b - 48)) 0

/-- The least Go `int` (64 bits). -/
def minInt : Int := -9223372036854775808

/-- The greatest Go `int` (64 bits). -/
def maxInt : Int := 9223372036854775807

/-- The standard library `strconv.ParseInt(lit, 10, 64)` on a number literal:
an optional minus sign and digits only, and the value must fit. -/
def decodeInt (lit : Bytes) : Option Int :=
  match lit with
  | [] => none
  | b :: rest =>
    if (if b = 45 then rest else b :: rest).isEmpty then none
    else if (if b = 45 then rest else b :: rest).all isDigit then
      if b = 45 then
        if minInt ≤ -((parseNat rest : Nat) : Int) then some (-((parseNat rest : Nat) : Int))
        else none
      else
        if ((parseNat (b :: rest) : Nat) : Int) ≤ maxInt then some ((parseNat (b :: rest) : Nat) : Int)
        else none
    else none

/-- What decoding a JSON value into an `int` cell does: store a value, leave
the cell alone (`null`), or record a type error and leave the cell alone. -/
inductive Decoded where
  | value (n : Int)
  | noEffect
  | mismatch
deriving DecidableEq

/-- Decode one array element for an `int` cell. -/
def decodeElem : JSON → Decoded
  | JSON.num lit =>
    match decodeInt lit with
    | some n => Decoded.value n
    | none => Decoded.mismatch
  | JSON.null => Decoded.noEffect
  | _ => Decoded.mismatch

/-- The reflection call `v.Grow(1)`: make room for one more element,
reallocating when `len + 1 > cap`. -/
def growOne {T : Type} [Inhabited T] (g : Nat → Nat → Nat) (s : Slice) (h : Heap T) :
    Option (Slice × Heap T) :=
  if s.len + 1 ≤ s.cap then some (s, h)
  else
    match elems s h with
    | none => none
    | some old =>
      some (⟨some h.arrays.length, s.len, max (s.len + 1) (g s.cap (s.len + 1))⟩,
            { h with arrays := h.arrays ++
                [old ++ List.replicate (max (s.len + 1) (g s.cap (s.len + 1)) - s.len) default] })

/-- The assignment `s[i] = n`; panics unless `i < len(s)`. -/
def setIndex {T : Type} (s : Slice) (i : Nat) (n : T) (h : Heap T) : Option (Heap T) :=
  if i < s.len then
    match s.arr with
    | none => none
    | some a =>
      match h.arrays[a]? with
      | none => none
      | some xs =>
        if i < xs.length then some { h with arrays := h.arrays.set a (xs.set i n) } else none
  else none

/-- Record a type error unless one is recorded already (`saveError`). -/
def saveError (err : Option JSONError) : Option JSONError :=
  match err with
  | none => some JSONError.mismatch
  | some e => some e

/-- Make cell `i` exist, as the decoder does before each element:
`if i >= v.Cap() { v.Grow(1) }; if i >= v.Len() { v.SetLen(i + 1) }`. -/
def expand {T : Type} [Inhabited T] (g : Nat → Nat → Nat) (s : Slice) (i : Nat) (h : Heap T) :
    Option (Slice × Heap T) :=
  match (if s.cap ≤ i then growOne g s h else some (s, h)) with
  | none => none
  | some (s1, h1) =>
    match (if s1.len ≤ i then reslice s1 (i + 1) else some s1) with
    | none => none
    | some s2 => some (s2, h1)

/-- The decoder's loop over the elements of a JSON array into a slice of
`int`, `i` being the index of the next element: make cell `i` exist and
decode into it; at the end cut the length to the number of elements, and an
empty array gives a new empty slice. -/
def decodeArray (g : Nat → Nat → Nat) :
    List JSON → Nat → Slice → Heap Int → Option JSONError →
      Option (Slice × Heap Int × Option JSONError)
  | [], i, s, h, err =>
    if i = 0 then some ((makeSlice 0 h).1, (makeSlice 0 h).2, err)
    else if i < s.len then some ({ s with len := i }, h, err)
    else some (s, h, err)
  | e :: es, i, s, h, err =>
    match expand g s i h with
    | none => none
    | some (s2, h1) =>
      match decodeElem e with
      | Decoded.value n =>
        match setIndex s2 i n h1 with
        | none => none
        | some h2 => decodeArray g es (i + 1) s2 h2 err
      | Decoded.noEffect => decodeArray g es (i + 1) s2 h1 err
      | Decoded.mismatch => decodeArray g es (i + 1) s2 h1 (saveError err)

/-- The error the decoder reports after the elements `es`, `err` being the
one recorded before them: the first type error wins. -/
def errAfter (err : Option JSONError) : List JSON → Option JSONError
  | [] => err
  | e :: es =>
    match decodeElem e with
    | Decoded.mismatch => errAfter (saveError err) es
    | _ => errAfter err es

/-- The standard library `json.Unmarshal(data, &x)` for `x` a slice of `int`:
a syntax error leaves `x` alone; `null` sets it to nil; an array is decoded
element by element into `x`; any other value is a type error. -/
def jsonUnmarshal (g : Nat → Nat → Nat) (data : Bytes) (s : Slice) (h : Heap Int) :
    Option (Slice × Heap Int × Option JSONError) :=
  match parseJSON data with
  | none => some (s, h, some JSONError.malformed)
  | some JSON.null => some (nilSlice, h, none)
  | some (JSON.arr es) => decodeArray g es 0 s h none
  | some _ => some (s, h, some JSONError.mismatch)

/-- The JSON text of an array of `int`. -/
def renderArray (xs : List Int) : Bytes :=
  91 :: (List.intercalate [44] (xs.map renderInt) ++ [93])

/-- The standard library `json.Marshal(x)` for `x` a slice of `int`: `null`
for the nil slice, the array otherwise. -/
def jsonMarshal (s : Slice) (h : Heap Int) : Option Bytes :=
  match s.arr with
  | none => some (bytes "null")
  | some _ =>
    match elems s h with
    | none => none
    | some xs => some (renderArray xs)

/-- Go `MarshalJSON`: `json.Marshal(s.items)`; the error is always nil here. -/
def Stack.MarshalJSON (p : Nat) (h : Heap Int) :
    Option ((Bytes × Option JSONError) × Heap Int) :=
  match load p h with
  | none => none
  | some s =>
    match jsonMarshal s h with
    | none => none
    | some data => some ((data, none), h)

/-- Go `UnmarshalJSON`: `json.Unmarshal(data, &s.items)`, the error returned
as it is. -/
def Stack.UnmarshalJSON (g : Nat → Nat → Nat) (p : Nat) (data : Bytes) (h : Heap Int) :
    Option (Option JSONError × Heap Int) :=
  match load p h with
  | none => none
  | some s =>
    match jsonUnmarshal g data s h with
    | none => none
    | some (s', h', err) => some (err, store p s' h')

/-- The heap after `s := New[int](); Push(s, 7); Push(s, 8)` under `double`. -/
def intHeap : Heap Int := ⟨[[], [7], [7, 8]], [⟨some 2, 2, 2⟩]⟩

/-- A byte that may follow an element of an array: a comma or `]`. -/
def isDelim (c : Nat) : Prop := c = 44 ∨ c = 93

/-- The `items` field of the stack at `p` is the nil slice. -/
def nilItems {T : Type} (p : Nat) (h : Heap T) : Bool :=
  match load p h with
  | none => false
  | some s => s.arr.isNone

/-- A JSON value that is neither an array nor `null`: a boolean, a number, a
string or an object. -/
def notArrayOrNull : JSON → Bool
  | JSON.null => false
  | JSON.arr _ => false
  | _ => true

/-- The heap after `var s Stack[int]`: one struct, its `items` nil. -/
def zeroHeap : Heap Int := ⟨[], [⟨none, 0, 0⟩]⟩

/-! ## The text of a JSON array of integers -/

/-- The bytes are all JSON white space. -/
def allWs (w : Bytes) : Bool := w.all isWs

/-- What may follow a number in a text: the end of the text, or a byte that
is not a digit, a dot or an exponent letter. -/
def endsNumber : Bytes → Prop
  | [] => True
  | t :: _ => isDigit t = false ∧ t ≠ 46 ∧ t ≠ 101 ∧ t ≠ 69

/-- A JSON integer literal for `n`: its decimal text, or, when `alt` is set
and `n` is zero, the other literal JSON has for zero, `-0`. -/
def intLit (n : Int) (alt : Bool) : Bytes :=
  if alt && decide (n = 0) then [45, 48] else renderInt n

/-- One element of an array text: the integer, which literal is written for
it, and the white space before and after the literal. -/
structure Padded where
  pre : Bytes
  val : Int
  alt : Bool
  post : Bytes

/-- The element is written with white space only around its literal. -/
def Padded.spaced (e : Padded) : Prop :=
  allWs e.pre = true ∧ allWs e.post = true

/-- The element is written with white space only around its literal and its
value is a Go `int`. -/
def Padded.wf (e : Padded) : Prop :=
  allWs e.pre = true ∧ allWs e.post = true ∧ minInt ≤ e.val ∧ e.val ≤ maxInt

/-- The elements of an array text, separated by commas. -/
def elemsText : List Padded → Bytes
  | [] => []
  | [e] => e.pre ++ (intLit e.val e.alt ++ e.post)
  | e :: e2 :: es => e.pre ++ (intLit e.val e.alt ++ (e.post ++ 44 :: elemsText (e2 :: es)))

/-- The text of a JSON array of integers: `lead`, `[`, the elements (or
`inner` when there are none), `]`, `trail`. -/
def arrayText (lead inner : Bytes) (es : List Padded) (trail : Bytes) : Bytes :=
  lead ++ 91 :: ((match es with
    | [] => inner
    | _ :: _ => elemsText es) ++ 93 :: trail)

/-- An array text cut off before its `]`. -/
def truncatedText (lead : Bytes) (es : List Padded) : Bytes :=
  lead ++ 91 :: elemsText es

/-- Two elements: `1`, and the least integer that does not fit `int`. -/
def overflowElems : List Padded :=
  [⟨[], 1, false, []⟩, ⟨[], 9223372036854775808, false, []⟩]

/-- Three elements: `5`, then 10 with a space on each side, then `-0` with a
line feed after it. -/
def threeElems : List Padded :=
  [⟨[], 5, false, []⟩, ⟨[32], 10, false, [32]⟩, ⟨[], 0, true, [10]⟩]

/-! ## The decoder's loop at another element type -/

/-- What decoding a JSON value into an existing cell of type `T` does. -/
inductive DecodedAs (T : Type) where
  | value (t : T)
  | noEffect
  | mismatch

/-- The decoder's loop for a slice of any element type `T`: the same steps as
`decodeArray`, the decoding of one JSON value into its cell (`d.value` on
`v.Index(i)`) being the parameter `dec`, which is given the value the cell
holds. -/
def decodeArrayOf {T : Type} [Inhabited T] (dec : JSON → T → DecodedAs T)
    (g : Nat → Nat → Nat) :
    List JSON → Nat → Slice → Heap T → Option JSONError →
      Option (Slice × Heap T × Option JSONError)
  | [], i, s, h, err =>
    if i = 0 then some ((makeSlice 0 h).1, (makeSlice 0 h).2, err)
    else if i < s.len then some ({ s with len := i }, h, err)
    else some (s, h, err)
  | e :: es, i, s, h, err =>
    match expand g s i h with
    | none => none
    | some (s2, h1) =>
      match index s2 i h1 with
      | none => none
      | some old =>
        match dec e old with
        | DecodedAs.value n =>
          match setIndex s2 i n h1 with
          | none => none
          | some h2 => decodeArrayOf dec g es (i + 1) s2 h2 err
        | DecodedAs.noEffect => decodeArrayOf dec g es (i + 1) s2 h1 err
        | DecodedAs.mismatch => decodeArrayOf dec g es (i + 1) s2 h1 (saveError err)

/-- The standard library `json.Unmarshal(data, &x)` for `x` a slice of `T`. -/
def jsonUnmarshalOf {T : Type} [Inhabited T] (dec : JSON → T → DecodedAs T)
    (g : Nat → Nat → Nat) (data : Bytes) (s : Slice) (h : Heap T) :
    Option (Slice × Heap T × Option JSONError) :=
  match parseJSON data with
  | none => some (s, h, some JSONError.malformed)
  | some JSON.null => some (nilSlice, h, none)
  | some (JSON.arr es) => decodeArrayOf dec g es 0 s h none
  | some _ => some (s, h, some JSONError.mismatch)

/-- Go `UnmarshalJSON` on a `Stack[T]`. -/
def Stack.UnmarshalJSONOf {T : Type} [Inhabited T] (dec : JSON → T → DecodedAs T)
    (g : Nat → Nat → Nat) (p : Nat) (data : Bytes) (h : Heap T) :
    Option (Option JSONError × Heap T) :=
  match load p h with
  | none => none
  | some s =>
    match jsonUnmarshalOf dec g data s h with
    | none => none
    | some (s', h', err) => some (err, store p s' h')

/-- The element type `struct{ x int }`: its only field is not exported. -/
structure Hidden where
  x : Int
deriving DecidableEq, Inhabited

/-- Decoding into a `struct{ x int }`: the decoder sets exported fields only,
so a JSON object, like `null`, leaves the cell as it is; any other value is a
type error. -/
def decodeHidden : JSON → Hidden → DecodedAs Hidden
  | JSON.obj, _ => DecodedAs.noEffect
  | JSON.null, _ => DecodedAs.noEffect
  | _, _ => DecodedAs.mismatch

/-- The heap after `s := New[struct{ x int }](); Push(s, {1})` under `double`. -/
def hiddenHeap : Heap Hidden := ⟨[[], [⟨1⟩]], [⟨some 1, 1, 1⟩]⟩

/-- The heap after `var s Stack[struct{ x int }]`. -/
def hiddenZeroHeap : Heap Hidden := ⟨[], [⟨none, 0, 0⟩]⟩

/-! ## `json.Marshal` at another element type -/

/-- The error of `json.Marshal`: a value that has no JSON encoding (an
`UnsupportedTypeError`, an `UnsupportedValueError`, or the error of an
element's own marshaller). -/
inductive MarshalError where
  | unsupported
deriving DecidableEq

/-- Encode the elements in order, as the array encoder does; an element that
has no encoding makes the whole encoding fail. -/
def encodeAll {T : Type} (enc : T → Option Bytes) : List T → Option (List Bytes)
  | [] => some []
  | x :: xs =>
    match enc x with
    | none => none
    | some b =>
      match encodeAll enc xs with
      | none => none
      | some bs => some (b :: bs)

/-- The letter of the standard base64 alphabet for a value below 64. -/
def base64Char (n : Nat) : Nat :=
  if n < 26 then 65 + n
  else if n < 52 then 97 + (n - 26)
  else if n < 62 then 48 + (n - 52)
  else if n = 62 then 43
  else 47

/-- The standard base64 encoding, with padding, of a run of bytes. -/
def base64 : List Nat → Bytes
  | [] => []
  | [a] => [base64Char (a / 4), base64Char (a % 4 * 16), 61, 61]
  | [a, b] => [base64Char (a / 4), base64Char (a % 4 * 16 + b / 16), base64Char (b % 16 * 4), 61]
  | a :: b :: c :: rest =>
    base64Char (a / 4) :: base64Char (a % 4 * 16 + b / 16) ::
      base64Char (b % 16 * 4 + c / 64) :: base64Char (c % 64) :: base64 rest

/-- The encoder `json.Marshal` picks for a slice of `T`, by the element type:
for a byte type (kind `uint8`, no marshaller of its own) the one that writes
the slice as one base64 string, `val` giving the value of a byte; for any
other type the one that writes an array, `enc` being the encoder of one
element, which gives nothing for a value that has no JSON encoding. -/
inductive SliceEncoder (T : Type) where
  | byteSlice (val : T → Nat)
  | array (enc : T → Option Bytes)

/-- The standard library `json.Marshal(x)` for `x` a slice of `T`: `null` for
the nil slice; otherwise, for a byte type, one JSON string, the base64 text of
the bytes, and for any other type `[`, the encodings of the elements separated
by commas, `]`; when an element has no encoding the result is nil bytes and an
error. -/
def jsonMarshalOf {T : Type} (e : SliceEncoder T) (s : Slice) (h : Heap T) :
    Option (Bytes × Option MarshalError) :=
  match s.arr with
  | none => some (bytes "null", none)
  | some _ =>
    match elems s h with
    | none => none
    | some xs =>
      match e with
      | SliceEncoder.byteSlice val => some (34 :: (base64 (xs.map val) ++ [34]), none)
      | SliceEncoder.array enc =>
        match encodeAll enc xs with
        | none => some ([], some MarshalError.unsupported)
        | some bs => some (91 :: (List.intercalate [44] bs ++ [93]), none)

/-- Go `MarshalJSON` on a `Stack[T]`: `json.Marshal(s.items)`. -/
def Stack.MarshalJSONOf {T : Type} (e : SliceEncoder T) (p : Nat) (h : Heap T) :
    Option ((Bytes × Option MarshalError) × Heap T) :=
  match load p h with
  | none => none
  | some s =>
    match jsonMarshalOf e s h with
    | none => none
    | some r => some (r, h)

/-- The encoder of `json.Marshal` for an `int`: its decimal text. -/
def encodeInt (n : Int) : Option Bytes := some (renderInt n)

/-- The encoder of `json.Marshal` for a channel: there is none. -/
def encodeChan (_ : Unit) : Option Bytes := none

/-- The heap after `s := New[byte](); Push(s, 1); Push(s, 2)` under `double`. -/
def byteHeap : Heap Nat := ⟨[[], [1], [1, 2]], [⟨some 2, 2, 2⟩]⟩

/-- The heap after `s := New[chan int](); Push(s, c)` under `double`. -/
def chanHeap : Heap Unit := ⟨[[], [()]], [⟨some 1, 1, 1⟩]⟩

/-! ## Slices: consistency, framing, `append` -/

section Lemmas

variable {T : Type}

theorem Slice_ok_iff {s : Slice} {h : Heap T} :
    s.ok h = true ↔
      s.len ≤ s.cap ∧
        ((s.arr = none ∧ s.cap = 0) ∨
          ∃ a xs, s.arr = some a ∧ h.arrays[a]? = some xs ∧ s.cap ≤ xs.length) := by
  unfold Slice.ok
  cases ha : s.arr with
  | none => simp
  | some a =>
    cases hx : h.arrays[a]? with
    | none => simp [hx]
    | some xs => simp [hx]

theorem ArrFrame_refl (a : Option Nat) (h : Heap T) : ArrFrame a h h :=
  fun _ _ hb _ => hb

theorem frame_slice {s : Slice} {h h' : Heap T} {a : Option Nat} (hok : s.ok h = true)
    (hne : s.arr = none ∨ s.arr ≠ a) (hf : ArrFrame a h h') :
    s.ok h' = true ∧ elems s h' = elems s h := by
  obtain ⟨hlc, hcase⟩ := Slice_ok_iff.mp hok
  rcases hcase with ⟨hn, hc⟩ | ⟨b, xs, hb, hxs, hc⟩
  · refine ⟨Slice_ok_iff.mpr ⟨hlc, Or.inl ⟨hn, hc⟩⟩, ?_⟩
    simp [elems, hn]
  · have hab : a ≠ some b := by
      rcases hne with hn | hn
      · rw [hb] at hn; cases hn
      · rw [hb] at hn; exact fun e => hn e.symm
    have hxs' := hf b xs hxs hab
    refine ⟨Slice_ok_iff.mpr ⟨hlc, Or.inr ⟨b, xs, hb, hxs', hc⟩⟩, ?_⟩
    simp [elems, hb, hxs, hxs']

theorem ok_elems {s : Slice} {h : Heap T} (hok : s.ok h = true) :
    ∃ xs, elems s h = some xs ∧ xs.length = s.len := by
  obtain ⟨hlc, hcase⟩ := Slice_ok_iff.mp hok
  rcases hcase with ⟨hn, hc⟩ | ⟨b, xs, hb, hxs, hc⟩
  · have : s.len = 0 := by omega
    exact ⟨[], by simp [elems, hn, this], by simp [this]⟩
  · refine ⟨xs.take s.len, ?_, ?_⟩
    · have : s.len ≤ xs.length := by omega
      simp [elems, hb, hxs, this]
    · simp; omega

theorem ok_arr_lt {s : Slice} {h : Heap T} (hok : s.ok h = true) {a : Nat}
    (ha : s.arr = some a) : a < h.arrays.length := by
  obtain ⟨_, hcase⟩ := Slice_ok_iff.mp hok
  rcases hcase with ⟨hn, _⟩ | ⟨b, xs, hb, hxs, _⟩
  · rw [ha] at hn; cases hn
  · rw [ha] at hb; cases hb
    by_contra hlt
    rw [List.getElem?_eq_none (by omega)] at hxs
    cases hxs

/-- What `append` does to a consistent slice: it returns a consistent slice
holding the old elements followed by the new ones, touches no array other
than the slice's own, and a changed array pointer is a fresh one. -/
theorem append_spec [Inhabited T] (g : Nat → Nat → Nat) {s : Slice} {h : Heap T}
    (vs : List T) (hok : s.ok h = true) :
    ∃ xs s' h', elems s h = some xs ∧ append g s vs h = some (s', h') ∧
      s'.ok h' = true ∧ elems s' h' = some (xs ++ vs) ∧ s'.len = s.len + vs.length ∧
      h'.structs = h.structs ∧ ArrFrame s.arr h h' ∧
      (s'.arr = s.arr ∨ ∃ a, s'.arr = some a ∧ h.arrays.length ≤ a) ∧
      (s.arr = none → vs = [] → s'.arr = none) ∧ (s.arr ≠ none → s'.arr ≠ none) := by
  obtain ⟨xs, hxs, hlen⟩ := ok_elems hok
  cases vs with
  | nil =>
    exact ⟨xs, s, h, hxs, rfl, hok, by simpa using hxs, by simp, rfl, ArrFrame_refl _ _,
      Or.inl rfl, fun hn _ => hn, fun hn => hn⟩
  | cons v rest =>
    obtain ⟨hlc, hcase⟩ := Slice_ok_iff.mp hok
    by_cases hroom : s.len + (v :: rest).length ≤ s.cap
    · -- written in place
      rcases hcase with ⟨hn, hc⟩ | ⟨a, arr, ha, harr, hc⟩
      · simp at hroom; omega
      · have halt : a < h.arrays.length := ok_arr_lt hok ha
        have hx : xs = arr.take s.len := by
          have : s.len ≤ arr.length := by omega
          simp [elems, ha, harr, this] at hxs
          exact hxs.symm
        refine ⟨xs, Slice.mk s.arr (s.len + (v :: rest).length) s.cap,
          Heap.mk (h.arrays.set a
              (arr.take s.len ++ (v :: rest) ++ arr.drop (s.len + (v :: rest).length)))
            h.structs,
          hxs, ?_, ?_, ?_, rfl, rfl, ?_, Or.inl rfl, ?_, ?_⟩
        · simp only [append, hroom, ha, harr, hc, if_true]
        · refine Slice_ok_iff.mpr ⟨hroom, Or.inr ⟨a,
            arr.take s.len ++ (v :: rest) ++ arr.drop (s.len + (v :: rest).length), ha, ?_, ?_⟩⟩
          · simp [List.getElem?_set, halt]
          · simp at hroom ⊢; omega
        · have hl : s.len + (v :: rest).length ≤
              (arr.take s.len ++ (v :: rest) ++ arr.drop (s.len + (v :: rest).length)).length := by
            simp at hroom ⊢; omega
          have hset : (h.arrays.set a
              (arr.take s.len ++ (v :: rest) ++ arr.drop (s.len + (v :: rest).length)))[a]? =
              some (arr.take s.len ++ (v :: rest) ++ arr.drop (s.len + (v :: rest).length)) := by
            simp [List.getElem?_set, halt]
          simp only [elems, ha, hset, hl, if_true]
          have hl2 : (arr.take s.len ++ (v :: rest)).length = s.len + (v :: rest).length := by
            simp; omega
          rw [List.take_left' hl2, hx]
        · intro b ys hb hne
          have : a ≠ b := fun e => hne (by rw [ha, e])
          simpa [List.getElem?_set, this] using hb
        · intro hn; rw [ha] at hn; cases hn
        · intro _; simp [ha]
    · -- reallocated
      refine ⟨xs, ⟨some h.arrays.length, s.len + (v :: rest).length,
          max (s.len + (v :: rest).length) (g s.cap (s.len + (v :: rest).length))⟩,
        Heap.mk (h.arrays ++ [xs ++ (v :: rest) ++
            List.replicate (max (s.len + (v :: rest).length)
              (g s.cap (s.len + (v :: rest).length)) - (s.len + (v :: rest).length)) default])
          h.structs,
        hxs, ?_, ?_, ?_, rfl, rfl, ?_, Or.inr ⟨_, rfl, le_refl _⟩, ?_, ?_⟩
      · simp only [append, hroom, hxs, if_false]
      · refine Slice_ok_iff.mpr ⟨le_max_left _ _, Or.inr ⟨h.arrays.length, xs ++ (v :: rest) ++
            List.replicate (max (s.len + (v :: rest).length)
              (g s.cap (s.len + (v :: rest).length)) - (s.len + (v :: rest).length)) default,
            rfl, ?_, ?_⟩⟩
        · simp
        · simp [hlen]; omega
      · simp only [elems, List.getElem?_concat_length]
        have hl : s.len + (v :: rest).length ≤ (xs ++ (v :: rest) ++
            List.replicate (max (s.len + (v :: rest).length)
              (g s.cap (s.len + (v :: rest).length)) - (s.len + (v :: rest).length))
                (default : T)).length := by
          simp [hlen]
        rw [if_pos hl]
        have hl2 : (xs ++ (v :: rest)).length = s.len + (v :: rest).length := by
          simp [hlen]
        rw [List.take_left' hl2]
      · intro b ys hb _
        have hblt : b < h.arrays.length := by
          by_contra hlt
          rw [List.getElem?_eq_none (by omega)] at hb
          cases hb
        simpa [List.getElem?_append_left hblt] using hb
      · intro _ hv; cases hv
      · intro _; simp

/-! ## Stacks: validity, framing and the effect of each operation -/

theorem nil_or_snoc (xs : List T) : xs = [] ∨ ∃ ys y, xs = ys ++ [y] := by
  induction xs using List.reverseRecOn with
  | nil => exact Or.inl rfl
  | append_singleton ys y _ => exact Or.inr ⟨ys, y, rfl⟩

theorem valid_iff {p : Nat} {h : Heap T} :
    Valid p h = true ↔ ∃ s, load p h = some s ∧ s.ok h = true := by
  unfold Valid
  cases hl : load p h with
  | none => simp
  | some s => simp

theorem load_lt {p : Nat} {h : Heap T} {s : Slice} (hl : load p h = some s) :
    p < h.structs.length := by
  by_contra hlt
  unfold load at hl
  rw [List.getElem?_eq_none (by omega)] at hl
  cases hl

theorem load_store_same {p : Nat} {h : Heap T} {s0 : Slice} (s : Slice)
    (hl : load p h = some s0) : load p (store p s h) = some s := by
  have := load_lt hl
  simp [load, store, List.getElem?_set, this]

theorem load_store_other {p q : Nat} (h : Heap T) (s : Slice) (hne : q ≠ p) :
    load q (store p s h) = load q h := by
  have : p ≠ q := fun e => hne e.symm
  simp [load, store, List.getElem?_set, this]

theorem ok_store (s : Slice) (p : Nat) (s' : Slice) (h : Heap T) :
    s.ok (store p s' h) = s.ok h := rfl

theorem elems_store (s : Slice) (p : Nat) (s' : Slice) (h : Heap T) :
    elems s (store p s' h) = elems s h := rfl

theorem load_congr {p : Nat} {h h' : Heap T} (e : h'.structs = h.structs) :
    load p h' = load p h := by
  simp [load, e]

theorem Sep_symm {p q : Nat} {h : Heap T} (hs : Sep p q h) : Sep q p h :=
  ⟨fun e => hs.1 e.symm, fun sq sp a hq hp ha hb => hs.2 sp sq a hp hq hb ha⟩

theorem items_eq {p : Nat} {h : Heap T} {s : Slice} (hl : load p h = some s) :
    items p h = elems s h := by
  simp [items, hl]

theorem valid_items {p : Nat} {h : Heap T} (hv : Valid p h = true) :
    ∃ s xs, load p h = some s ∧ s.ok h = true ∧ items p h = some xs ∧ xs.length = s.len := by
  obtain ⟨s, hl, hok⟩ := valid_iff.mp hv
  obtain ⟨xs, hxs, hlen⟩ := ok_elems hok
  exact ⟨s, xs, hl, hok, by rw [items_eq hl, hxs], hlen⟩

/-- A call on `p` leaves a separate valid stack `q` exactly as it was, and
still separate. -/
theorem frame_other {p q : Nat} {h h' : Heap T} (hf : StackFrame p h h')
    (hp : Valid p h = true) (hq : Valid q h = true) (hs : Sep p q h) :
    Valid q h' = true ∧ load q h' = load q h ∧ items q h' = items q h ∧ Sep p q h' := by
  obtain ⟨sp, hlp, _⟩ := valid_iff.mp hp
  obtain ⟨sq, hlq, hokq⟩ := valid_iff.mp hq
  have hlq' : load q h' = some sq := by rw [hf.others q (fun e => hs.1 e.symm), hlq]
  have hne : sq.arr = none ∨ sq.arr ≠ sp.arr := by
    cases hb : sq.arr with
    | none => exact Or.inl rfl
    | some b =>
      refine Or.inr fun e => ?_
      exact hs.2 sp sq b hlp hlq e.symm hb
  obtain ⟨hok', hel⟩ := frame_slice hokq hne (hf.arrays sp hlp)
  refine ⟨valid_iff.mpr ⟨sq, hlq', hok'⟩, by rw [hlq', hlq], ?_, hs.1, ?_⟩
  · rw [items_eq hlq', items_eq hlq, hel]
  · intro sp' sq' a hlp' hlq'' ha hb
    rw [hlq'] at hlq''
    cases hlq''
    rcases hf.fresh sp sp' hlp hlp' with e | ⟨c, hc, hge⟩
    · exact hs.2 sp sq a hlp hlq (by rw [← e, ha]) hb
    · rw [ha] at hc
      cases hc
      have := ok_arr_lt hokq hb
      omega

theorem Push_ok [Inhabited T] (g : Nat → Nat → Nat) {p : Nat} {h : Heap T} {xs : List T}
    (v : T) (hv : Valid p h = true) (hi : items p h = some xs) :
    ∃ h', Push g p v h = some h' ∧ Valid p h' = true ∧ items p h' = some (xs ++ [v]) ∧
      StackFrame p h h' := by
  obtain ⟨s, hl, hok⟩ := valid_iff.mp hv
  obtain ⟨ys, s', h1, hys, happ, hok', hel', _, hst, haf, hfr, _, _⟩ :=
    append_spec g [v] hok
  have hxy : ys = xs := by
    rw [items_eq hl, hys] at hi
    exact Option.some.inj hi
  subst hxy
  have hl1 : load p h1 = some s := by rw [load_congr hst, hl]
  have hl' : load p (store p s' h1) = some s' := load_store_same s' hl1
  refine ⟨store p s' h1, ?_, ?_, ?_, ?_, ?_, ?_⟩
  · simp [Push, hl, happ]
  · exact valid_iff.mpr ⟨s', hl', by rw [ok_store]; exact hok'⟩
  · rw [items_eq hl', elems_store, hel']
  · intro q hq
    rw [load_store_other h1 s' hq, load_congr hst]
  · intro s0 hl0
    rw [hl] at hl0
    cases hl0
    exact haf
  · intro s0 s0' hl0 hl0'
    rw [hl] at hl0
    rw [hl'] at hl0'
    cases hl0
    cases hl0'
    exact hfr

theorem Pop_ok [Inhabited T] {p : Nat} {h : Heap T} {xs : List T} {x : T}
    (hv : Valid p h = true) (hi : items p h = some (xs ++ [x])) :
    ∃ h', Pop p h = some ((x, true), h') ∧ Valid p h' = true ∧ items p h' = some xs ∧
      StackFrame p h h' := by
  obtain ⟨s, hl, hok⟩ := valid_iff.mp hv
  obtain ⟨ys, hys, hlen⟩ := ok_elems hok
  have hxy : ys = xs ++ [x] := by
    rw [items_eq hl, hys] at hi
    exact Option.some.inj hi
  subst hxy
  have hpos : s.len = xs.length + 1 := by simpa using hlen.symm
  obtain ⟨hlc, hcase⟩ := Slice_ok_iff.mp hok
  rcases hcase with ⟨_, hc⟩ | ⟨a, arr, ha, harr, hc⟩
  · omega
  · have hle : s.len ≤ arr.length := by omega
    have htake : arr.take s.len = xs ++ [x] := by
      simp [elems, ha, harr, hle] at hys
      exact hys
    have hidx : arr[s.len - 1]? = some x := by
      have h1 : (arr.take s.len)[s.len - 1]? = arr[s.len - 1]? := by
        rw [List.getElem?_take]
        simp; omega
      rw [← h1, htake, hpos]
      simp
    have hl' : load p (store p (Slice.mk s.arr (s.len - 1) s.cap) h)
        = some (Slice.mk s.arr (s.len - 1) s.cap) := load_store_same _ hl
    refine ⟨store p (Slice.mk s.arr (s.len - 1) s.cap) h, ?_, ?_, ?_, ?_, ?_, ?_⟩
    · have hne : s.len ≠ 0 := by omega
      have hlt : s.len - 1 < s.len := by omega
      have hrc : s.len - 1 ≤ s.cap := by omega
      simp [Pop, hl, hne, index, hlt, ha, harr, hidx, reslice, hrc]
    · refine valid_iff.mpr ⟨_, hl', ?_⟩
      rw [ok_store]
      exact Slice_ok_iff.mpr ⟨by simp; omega, Or.inr ⟨a, arr, ha, harr, hc⟩⟩
    · rw [items_eq hl', elems_store]
      have hle' : s.len - 1 ≤ arr.length := by omega
      simp only [elems, ha, harr, hle', if_true]
      have : arr.take (s.len - 1) = (arr.take s.len).take (s.len - 1) := by
        rw [List.take_take]
        congr 1
        omega
      rw [this, htake, hpos]
      simp
    · intro q hq
      exact load_store_other h _ hq
    · intro s0 _ b ys hb _
      exact hb
    · intro s0 s0' hl0 hl0'
      rw [hl] at hl0
      rw [hl'] at hl0'
      cases hl0
      cases hl0'
      exact Or.inl rfl

theorem Pop_empty [Inhabited T] {p : Nat} {h : Heap T} (hv : Valid p h = true)
    (hi : items p h = some []) : Pop p h = some ((default, false), h) := by
  obtain ⟨s, ys, hl, _, hys, hlen⟩ := valid_items hv
  rw [hi] at hys
  cases hys
  have : s.len = 0 := by simpa using hlen.symm
  simp [Pop, hl, this]

theorem Clear_ok [Inhabited T] {p : Nat} {h : Heap T} (hv : Valid p h = true) :
    ∃ h', Clear p h = some h' ∧ Valid p h' = true ∧ items p h' = some [] ∧
      StackFrame p h h' := by
  obtain ⟨s, hl, hok⟩ := valid_iff.mp hv
  have hl1 : load p (makeSlice (T := T) s.cap h).2 = some s := hl
  have hl' := load_store_same (makeSlice (T := T) s.cap h).1 hl1
  refine ⟨store p (makeSlice s.cap h).1 (makeSlice s.cap h).2, ?_, ?_, ?_, ?_, ?_, ?_⟩
  · simp [Clear, hl]
  · refine valid_iff.mpr ⟨_, hl', ?_⟩
    refine Slice_ok_iff.mpr ⟨by simp [makeSlice], Or.inr ⟨h.arrays.length,
      List.replicate s.cap default, rfl, ?_, by simp [makeSlice]⟩⟩
    simp [store, makeSlice]
  · rw [items_eq hl']
    simp [elems, store, makeSlice]
  · intro q hq
    exact load_store_other _ _ hq
  · intro s0 _ b ys hb _
    have hblt : b < h.arrays.length := by
      by_contra hlt
      rw [List.getElem?_eq_none (by omega)] at hb
      cases hb
    simpa [store, makeSlice, List.getElem?_append_left hblt] using hb
  · intro s0 s0' _ hl0'
    rw [hl'] at hl0'
    cases hl0'
    exact Or.inr ⟨h.arrays.length, rfl, le_refl _⟩

theorem Len_ok {p : Nat} {h : Heap T} {xs : List T} (hv : Valid p h = true)
    (hi : items p h = some xs) : Len p h = some ((xs.length : Int), h) := by
  obtain ⟨s, ys, hl, _, hys, hlen⟩ := valid_items hv
  rw [hi] at hys
  cases hys
  simp [Len, hl, hlen]

theorem Peek_empty [Inhabited T] {p : Nat} {h : Heap T} (hv : Valid p h = true)
    (hi : items p h = some []) : Peek p h = some ((default, false), h) := by
  obtain ⟨s, ys, hl, _, hys, hlen⟩ := valid_items hv
  rw [hi] at hys
  cases hys
  have : s.len = 0 := by simpa using hlen.symm
  simp [Peek, hl, this]

theorem Peek_top [Inhabited T] {p : Nat} {h : Heap T} {xs : List T} {x : T}
    (hv : Valid p h = true) (hi : items p h = some (xs ++ [x])) :
    Peek p h = some ((x, true), h) := by
  obtain ⟨h', hpop, _⟩ := Pop_ok hv hi
  obtain ⟨s, hl, _⟩ := valid_iff.mp hv
  unfold Pop at hpop
  unfold Peek
  rw [hl] at hpop ⊢
  simp only at hpop ⊢
  by_cases h0 : s.len = 0
  · simp [h0] at hpop
  · simp only [h0, if_false] at hpop ⊢
    cases hix : index s (s.len - 1) h with
    | none => simp [hix] at hpop
    | some v =>
      simp only [hix] at hpop ⊢
      cases hr : reslice s (s.len - 1) with
      | none => simp [hr] at hpop
      | some s' =>
        simp only [hr] at hpop
        simp only [Option.some.injEq, Prod.mk.injEq] at hpop
        simp [hpop.1.1]

/-! ## Traversal and repeated calls -/

theorem rangeLoop_collect {a : Nat} {arr : List T} {h : Heap T}
    (ha : h.arrays[a]? = some arr) :
    ∀ (n i : Nat) (acc : List T), i + n ≤ arr.length →
      rangeLoop (some a) (fun v (acc : List T) hh => some (true, acc ++ [v], hh)) n i acc h
        = some (acc ++ (arr.drop i).take n, h) := by
  intro n
  induction n with
  | zero => intro i acc _; simp [rangeLoop]
  | succ n ih =>
    intro i acc hle
    have hi : i < arr.length := by omega
    have hget : arr[i]? = some arr[i] := List.getElem?_eq_getElem hi
    rw [rangeLoop]
    simp only [ha, hget]
    rw [ih (i + 1) (acc ++ [arr[i]]) (by omega), List.drop_eq_getElem_cons hi,
      List.take_succ_cons, List.append_assoc]
    rfl

/-- Collecting `Values(s)` reads the contents bottom to top and changes nothing. -/
theorem Values_ok {p : Nat} {h : Heap T} {xs : List T} (hv : Valid p h = true)
    (hi : items p h = some xs) : slicesCollect (Values p) h = some (xs, h) := by
  obtain ⟨s, hl, hok⟩ := valid_iff.mp hv
  rw [items_eq hl] at hi
  obtain ⟨hlc, hcase⟩ := Slice_ok_iff.mp hok
  rcases hcase with ⟨hn, hc⟩ | ⟨a, arr, ha, harr, hc⟩
  · have h0 : s.len = 0 := by omega
    simp [elems, hn, h0] at hi
    simp [slicesCollect, Values, hl, h0, rangeLoop, hi]
  · have hle : s.len ≤ arr.length := by omega
    simp [elems, ha, harr, hle] at hi
    simp only [slicesCollect, Values, hl, ha]
    rw [rangeLoop_collect harr s.len 0 [] (by omega)]
    simp [hi]

theorem pushAll_ok [Inhabited T] (g : Nat → Nat → Nat) {p : Nat} (vs : List T) :
    ∀ {h : Heap T} {xs : List T}, Valid p h = true → items p h = some xs →
      ∃ h', pushAll g p vs h = some h' ∧ Valid p h' = true ∧ items p h' = some (xs ++ vs) := by
  induction vs with
  | nil => intro h xs hv hi; exact ⟨h, rfl, hv, by simpa using hi⟩
  | cons v vs ih =>
    intro h xs hv hi
    obtain ⟨h1, hpush, hv1, hi1, _⟩ := Push_ok g v hv hi
    obtain ⟨h2, hall, hv2, hi2⟩ := ih hv1 hi1
    exact ⟨h2, by simp [pushAll, hpush, hall], hv2, by simpa using hi2⟩

theorem popN_ok [Inhabited T] {p : Nat} (vs : List T) :
    ∀ {h : Heap T} {xs : List T}, Valid p h = true → items p h = some (xs ++ vs) →
      ∃ h', popN p vs.length h = some (vs.reverse.map (fun v => (v, true)), h') ∧
        Valid p h' = true ∧ items p h' = some xs := by
  induction vs using List.reverseRecOn with
  | nil => intro h xs hv hi; exact ⟨h, rfl, hv, by simpa using hi⟩
  | append_singleton ws w ih =>
    intro h xs hv hi
    rw [← List.append_assoc] at hi
    obtain ⟨h1, hpop, hv1, hi1, _⟩ := Pop_ok hv hi
    obtain ⟨h2, hrest, hv2, hi2⟩ := ih hv1 hi1
    refine ⟨h2, ?_, hv2, hi2⟩
    simp [popN, hpop, hrest]

theorem popN_empty [Inhabited T] {p : Nat} {h : Heap T} (hv : Valid p h = true)
    (hi : items p h = some []) (n : Nat) :
    popN p n h = some (List.replicate n (default, false), h) := by
  induction n with
  | zero => rfl
  | succ n ih => simp [popN, Pop_empty hv hi, ih, List.replicate_succ]

theorem peekN_same [Inhabited T] {p : Nat} {h : Heap T} {r : T × Bool}
    (hp : Peek p h = some (r, h)) (n : Nat) :
    peekN p n h = some (List.replicate n r, h) := by
  induction n with
  | zero => rfl
  | succ n ih => simp [peekN, hp, ih, List.replicate_succ]

theorem Len_zero_items {p : Nat} {h : Heap T} (hv : Valid p h = true)
    (h0 : Len p h = some (0, h)) : items p h = some [] := by
  obtain ⟨s, xs, hl, _, hxs, hlen⟩ := valid_items hv
  simp [Len, hl] at h0
  rw [h0] at hlen
  rw [hxs, List.length_eq_zero.mp hlen]

/-! ## Runs of calls, `Clone`, `New`, `Collect` -/

theorem StackFrame_refl (p : Nat) (h : Heap T) : StackFrame p h h :=
  ⟨fun _ _ => rfl, fun _ _ => ArrFrame_refl _ _, fun s s' hl hl' => by
    rw [hl] at hl'; cases hl'; exact Or.inl rfl⟩

theorem applyOp_ok [Inhabited T] (g : Nat → Nat → Nat) {p : Nat} {h : Heap T} (op : Op T)
    (hv : Valid p h = true) :
    ∃ h', applyOp g p op h = some h' ∧ Valid p h' = true ∧ StackFrame p h h' := by
  obtain ⟨s, xs, _, _, hi, _⟩ := valid_items hv
  cases op with
  | push v =>
    obtain ⟨h', hp, hv', _, hf⟩ := Push_ok g v hv hi
    exact ⟨h', hp, hv', hf⟩
  | pop =>
    rcases nil_or_snoc xs with rfl | ⟨ys, y, rfl⟩
    · exact ⟨h, by simp [applyOp, Pop_empty hv hi], hv, StackFrame_refl p h⟩
    · obtain ⟨h', hp, hv', _, hf⟩ := Pop_ok hv hi
      exact ⟨h', by simp [applyOp, hp], hv', hf⟩
  | clear =>
    obtain ⟨h', hp, hv', _, hf⟩ := Clear_ok hv
    exact ⟨h', hp, hv', hf⟩

/-- A run of calls on `p` succeeds and leaves a separate valid stack `q`
as it was. -/
theorem applyOps_frame [Inhabited T] (g : Nat → Nat → Nat) {p q : Nat} (ops : List (Op T)) :
    ∀ {h : Heap T}, Valid p h = true → Valid q h = true → Sep p q h →
      ∃ h', applyOps g p ops h = some h' ∧ Valid p h' = true ∧ Valid q h' = true ∧
        Sep p q h' ∧ items q h' = items q h := by
  induction ops with
  | nil => intro h hp hq hs; exact ⟨h, rfl, hp, hq, hs, rfl⟩
  | cons op ops ih =>
    intro h hp hq hs
    obtain ⟨h1, hop, hp1, hf⟩ := applyOp_ok g op hp
    obtain ⟨hq1, _, hi1, hs1⟩ := frame_other hf hp hq hs
    obtain ⟨h2, hrun, hp2, hq2, hs2, hi2⟩ := ih hp1 hq1 hs1
    exact ⟨h2, by simp [applyOps, hop, hrun], hp2, hq2, hs2, by rw [hi2, hi1]⟩

theorem arrays_append_get {h : Heap T} {b : Nat} {ys : List T} (extra : List (List T))
    (hb : h.arrays[b]? = some ys) : (h.arrays ++ extra)[b]? = some ys := by
  have hblt : b < h.arrays.length := by
    by_contra hlt
    rw [List.getElem?_eq_none (by omega)] at hb
    cases hb
  rw [List.getElem?_append_left hblt]
  exact hb

theorem load_alloc_new (s : Slice) (h : Heap T) :
    load (alloc s h).1 (alloc s h).2 = some s := by
  simp [load, alloc]

theorem load_alloc_old {q : Nat} (s : Slice) {h : Heap T} (hq : q < h.structs.length) :
    load q (alloc s h).2 = load q h := by
  simp [load, alloc, List.getElem?_append_left hq]

/-- Go `New` returns a valid, empty stack at a fresh address. -/
theorem New_ok [Inhabited T] (h : Heap T) :
    (New h).1 = h.structs.length ∧ Valid (New h).1 (New h).2 = true ∧
      items (New h).1 (New h).2 = some [] := by
  have hl : load (New h).1 (New h).2 = some ⟨some h.arrays.length, 0, 0⟩ := by
    simp [New, makeSlice, alloc, load]
  refine ⟨rfl, valid_iff.mpr ⟨_, hl, ?_⟩, ?_⟩
  · refine Slice_ok_iff.mpr ⟨le_refl _, Or.inr ⟨h.arrays.length, [], rfl, ?_, le_refl _⟩⟩
    simp [New, makeSlice, alloc]
  · rw [items_eq hl]
    simp [elems, New, makeSlice, alloc]

/-- Go `Clone` returns a valid stack at a fresh address with the contents of the
original, leaves the original as it was, and the two share no storage. -/
theorem Clone_ok [Inhabited T] (g : Nat → Nat → Nat) {p : Nat} {h : Heap T} {xs : List T}
    (hv : Valid p h = true) (hi : items p h = some xs) :
    ∃ c h1, Clone g p h = some (c, h1) ∧ c = h.structs.length ∧ Valid c h1 = true ∧
      items c h1 = some xs ∧ Valid p h1 = true ∧ items p h1 = some xs ∧
      load p h1 = load p h ∧ Sep p c h1 := by
  obtain ⟨s, hl, hok⟩ := valid_iff.mp hv
  have hplt := load_lt hl
  have hne : p ≠ h.structs.length := by omega
  rw [items_eq hl] at hi
  cases ha : s.arr with
  | none =>
    have hx : xs = [] := by
      obtain ⟨hlc, hcase⟩ := Slice_ok_iff.mp hok
      rcases hcase with ⟨_, hc⟩ | ⟨a, _, ha', _⟩
      · have h0 : s.len = 0 := by omega
        simp [elems, ha, h0] at hi
        exact hi
      · rw [ha] at ha'; cases ha'
    subst hx
    have hlc : load (alloc nilSlice h).1 (alloc nilSlice h).2 = some nilSlice :=
      load_alloc_new _ _
    have hlp : load p (alloc nilSlice h).2 = some s := by rw [load_alloc_old _ hplt, hl]
    refine ⟨(alloc nilSlice h).1, (alloc nilSlice h).2, ?_, rfl, ?_, ?_, ?_, ?_, ?_, hne, ?_⟩
    · simp [Clone, hl, slicesClone, ha]
    · exact valid_iff.mpr ⟨_, hlc, by simp [Slice.ok, nilSlice]⟩
    · rw [items_eq hlc]; simp [elems, nilSlice]
    · exact valid_iff.mpr ⟨s, hlp, hok⟩
    · rw [items_eq hlp]; exact hi
    · rw [hlp, hl]
    · intro sp sq a _ hq _ hb
      rw [hlc] at hq
      cases hq
      simp [nilSlice] at hb
  | some a =>
    have halt : a < h.arrays.length := ok_arr_lt hok ha
    -- the empty literal `S{}`
    have hoke : (makeSlice (T := T) 0 h).1.ok (makeSlice (T := T) 0 h).2 = true :=
      Slice_ok_iff.mpr ⟨le_refl _, Or.inr ⟨h.arrays.length, [], rfl,
        by simp [makeSlice], le_refl _⟩⟩
    obtain ⟨ys, s', h2, hys, happ, hok', hel', _, hst, haf, hfr, _, hnn⟩ :=
      append_spec g xs hoke
    have hy : ys = [] := by
      simp [elems, makeSlice] at hys
      exact hys
    subst hy
    -- the original slice is untouched
    have hf1 : ArrFrame none h (makeSlice (T := T) 0 h).2 :=
      fun b zs hb _ => arrays_append_get _ hb
    obtain ⟨hok1, hel1⟩ := frame_slice hok (Or.inr (by rw [ha]; simp)) hf1
    have hne2 : s.arr ≠ (makeSlice (T := T) 0 h).1.arr := by
      rw [ha]
      simp only [makeSlice]
      intro e
      cases e
      omega
    obtain ⟨hok2, hel2⟩ := frame_slice hok1 (Or.inr hne2) haf
    -- the clone's array is a new one
    have hnew : ∀ b, s'.arr = some b → h.arrays.length ≤ b := by
      intro b hb
      rcases hfr with e | ⟨c, hc, hge⟩
      · rw [hb] at e
        simp only [makeSlice] at e
        cases e
        exact le_refl _
      · rw [hb] at hc
        cases hc
        simp [makeSlice] at hge
        omega
    have hstr : h2.structs = h.structs := hst
    have hlc : load (alloc s' h2).1 (alloc s' h2).2 = some s' := load_alloc_new _ _
    have hlp : load p (alloc s' h2).2 = some s := by
      rw [load_alloc_old _ (by rw [hstr]; exact hplt), load_congr hstr, hl]
    refine ⟨(alloc s' h2).1, (alloc s' h2).2, ?_, ?_, ?_, ?_, ?_, ?_, ?_, ?_, ?_⟩
    · simp only [Clone, hl, slicesClone, ha, hi]
      rw [happ]
    · simp [alloc, hstr]
    · exact valid_iff.mpr ⟨s', hlc, hok'⟩
    · rw [items_eq hlc]
      simpa using hel'
    · exact valid_iff.mpr ⟨s, hlp, hok2⟩
    · rw [items_eq hlp]
      change elems s h2 = some xs
      rw [hel2, hel1, hi]
    · rw [hlp, hl]
    · simp [alloc, hstr]; omega
    · intro sp sq b hp hq hpb hqb
      rw [hlp] at hp
      rw [hlc] at hq
      cases hp
      cases hq
      rw [ha] at hpb
      cases hpb
      have := hnew _ hqb
      omega

theorem slicesValuesLoop_push [Inhabited T] (g : Nat → Nat → Nat) (s : Nat) (es : List T) :
    ∀ h : Heap T,
      slicesValuesLoop (fun e (_ : Unit) hh =>
          match Push g s e hh with
          | none => none
          | some hh' => some (true, (), hh')) es () h
        = (pushAll g s es h).map (fun h' => ((), h')) := by
  induction es with
  | nil => intro h; rfl
  | cons e es ih =>
    intro h
    cases hp : Push g s e h with
    | none => simp [slicesValuesLoop, pushAll, hp]
    | some h1 => simp [slicesValuesLoop, pushAll, hp, ih]

/-- Go `Collect` over the elements `es` returns a valid stack at a fresh address
whose contents are `es`. -/
theorem Collect_ok [Inhabited T] (g : Nat → Nat → Nat) (es : List T) (h : Heap T) :
    ∃ h', Collect g (slicesValues es) h = some (h.structs.length, h') ∧
      Valid h.structs.length h' = true ∧ items h.structs.length h' = some es := by
  obtain ⟨hn, hv, hi⟩ := New_ok h
  obtain ⟨h', hall, hv', hi'⟩ := pushAll_ok g es hv hi
  rw [hn] at hall hv' hi'
  refine ⟨h', ?_, hv', by simpa using hi'⟩
  have hloop := slicesValuesLoop_push g h.structs.length es (New h).2
  rw [hall] at hloop
  have hpair : New h = (h.structs.length, (New h).2) := by rw [← hn]
  simp only [Collect, slicesValues]
  rw [hpair]
  simp only [hloop, Option.map_some']

/-- The zero value of `Stack[T]` is a valid, empty stack. -/
theorem zeroStack_ok (h : Heap T) :
    Valid (zeroStack h).1 (zeroStack h).2 = true ∧
      items (zeroStack h).1 (zeroStack h).2 = some [] := by
  have hl : load (zeroStack h).1 (zeroStack h).2 = some nilSlice := load_alloc_new _ _
  refine ⟨valid_iff.mpr ⟨_, hl, by simp [Slice.ok, nilSlice]⟩, ?_⟩
  rw [items_eq hl]
  simp [elems, nilSlice]

theorem Peek_last [Inhabited T] {p : Nat} {h : Heap T} {xs : List T} {x : T}
    (hv : Valid p h = true) (hi : items p h = some xs) (hx : xs.getLast? = some x) :
    Peek p h = some ((x, true), h) := by
  rcases nil_or_snoc xs with rfl | ⟨ys, y, rfl⟩
  · simp at hx
  · simp at hx
    rw [← hx]
    exact Peek_top hv hi

/-- A run of `Push` and `Pop` calls that never pops more than the stack
holds succeeds, and the final length is the initial one plus the pushes
minus the pops. -/
theorem run_len [Inhabited T] (g : Nat → Nat → Nat) {p : Nat} (ops : List (Op T)) :
    ∀ {h : Heap T} {xs : List T}, Valid p h = true → items p h = some xs →
      Op.clear ∉ ops →
      (∀ k, k ≤ ops.length → countPop (ops.take k) ≤ xs.length + countPush (ops.take k)) →
      ∃ h' ys, applyOps g p ops h = some h' ∧ Valid p h' = true ∧ items p h' = some ys ∧
        ys.length + countPop ops = xs.length + countPush ops := by
  induction ops with
  | nil =>
    intro h xs hv hi _ _
    exact ⟨h, xs, rfl, hv, hi, by simp [countPop, countPush]⟩
  | cons op ops ih =>
    intro h xs hv hi hnc hbal
    have hnc' : Op.clear ∉ ops := fun hm => hnc (List.mem_cons_of_mem _ hm)
    cases op with
    | push v =>
      obtain ⟨h1, hpush, hv1, hi1, _⟩ := Push_ok g v hv hi
      have hbal' : ∀ k, k ≤ ops.length →
          countPop (ops.take k) ≤ (xs ++ [v]).length + countPush (ops.take k) := by
        intro k hk
        have := hbal (k + 1) (by simp; omega)
        simp [countPop, countPush] at this ⊢
        omega
      obtain ⟨h2, ys, hrun, hv2, hi2, hlen⟩ := ih hv1 hi1 hnc' hbal'
      refine ⟨h2, ys, by simp [applyOps, applyOp, hpush, hrun], hv2, hi2, ?_⟩
      simp [countPop, countPush] at hlen ⊢
      omega
    | pop =>
      have h1k := hbal 1 (by simp)
      simp [countPop, countPush] at h1k
      rcases nil_or_snoc xs with rfl | ⟨zs, z, rfl⟩
      · simp at h1k
      · obtain ⟨h1, hpop, hv1, hi1, _⟩ := Pop_ok hv hi
        have hbal' : ∀ k, k ≤ ops.length →
            countPop (ops.take k) ≤ zs.length + countPush (ops.take k) := by
          intro k hk
          have := hbal (k + 1) (by simp; omega)
          simp [countPop, countPush] at this ⊢
          omega
        obtain ⟨h2, ys, hrun, hv2, hi2, hlen⟩ := ih hv1 hi1 hnc' hbal'
        refine ⟨h2, ys, by simp [applyOps, applyOp, hpop, hrun], hv2, hi2, ?_⟩
        simp [countPop, countPush] at hlen ⊢
        omega
    | clear => exact absurd (List.mem_cons_self _ _) hnc

/-! ## The list model, consumers, text -/

theorem modelTop_nil [Inhabited T] : modelTop ([] : List T) = (default, false) := rfl

theorem modelTop_snoc [Inhabited T] (xs : List T) (x : T) : modelTop (xs ++ [x]) = (x, true) := by
  simp [modelTop]

/-- Every observable call on a valid stack succeeds and answers as the list
model says. -/
theorem runCall_ok [Inhabited T] (g : Nat → Nat → Nat) {p : Nat} {h : Heap T} {xs : List T}
    (c : Call T) (hv : Valid p h = true) (hi : items p h = some xs) :
    ∃ h', runCall g p c h = some (modelAnswer c xs, h') ∧ Valid p h' = true ∧
      items p h' = some (modelItems c xs) := by
  cases c with
  | push v =>
    obtain ⟨h', hp, hv', hi', _⟩ := Push_ok g v hv hi
    exact ⟨h', by simp [runCall, hp, modelAnswer], hv', hi'⟩
  | pop =>
    rcases nil_or_snoc xs with rfl | ⟨ys, y, rfl⟩
    · exact ⟨h, by simp [runCall, Pop_empty hv hi, modelAnswer, modelTop_nil], hv,
        by simpa [modelItems] using hi⟩
    · obtain ⟨h', hp, hv', hi', _⟩ := Pop_ok hv hi
      exact ⟨h', by simp [runCall, hp, modelAnswer, modelTop_snoc], hv',
        by simpa [modelItems] using hi'⟩
  | peek =>
    rcases nil_or_snoc xs with rfl | ⟨ys, y, rfl⟩
    · exact ⟨h, by simp [runCall, Peek_empty hv hi, modelAnswer, modelTop_nil], hv, hi⟩
    · exact ⟨h, by simp [runCall, Peek_top hv hi, modelAnswer, modelTop_snoc], hv, hi⟩
  | len => exact ⟨h, by simp [runCall, Len_ok hv hi, modelAnswer], hv, hi⟩
  | values => exact ⟨h, by simp [runCall, Values_ok hv hi, modelAnswer], hv, hi⟩

theorem runCalls_ok [Inhabited T] (g : Nat → Nat → Nat) {p : Nat} (cs : List (Call T)) :
    ∀ {h : Heap T} {xs : List T}, Valid p h = true → items p h = some xs →
      ∃ h', runCalls g p cs h = some (modelRun cs xs, h') ∧ Valid p h' = true := by
  induction cs with
  | nil => intro h xs hv _; exact ⟨h, rfl, hv⟩
  | cons c cs ih =>
    intro h xs hv hi
    obtain ⟨h1, hc, hv1, hi1⟩ := runCall_ok g c hv hi
    obtain ⟨h2, hcs, hv2⟩ := ih hv1 hi1
    exact ⟨h2, by simp [runCalls, hc, hcs, modelRun], hv2⟩

theorem applyOps_valid [Inhabited T] (g : Nat → Nat → Nat) {p : Nat} (ops : List (Op T)) :
    ∀ {h : Heap T}, Valid p h = true →
      ∃ h', applyOps g p ops h = some h' ∧ Valid p h' = true := by
  induction ops with
  | nil => intro h hv; exact ⟨h, rfl, hv⟩
  | cons op ops ih =>
    intro h hv
    obtain ⟨h1, hop, hv1, _⟩ := applyOp_ok g op hv
    obtain ⟨h2, hrun, hv2⟩ := ih hv1
    exact ⟨h2, by simp [applyOps, hop, hrun], hv2⟩

theorem rangeLoop_feed {σ : Type} (f : T → σ → σ × Bool) {a : Nat} {arr : List T} {h : Heap T}
    (ha : h.arrays[a]? = some arr) :
    ∀ (n i : Nat) (c : σ) (log : List T), i + n ≤ arr.length →
      rangeLoop (some a) (loggingYield f) n i (c, log) h
        = some (feed f ((arr.drop i).take n) c log, h) := by
  intro n
  induction n with
  | zero => intro i c log _; simp [rangeLoop, feed]
  | succ n ih =>
    intro i c log hle
    have hi : i < arr.length := by omega
    have hget : arr[i]? = some arr[i] := List.getElem?_eq_getElem hi
    rw [rangeLoop, List.drop_eq_getElem_cons hi, List.take_succ_cons]
    simp only [ha, hget, loggingYield, feed]
    cases hb : (f arr[i] c).2 with
    | false => simp
    | true =>
      simp only [if_true]
      exact ih (i + 1) _ _ (by omega)

theorem feed_stop {σ : Type} (f : T → σ → σ × Bool) (es : List T) :
    ∀ (j : Nat) (c : σ) (log : List T), 1 ≤ j → j ≤ es.length →
      answers f (es.take j) c = List.replicate (j - 1) true ++ [false] →
      feed f es c log = (stateAfter f (es.take j) c, log ++ es.take j) := by
  induction es with
  | nil => intro j c log h1 hn; simp at hn; omega
  | cons e es ih =>
    intro j c log h1 hn hans
    obtain ⟨j', rfl⟩ : ∃ j', j = j' + 1 := ⟨j - 1, by omega⟩
    cases j' with
    | zero =>
      simp [answers] at hans
      simp [feed, hans, stateAfter]
    | succ k =>
      simp only [List.take_succ_cons, answers, Nat.add_sub_cancel, List.replicate_succ,
        List.cons_append, List.cons.injEq] at hans
      have hlen : k + 1 ≤ es.length := by simpa using hn
      have := ih (k + 1) (f e c).1 (log ++ [e]) (by omega) hlen (by simpa using hans.2)
      simp [feed, hans.1, this, stateAfter]

theorem intercalate_cons_cons {α : Type} (sep a b : List α) (l : List (List α)) :
    List.intercalate sep (a :: b :: l) = a ++ sep ++ List.intercalate sep (b :: l) := by
  simp [List.intercalate, List.intersperse]

theorem stringLoop_pos (sprint : T → Bytes) :
    ∀ (vs : List T) (v : T) (i : Nat) (b : Bytes), 0 < i →
      stringLoop sprint (v :: vs) i b
        = b ++ bytes ", " ++ List.intercalate (bytes ", ") ((v :: vs).map sprint) := by
  intro vs
  induction vs with
  | nil =>
    intro v i b hi
    simp [stringLoop, hi, List.intercalate, List.intersperse]
  | cons w ws ih =>
    intro v i b hi
    rw [stringLoop, ih w (i + 1) _ (by omega)]
    simp only [List.map_cons, intercalate_cons_cons, if_pos hi]
    simp [List.append_assoc]

theorem stringLoop_zero (sprint : T → Bytes) (xs : List T) (b : Bytes) :
    stringLoop sprint xs 0 b = b ++ List.intercalate (bytes ", ") (xs.map sprint) := by
  cases xs with
  | nil => simp [stringLoop, List.intercalate, List.intersperse]
  | cons v vs =>
    cases vs with
    | nil => simp [stringLoop, List.intercalate, List.intersperse]
    | cons w ws =>
      rw [stringLoop, stringLoop_pos sprint ws w 1 _ (by omega)]
      simp only [List.map_cons, intercalate_cons_cons]
      simp [List.append_assoc]

theorem String_ok (sprint : T → Bytes) {p : Nat} {h : Heap T} {xs : List T}
    (hi : items p h = some xs) :
    Stack.String sprint p h
      = some (bytes "Stack\x7b" ++ List.intercalate (bytes ", ") (xs.map sprint)
          ++ bytes "\x7d", h) := by
  unfold items at hi
  cases hl : load p h with
  | none => simp [hl] at hi
  | some s =>
    simp only [hl] at hi
    simp [Stack.String, hl, hi, stringLoop_zero]

/-! ## Decimal text -/

theorem parseNat_snoc (l : Bytes) (b : Nat) : parseNat (l ++ [b]) = parseNat l * 10 + (b - 48) := by
  simp [parseNat, List.foldl_append]

/-- The digits written for `n`: all digits, at least one, no leading zero
unless `n` is 0, and they read back as `n`. -/
theorem renderNatFuel_spec : ∀ (fuel n : Nat), n < fuel →
    (∀ b ∈ renderNatFuel fuel n, isDigit b = true) ∧ renderNatFuel fuel n ≠ [] ∧
      parseNat (renderNatFuel fuel n) = n ∧
      (n ≠ 0 → (renderNatFuel fuel n).head? ≠ some 48) ∧
      (n = 0 → renderNatFuel fuel n = [48]) := by
  intro fuel
  induction fuel with
  | zero => intro n hn; omega
  | succ fuel ih =>
    intro n hn
    by_cases h10 : n < 10
    · simp only [renderNatFuel, h10, if_true]
      refine ⟨?_, by simp, ?_, ?_, ?_⟩
      · intro b hb
        simp at hb
        subst hb
        simp [isDigit]
        omega
      · simp [parseNat]
      · intro h0
        simp
        omega
      · rintro rfl
        rfl
    · have hlt : n / 10 < fuel := by omega
      obtain ⟨hd, hne, hp, hh, _⟩ := ih (n / 10) hlt
      simp only [renderNatFuel, h10, if_false]
      refine ⟨?_, by simp, ?_, ?_, ?_⟩
      · intro b hb
        rcases List.mem_append.mp hb with hb | hb
        · exact hd b hb
        · simp at hb
          subst hb
          simp [isDigit]
          omega
      · rw [parseNat_snoc, hp]
        omega
      · intro _
        rw [List.head?_append_of_ne_nil _ hne]
        exact hh (by omega)
      · intro h0
        omega

theorem renderNat_spec (n : Nat) :
    (∀ b ∈ renderNat n, isDigit b = true) ∧ renderNat n ≠ [] ∧ parseNat (renderNat n) = n ∧
      (n ≠ 0 → (renderNat n).head? ≠ some 48) ∧ (n = 0 → renderNat n = [48]) :=
  renderNatFuel_spec (n + 1) n (by omega)

theorem spanDigits_append (ds : Bytes) (c : Nat) (r : Bytes)
    (hd : ∀ b ∈ ds, isDigit b = true) (hc : isDigit c = false) :
    spanDigits (ds ++ c :: r) = (ds, c :: r) := by
  induction ds with
  | nil => simp [spanDigits, hc]
  | cons d ds ih =>
    have h1 : isDigit d = true := hd d (List.mem_cons_self _ _)
    have h2 := ih (fun b hb => hd b (List.mem_cons_of_mem _ hb))
    simp [spanDigits, h1, h2]

theorem scanInt_renderNat (n c : Nat) (r : Bytes) (hc : isDigit c = false) :
    scanInt (renderNat n ++ c :: r) = some (renderNat n, c :: r) := by
  obtain ⟨hd, hne, _, hh, h0⟩ := renderNat_spec n
  by_cases hn : n = 0
  · rw [h0 hn]
    simp [scanInt]
  · cases hl : renderNat n with
    | nil => exact absurd hl hne
    | cons d ds =>
      rw [hl] at hd hh
      have hd48 : d ≠ 48 := by
        intro e
        exact hh hn (by simp [e])
      have hdd : isDigit d = true := hd d (List.mem_cons_self _ _)
      have hsp := spanDigits_append ds c r (fun b hb => hd b (List.mem_cons_of_mem _ hb)) hc
      simp [scanInt, hd48, hdd, hsp]

theorem scanNumber_renderInt (a : Int) (c : Nat) (r : Bytes) (hc : isDelim c) :
    scanNumber (renderInt a ++ c :: r) = some (renderInt a, c :: r) := by
  have hcd : isDigit c = false := by
    rcases hc with rfl | rfl <;> rfl
  have h46 : c ≠ 46 := by rcases hc with rfl | rfl <;> decide
  have h101 : c ≠ 101 := by rcases hc with rfl | rfl <;> decide
  have h69 : c ≠ 69 := by rcases hc with rfl | rfl <;> decide
  have hint := scanInt_renderNat a.natAbs c r hcd
  have hfrac : scanFrac (c :: r) = some ([], c :: r) := by simp [scanFrac, h46]
  have hexp : scanExp (c :: r) = some ([], c :: r) := by simp [scanExp, h101, h69]
  by_cases hneg : a < 0
  · simp [renderInt, hneg, scanNumber, hint, hfrac, hexp]
  · obtain ⟨hd, hne, _, _, _⟩ := renderNat_spec a.natAbs
    cases hl : renderNat a.natAbs with
    | nil => exact absurd hl hne
    | cons d ds =>
      have hdd : isDigit d = true := by
        apply hd
        rw [hl]
        exact List.mem_cons_self _ _
      have hd45 : d ≠ 45 := by
        intro e
        rw [e] at hdd
        revert hdd
        decide
      rw [hl] at hint
      simp only [renderInt, hneg, if_false, hl, List.cons_append, scanNumber, hd45]
      simp only [List.cons_append] at hint
      simp [hint, hfrac, hexp]

theorem decodeInt_renderInt (a : Int) (hlo : minInt ≤ a) (hhi : a ≤ maxInt) :
    decodeInt (renderInt a) = some a := by
  obtain ⟨hd, hne, hp, _, _⟩ := renderNat_spec a.natAbs
  have hall : (renderNat a.natAbs).all isDigit = true := by
    rw [List.all_eq_true]
    exact hd
  have hemp : (renderNat a.natAbs).isEmpty = false := by
    cases hl : renderNat a.natAbs with
    | nil => exact absurd hl hne
    | cons _ _ => rfl
  by_cases hneg : a < 0
  · have hval : -((a.natAbs : Nat) : Int) = a := by omega
    simp only [renderInt, hneg, if_true, decodeInt, hemp, hall, hp, hval, hlo]
    simp
  · cases hl : renderNat a.natAbs with
    | nil => exact absurd hl hne
    | cons d ds =>
      have hdd : isDigit d = true := by
        apply hd
        rw [hl]
        exact List.mem_cons_self _ _
      have hd45 : d ≠ 45 := by
        intro e
        rw [e] at hdd
        revert hdd
        decide
      have hval : ((a.natAbs : Nat) : Int) = a := by omega
      rw [hl] at hall hp
      simp only [renderInt, hneg, if_false, hl, decodeInt, hd45, hall, hp, hval, hhi]
      simp

/-! ## Scanning the text of an array of `int` -/

theorem renderInt_head (a : Int) :
    ∃ b bs, renderInt a = b :: bs ∧ (b = 45 ∨ isDigit b = true) := by
  by_cases hneg : a < 0
  · exact ⟨45, renderNat a.natAbs, by simp [renderInt, hneg], Or.inl rfl⟩
  · obtain ⟨hd, hne, _, _, _⟩ := renderNat_spec a.natAbs
    cases hl : renderNat a.natAbs with
    | nil => exact absurd hl hne
    | cons d ds =>
      refine ⟨d, ds, by simp [renderInt, hneg, hl], Or.inr ?_⟩
      apply hd
      rw [hl]
      exact List.mem_cons_self _ _

/-- The first byte of a number is none of the bytes that start another kind
of value, close an array, or are white space. -/
theorem numeral_head_facts {b : Nat} (hb : b = 45 ∨ isDigit b = true) :
    b ≠ 110 ∧ b ≠ 116 ∧ b ≠ 102 ∧ b ≠ 34 ∧ b ≠ 91 ∧ b ≠ 123 ∧ b ≠ 93 ∧ isWs b = false := by
  rcases hb with rfl | hb
  · decide
  · simp only [isDigit, Bool.and_eq_true, decide_eq_true_eq] at hb
    refine ⟨by omega, by omega, by omega, by omega, by omega, by omega, by omega, ?_⟩
    simp [isWs]
    omega

theorem parseValue_renderInt (fuel depth : Nat) (a : Int) (c : Nat) (r : Bytes)
    (hc : isDelim c) :
    parseValue (fuel + 1) depth (renderInt a ++ c :: r)
      = some (JSON.num (renderInt a), c :: r) := by
  obtain ⟨b, bs, hl, hb⟩ := renderInt_head a
  obtain ⟨h1, h2, h3, h4, h5, h6, _, _⟩ := numeral_head_facts hb
  have hscan := scanNumber_renderInt a c r hc
  rw [hl] at hscan ⊢
  simp only [List.cons_append] at hscan ⊢
  simp only [parseValue, h1, h2, h3, h4, h5, h6, if_false, hscan]

theorem intercalate_head (a : Int) (as : List Int) :
    ∃ b bs, List.intercalate [44] ((a :: as).map renderInt) = b :: bs ∧
      (b = 45 ∨ isDigit b = true) := by
  obtain ⟨b, bs, hl, hb⟩ := renderInt_head a
  cases as with
  | nil => exact ⟨b, bs, by simp [List.intercalate, List.intersperse, hl], hb⟩
  | cons x xs =>
    refine ⟨b, bs ++ [44] ++ List.intercalate [44] ((x :: xs).map renderInt), ?_, hb⟩
    simp only [List.map_cons, intercalate_cons_cons, hl]
    simp

theorem skipWs_of_not_ws {b : Nat} (l : Bytes) (hb : isWs b = false) :
    skipWs (b :: l) = b :: l := by
  simp [skipWs, hb]

theorem parseElems_render (depth : Nat) (r : Bytes) :
    ∀ (as : List Int) (a : Int) (fuel : Nat) (acc : List JSON), as.length + 2 ≤ fuel →
      parseElems fuel depth acc (List.intercalate [44] ((a :: as).map renderInt) ++ 93 :: r)
        = some (JSON.arr (acc ++ (a :: as).map (fun x => JSON.num (renderInt x))), r) := by
  intro as
  induction as with
  | nil =>
    intro a fuel acc hf
    obtain ⟨f, rfl⟩ : ∃ f, fuel = f + 2 := ⟨fuel - 2, by omega⟩
    have hv := parseValue_renderInt f depth a 93 r (Or.inr rfl)
    have hi : List.intercalate [44] ([a].map renderInt) = renderInt a := by
      simp [List.intercalate, List.intersperse]
    rw [hi, parseElems, hv]
    simp [skipWs, isWs]
  | cons x xs ih =>
    intro a fuel acc hf
    obtain ⟨f, rfl⟩ : ∃ f, fuel = f + 2 := ⟨fuel - 2, by omega⟩
    have hi : List.intercalate [44] ((a :: x :: xs).map renderInt) ++ 93 :: r
        = renderInt a ++ 44 :: (List.intercalate [44] ((x :: xs).map renderInt) ++ 93 :: r) := by
      simp only [List.map_cons, intercalate_cons_cons]
      simp
    have hv := parseValue_renderInt f depth a 44
      (List.intercalate [44] ((x :: xs).map renderInt) ++ 93 :: r) (Or.inl rfl)
    obtain ⟨b, bs, hl, hb⟩ := intercalate_head x xs
    have hws : skipWs (List.intercalate [44] ((x :: xs).map renderInt) ++ 93 :: r)
        = List.intercalate [44] ((x :: xs).map renderInt) ++ 93 :: r := by
      rw [hl]
      exact skipWs_of_not_ws _ (numeral_head_facts hb).2.2.2.2.2.2.2
    have hrec := ih x (f + 1) (acc ++ [JSON.num (renderInt a)]) (by simp at hf ⊢; omega)
    have h44 : skipWs (44 :: (List.intercalate [44] ((x :: xs).map renderInt) ++ 93 :: r))
        = 44 :: (List.intercalate [44] ((x :: xs).map renderInt) ++ 93 :: r) :=
      skipWs_of_not_ws _ (by decide)
    rw [hi, parseElems, hv]
    simp only [h44, if_true, hws, hrec]
    simp

theorem intercalate_length_ge (sep : Bytes) (l : List Bytes) (hne : ∀ x ∈ l, x ≠ []) :
    l.length ≤ (List.intercalate sep l).length := by
  induction l with
  | nil => simp
  | cons a l ih =>
    have ha : 0 < a.length := List.length_pos.mpr (hne a (List.mem_cons_self _ _))
    cases l with
    | nil => simp [List.intercalate, List.intersperse]; omega
    | cons b l =>
      have := ih (fun x hx => hne x (List.mem_cons_of_mem _ hx))
      rw [intercalate_cons_cons]
      simp only [List.length_cons, List.length_append] at this ⊢
      omega

/-- The scanner reads the text written for an array of `int` as the array of
its numbers. -/
theorem parseJSON_renderArray (as : List Int) :
    parseJSON (renderArray as) = some (JSON.arr (as.map (fun x => JSON.num (renderInt x)))) := by
  cases as with
  | nil => simp [parseJSON, renderArray, List.intercalate, skipWs, isWs, parseValue,
      maxNestingDepth]
  | cons a as =>
    obtain ⟨b, bs, hl, hb⟩ := intercalate_head a as
    obtain ⟨_, _, _, _, _, _, h93, hws⟩ := numeral_head_facts hb
    have hlen := intercalate_length_ge [44] ((a :: as).map renderInt) (by
      intro x hx
      obtain ⟨y, _, rfl⟩ := List.mem_map.mp hx
      obtain ⟨b, bs, hl, _⟩ := renderInt_head y
      rw [hl]
      exact List.cons_ne_nil _ _)
    have hfuel : as.length + 2 ≤ 2 * (renderArray (a :: as)).length + 1 := by
      simp only [renderArray, List.length_cons, List.length_append, List.length_map] at hlen ⊢
      omega
    have hrec := parseElems_render 1 [] as a _ [] hfuel
    have hsk : skipWs (renderArray (a :: as)) = renderArray (a :: as) := by
      simp [renderArray, skipWs, isWs]
    have hrest : (List.intercalate [44] ((a :: as).map renderInt) ++ [93])
        = b :: (bs ++ [93]) := by
      rw [hl]
      rfl
    rw [hl] at hrec
    simp only [List.cons_append] at hrec
    rw [parseJSON, hsk]
    simp only [renderArray] at hrec ⊢
    rw [hrest, parseValue]
    rw [hrest] at hrec
    simp only [List.nil_append] at hrec
    simp at hrec
    simp [skipWs, hws, h93, maxNestingDepth, hrec]

/-! ## The decoder's loop -/

theorem SliceFrame_refl (s : Slice) (h : Heap T) : SliceFrame s s h h :=
  ⟨le_refl _, ArrFrame_refl _ _, Or.inl rfl⟩

theorem SliceFrame_trans {s s1 s2 : Slice} {h h1 h2 : Heap T} (f1 : SliceFrame s s1 h h1)
    (f2 : SliceFrame s1 s2 h1 h2) : SliceFrame s s2 h h2 := by
  refine ⟨le_trans f1.grows f2.grows, ?_, ?_⟩
  · intro b ys hb hne
    have hb1 := f1.arrays b ys hb hne
    apply f2.arrays b ys hb1
    intro e
    rcases f1.fresh with e1 | ⟨a, ha, hge⟩
    · exact hne (by rw [← e1, e])
    · rw [ha] at e
      cases e
      have hblt : b < h.arrays.length := by
        by_contra hlt
        rw [List.getElem?_eq_none (by omega)] at hb
        cases hb
      omega
  · rcases f2.fresh with e2 | ⟨a, ha, hge⟩
    · rw [e2]
      exact f1.fresh
    · exact Or.inr ⟨a, ha, le_trans f1.grows hge⟩

theorem expand_spec [Inhabited T] (g : Nat → Nat → Nat) {s : Slice} {h : Heap T} {i : Nat}
    {xs : List T} (hok : s.ok h = true) (hi : i ≤ s.len) (hxs : elems s h = some xs) :
    ∃ s2 h1 ys, expand g s i h = some (s2, h1) ∧ s2.ok h1 = true ∧ i < s2.len ∧
      elems s2 h1 = some ys ∧ ys.length = s2.len ∧ ys.take i = xs.take i ∧
      h1.structs = h.structs ∧ SliceFrame s s2 h h1 := by
  obtain ⟨hlc, hcase⟩ := Slice_ok_iff.mp hok
  obtain ⟨zs, hzs, hlen⟩ := ok_elems hok
  rw [hxs] at hzs
  cases hzs
  by_cases hcap : s.cap ≤ i
  · -- the slice is full: reallocate, then extend the length
    have hil : i = s.len := by omega
    subst hil
    have hfull : ¬ (s.len + 1 ≤ s.cap) := by omega
    have hle : s.len + 1 ≤ max (s.len + 1) (g s.cap (s.len + 1)) := le_max_left _ _
    have hpos : 0 < max (s.len + 1) (g s.cap (s.len + 1)) - s.len := by omega
    obtain ⟨m, hm⟩ : ∃ m, max (s.len + 1) (g s.cap (s.len + 1)) - s.len = m + 1 :=
      ⟨_, (Nat.succ_pred_eq_of_pos hpos).symm⟩
    refine ⟨⟨some h.arrays.length, s.len + 1, max (s.len + 1) (g s.cap (s.len + 1))⟩,
      Heap.mk (h.arrays ++ [xs ++ List.replicate
        (max (s.len + 1) (g s.cap (s.len + 1)) - s.len) default]) h.structs,
      xs ++ [default], ?_, ?_, by simp, ?_, by simp [hlen], ?_, rfl,
      ⟨by simp, fun b zs hb _ => arrays_append_get _ hb, Or.inr ⟨_, rfl, le_refl _⟩⟩⟩
    · simp [expand, hcap, growOne, hfull, hxs, reslice, hle]
    · refine Slice_ok_iff.mpr ⟨hle, Or.inr ⟨h.arrays.length,
        xs ++ List.replicate (max (s.len + 1) (g s.cap (s.len + 1)) - s.len) default,
        rfl, by simp, ?_⟩⟩
      simp [hlen]
    · simp only [elems, List.getElem?_concat_length]
      rw [hm, List.replicate_succ]
      have hl2 : (xs ++ [(default : T)]).length = s.len + 1 := by simp [hlen]
      have hsplit : xs ++ (default :: List.replicate m (default : T))
          = (xs ++ [default]) ++ List.replicate m default := by simp
      rw [hsplit, if_pos (by simp [hlen]), List.take_left' hl2]
    · rw [List.take_append_of_le_length (by omega)]
  · -- there is room
    rcases hcase with ⟨_, hc⟩ | ⟨a, arr, ha, harr, hc⟩
    · omega
    · have hx : xs = arr.take s.len := by
        have : s.len ≤ arr.length := by omega
        simp [elems, ha, harr, this] at hxs
        exact hxs.symm
      by_cases hlen_i : s.len ≤ i
      · have hil : i = s.len := by omega
        subst hil
        refine ⟨⟨s.arr, s.len + 1, s.cap⟩, h, arr.take (s.len + 1), ?_, ?_, by simp, ?_, ?_, ?_,
          rfl, ⟨le_refl _, ArrFrame_refl _ _, Or.inl rfl⟩⟩
        · have : s.len + 1 ≤ s.cap := by omega
          simp [expand, hcap, reslice, this]
        · exact Slice_ok_iff.mpr ⟨by simp; omega, Or.inr ⟨a, arr, ha, harr, hc⟩⟩
        · have : s.len + 1 ≤ arr.length := by omega
          simp [elems, ha, harr, this]
        · simp; omega
        · rw [hx, List.take_take, List.take_take]
          congr 1
          omega
      · refine ⟨s, h, xs, ?_, hok, by omega, hxs, hlen, rfl, rfl, SliceFrame_refl s h⟩
        simp [expand, hcap, hlen_i]

theorem setIndex_spec {s : Slice} {h : Heap T} {i : Nat} {ys : List T} (n : T)
    (hok : s.ok h = true) (hi : i < s.len) (hys : elems s h = some ys) :
    ∃ h2, setIndex s i n h = some h2 ∧ s.ok h2 = true ∧ elems s h2 = some (ys.set i n) ∧
      h2.structs = h.structs ∧ SliceFrame s s h h2 := by
  obtain ⟨hlc, hcase⟩ := Slice_ok_iff.mp hok
  rcases hcase with ⟨_, hc⟩ | ⟨a, arr, ha, harr, hc⟩
  · omega
  · have halt : a < h.arrays.length := ok_arr_lt hok ha
    have hle : s.len ≤ arr.length := by omega
    have hx : ys = arr.take s.len := by
      simp [elems, ha, harr, hle] at hys
      exact hys.symm
    refine ⟨Heap.mk (h.arrays.set a (arr.set i n)) h.structs, ?_, ?_, ?_, rfl,
      ⟨by simp, ?_, Or.inl rfl⟩⟩
    · have : i < arr.length := by omega
      simp [setIndex, hi, ha, harr, this]
    · exact Slice_ok_iff.mpr ⟨hlc, Or.inr ⟨a, arr.set i n, ha,
        by simp [List.getElem?_set, halt], by simpa using hc⟩⟩
    · have hset : (h.arrays.set a (arr.set i n))[a]? = some (arr.set i n) := by
        simp [List.getElem?_set, halt]
      simp only [elems, ha, hset]
      rw [if_pos (by simpa using hle), List.set_take, hx]
    · intro b zs hb hne
      have hab : a ≠ b := fun e => hne (by rw [ha, e])
      simpa [List.getElem?_set, hab] using hb

/-- The decoder's loop on a consistent slice never panics; it returns a
consistent slice with one cell per element, reports the first type error,
keeps the cells before `i`, and every element that is an `int` is in its
cell. -/
theorem decodeArray_spec (g : Nat → Nat → Nat) (es : List JSON) :
    ∀ (i : Nat) (s : Slice) (h : Heap Int) (err : Option JSONError) (xs : List Int),
      s.ok h = true → i ≤ s.len → elems s h = some xs →
      ∃ s' h' out, decodeArray g es i s h err = some (s', h', errAfter err es) ∧
        s'.ok h' = true ∧ elems s' h' = some out ∧ out.length = i + es.length ∧
        out.take i = xs.take i ∧ h'.structs = h.structs ∧ SliceFrame s s' h h' ∧
        (∀ k n, (es.map decodeElem)[k]? = some (Decoded.value n) → out[i + k]? = some n) := by
  induction es with
  | nil =>
    intro i s h err xs hok hi hxs
    obtain ⟨zs, hzs, hlen⟩ := ok_elems hok
    rw [hxs] at hzs
    cases hzs
    by_cases h0 : i = 0
    · subst h0
      refine ⟨(makeSlice 0 h).1, (makeSlice 0 h).2, [], by simp [decodeArray, errAfter], ?_,
        by simp [elems, makeSlice], by simp, by simp, rfl,
        ⟨by simp [makeSlice], fun b zs hb _ => arrays_append_get _ hb,
          Or.inr ⟨_, rfl, le_refl _⟩⟩, by simp⟩
      exact Slice_ok_iff.mpr ⟨le_refl _, Or.inr ⟨h.arrays.length, [], rfl,
        by simp [makeSlice], le_refl _⟩⟩
    · by_cases hlt : i < s.len
      · obtain ⟨hlc, hcase⟩ := Slice_ok_iff.mp hok
        rcases hcase with ⟨_, hc⟩ | ⟨a, arr, ha, harr, hc⟩
        · omega
        · have hx : xs = arr.take s.len := by
            have : s.len ≤ arr.length := by omega
            simp [elems, ha, harr, this] at hxs
            exact hxs.symm
          refine ⟨⟨s.arr, i, s.cap⟩, h, xs.take i, by simp [decodeArray, errAfter, h0, hlt], ?_,
            ?_, by simp; omega, by simp, rfl, ⟨le_refl _, ArrFrame_refl _ _, Or.inl rfl⟩,
            by simp⟩
          · exact Slice_ok_iff.mpr ⟨by simp; omega, Or.inr ⟨a, arr, ha, harr, hc⟩⟩
          · have : i ≤ arr.length := by omega
            simp only [elems, ha, harr, this, if_true]
            rw [hx, List.take_take]
            congr 2
            omega
      · refine ⟨s, h, xs, by simp [decodeArray, errAfter, h0, hlt], hok, hxs,
          by simp; omega, rfl, rfl, SliceFrame_refl s h, by simp⟩
  | cons e es ih =>
    intro i s h err xs hok hi hxs
    obtain ⟨s2, h1, ys, hexp, hok2, hi2, hys, hylen, hpre, hst1, hfr1⟩ :=
      expand_spec g hok hi hxs
    have hiy : i < ys.length := by omega
    -- what the recursive call gives, whatever was done to cell `i`
    have key : ∀ (h2 : Heap Int) (zs : List Int) (err' : Option JSONError),
        s2.ok h2 = true → elems s2 h2 = some zs → zs.take i = ys.take i →
        h2.structs = h1.structs → SliceFrame s2 s2 h1 h2 →
        (∀ n, decodeElem e = Decoded.value n → zs[i]? = some n) →
        ∃ s' h' out, decodeArray g es (i + 1) s2 h2 err' = some (s', h', errAfter err' es) ∧
          s'.ok h' = true ∧ elems s' h' = some out ∧ out.length = i + (e :: es).length ∧
          out.take i = xs.take i ∧ h'.structs = h.structs ∧ SliceFrame s s' h h' ∧
          (∀ k n, ((e :: es).map decodeElem)[k]? = some (Decoded.value n) →
            out[i + k]? = some n) := by
      intro h2 zs err' hok3 hzs hzpre hst2 hfr2 hcell
      obtain ⟨s', h', out, hdec, hok', hout, holen, hopre, hst', hfr', hvals⟩ :=
        ih (i + 1) s2 h2 err' zs hok3 (by omega) hzs
      have hzlen : zs.length = s2.len := by
        obtain ⟨ws, hws, hwl⟩ := ok_elems hok3
        rw [hzs] at hws
        cases hws
        exact hwl
      refine ⟨s', h', out, hdec, hok', hout, by simp at holen ⊢; omega, ?_,
        by rw [hst', hst2, hst1],
        SliceFrame_trans (SliceFrame_trans hfr1 hfr2) hfr', ?_⟩
      · have h1' : out.take i = (out.take (i + 1)).take i := by
          rw [List.take_take]; congr 1; omega
        have h2' : zs.take i = (zs.take (i + 1)).take i := by
          rw [List.take_take]; congr 1; omega
        rw [h1', hopre, ← h2', hzpre, hpre]
      · intro k n hk
        cases k with
        | zero =>
          simp only [List.map_cons, List.getElem?_cons_zero, Option.some.injEq] at hk
          have hz := hcell n hk
          have : out[i]? = (out.take (i + 1))[i]? := by
            rw [List.getElem?_take_of_lt (by omega)]
          rw [Nat.add_zero, this, hopre, List.getElem?_take_of_lt (by omega), hz]
        | succ k =>
          simp only [List.map_cons, List.getElem?_cons_succ] at hk
          have := hvals k n hk
          rw [show i + (k + 1) = i + 1 + k by omega]
          exact this
    cases hde : decodeElem e with
    | value n =>
      obtain ⟨h2, hset, hok3, hzs, hst2, hfr2⟩ := setIndex_spec n hok2 hi2 hys
      obtain ⟨s', h', out, hdec, hrest⟩ := key h2 (ys.set i n) err hok3 hzs
        (by rw [List.set_take, List.set_eq_of_length_le (by simp)])
        hst2 hfr2
        (fun m hm => by
          rw [hde] at hm
          cases hm
          simp [List.getElem?_set, hiy])
      refine ⟨s', h', out, ?_, hrest⟩
      simp only [decodeArray, hexp, hde, hset, errAfter]
      exact hdec
    | noEffect =>
      obtain ⟨s', h', out, hdec, hrest⟩ := key h1 ys err hok2 hys rfl rfl
        (SliceFrame_refl s2 h1) (fun m hm => by rw [hde] at hm; cases hm)
      refine ⟨s', h', out, ?_, hrest⟩
      simp only [decodeArray, hexp, hde, errAfter]
      exact hdec
    | mismatch =>
      obtain ⟨s', h', out, hdec, hrest⟩ := key h1 ys (saveError err) hok2 hys rfl rfl
        (SliceFrame_refl s2 h1) (fun m hm => by rw [hde] at hm; cases hm)
      refine ⟨s', h', out, ?_, hrest⟩
      simp only [decodeArray, hexp, hde, errAfter]
      exact hdec

/-! ## `MarshalJSON` and `UnmarshalJSON` on stacks -/

theorem store_same {p : Nat} {h : Heap T} {s : Slice} (hl : load p h = some s) :
    store p s h = h := by
  have hlt := load_lt hl
  unfold load at hl
  have hset : h.structs.set p s = h.structs := by
    apply List.ext_getElem?
    intro j
    by_cases hj : p = j
    · subst hj
      simp [List.getElem?_set, hlt, hl]
    · simp [List.getElem?_set, hj]
  cases h
  simp only [store] at hset ⊢
  rw [hset]

theorem StackFrame_of_slice {p : Nat} {h h' : Heap T} {s s' : Slice}
    (hl : load p h = some s) (hst : h'.structs = h.structs) (f : SliceFrame s s' h h') :
    StackFrame p h (store p s' h') := by
  have hl' : load p h' = some s := by rw [load_congr hst, hl]
  refine ⟨?_, ?_, ?_⟩
  · intro q hq
    rw [load_store_other h' s' hq, load_congr hst]
  · intro s0 hl0
    rw [hl] at hl0
    cases hl0
    exact f.arrays
  · intro s0 s0' hl0 hl0'
    rw [hl] at hl0
    rw [load_store_same s' hl'] at hl0'
    cases hl0
    cases hl0'
    exact f.fresh

theorem errAfter_some (e : JSONError) (es : List JSON) : errAfter (some e) es = some e := by
  induction es with
  | nil => rfl
  | cons x xs ih =>
    simp only [errAfter]
    cases decodeElem x <;> simp [saveError, ih]

theorem errAfter_values (err : Option JSONError) (es : List JSON) :
    ∀ as : List Int, es.map decodeElem = as.map Decoded.value → errAfter err es = err := by
  induction es with
  | nil => intro as _; rfl
  | cons x xs ih =>
    intro as he
    cases as with
    | nil => simp at he
    | cons a as =>
      simp only [List.map_cons, List.cons.injEq] at he
      simp only [errAfter, he.1]
      exact ih as he.2

theorem errAfter_mismatch (es : List JSON) :
    ∀ err : Option JSONError, (∃ x ∈ es, decodeElem x = Decoded.mismatch) →
      ∃ e, errAfter err es = some e := by
  induction es with
  | nil => intro err ⟨x, hx, _⟩; simp at hx
  | cons y ys ih =>
    intro err ⟨x, hx, hdx⟩
    rcases List.mem_cons.mp hx with rfl | hmem
    · simp only [errAfter, hdx]
      cases err with
      | none => exact ⟨_, errAfter_some _ _⟩
      | some e => exact ⟨_, errAfter_some _ _⟩
    · simp only [errAfter]
      cases decodeElem y with
      | value n => exact ih err ⟨x, hmem, hdx⟩
      | noEffect => exact ih err ⟨x, hmem, hdx⟩
      | mismatch => exact ih _ ⟨x, hmem, hdx⟩

theorem eq_of_cells {out as : List Int} (hlen : out.length = as.length)
    (hc : ∀ (k : Nat) (n : Int),
      (as.map Decoded.value)[k]? = some (Decoded.value n) → out[k]? = some n) :
    out = as := by
  apply List.ext_getElem?
  intro k
  by_cases hk : k < as.length
  · have h1 : (as.map Decoded.value)[k]? = some (Decoded.value as[k]) := by
      simp [List.getElem?_eq_getElem hk]
    rw [hc k _ h1, List.getElem?_eq_getElem hk]
  · rw [List.getElem?_eq_none (by omega), List.getElem?_eq_none (by omega)]

/-- Decoding a JSON array into a valid stack never panics: the stack stays
valid, has one element per array element, every `int` element is at its
position, the first type error is reported, and nothing outside the stack
changes. -/
theorem Unmarshal_array (g : Nat → Nat → Nat) {p : Nat} {h : Heap Int} {data : Bytes}
    {es : List JSON} (hv : Valid p h = true) (hp : parseJSON data = some (JSON.arr es)) :
    ∃ h' out, Stack.UnmarshalJSON g p data h = some (errAfter none es, h') ∧
      Valid p h' = true ∧ items p h' = some out ∧ out.length = es.length ∧
      nilItems p h' = false ∧ StackFrame p h h' ∧
      (∀ (k : Nat) (n : Int),
        (es.map decodeElem)[k]? = some (Decoded.value n) → out[k]? = some n) := by
  obtain ⟨s, xs, hl, hok, hi, _⟩ := valid_items hv
  rw [items_eq hl] at hi
  obtain ⟨s', h', out, hdec, hok', hout, holen, _, hst, hfr, hvals⟩ :=
    decodeArray_spec g es 0 s h none xs hok (Nat.zero_le _) hi
  have hl1 : load p h' = some s := by rw [load_congr hst, hl]
  have hl' : load p (store p s' h') = some s' := load_store_same s' hl1
  refine ⟨store p s' h', out, ?_, valid_iff.mpr ⟨s', hl', by rw [ok_store]; exact hok'⟩,
    by rw [items_eq hl', elems_store, hout], by simpa using holen, ?_,
    StackFrame_of_slice hl hst hfr, ?_⟩
  · simp [Stack.UnmarshalJSON, hl, jsonUnmarshal, hp, hdec]
  · simp only [nilItems, hl']
    cases ha : s'.arr with
    | some a => rfl
    | none =>
      exfalso
      obtain ⟨hlc, hcase⟩ := Slice_ok_iff.mp hok'
      rcases hcase with ⟨_, hc⟩ | ⟨a, _, ha', _⟩
      · -- a nil slice can only come out of the loop empty, and the loop makes one
        have h0 : s'.len = 0 := by omega
        cases es with
        | nil =>
          simp [decodeArray, makeSlice] at hdec
          rw [← hdec.1] at ha
          cases ha
        | cons e es =>
          obtain ⟨ws, hws, hwl⟩ := ok_elems hok'
          rw [hout] at hws
          cases hws
          simp at holen
          omega
      · rw [ha] at ha'
        cases ha'
  · intro k n hk
    simpa using hvals k n hk

theorem Marshal_ok {p : Nat} {h : Heap Int} {xs : List Int} (hi : items p h = some xs) :
    Stack.MarshalJSON p h
      = some ((if nilItems p h then bytes "null" else renderArray xs, none), h) := by
  unfold items at hi
  cases hl : load p h with
  | none => simp [hl] at hi
  | some s =>
    simp only [hl] at hi
    cases ha : s.arr with
    | none => simp [Stack.MarshalJSON, hl, jsonMarshal, ha, nilItems]
    | some a => simp [Stack.MarshalJSON, hl, jsonMarshal, ha, nilItems, hi]

/-- A valid stack that is not empty does not have a nil `items`. -/
theorem nonnil_of_nonempty {p : Nat} {h : Heap T} {xs : List T} (hv : Valid p h = true)
    (hi : items p h = some xs) (hne : xs ≠ []) : nilItems p h = false := by
  obtain ⟨s, ys, hl, hok, hys, hlen⟩ := valid_items hv
  rw [hi] at hys
  cases hys
  simp only [nilItems, hl]
  cases ha : s.arr with
  | some a => rfl
  | none =>
    exfalso
    obtain ⟨hlc, hcase⟩ := Slice_ok_iff.mp hok
    rcases hcase with ⟨_, hc⟩ | ⟨a, _, ha', _⟩
    · have : xs.length = 0 := by omega
      exact hne (List.length_eq_zero.mp this)
    · rw [ha] at ha'
      cases ha'

theorem New_nonnil [Inhabited T] (h : Heap T) : nilItems (New h).1 (New h).2 = false := by
  simp [nilItems, New, makeSlice, alloc, load]

theorem zeroStack_nil (h : Heap T) : nilItems (zeroStack h).1 (zeroStack h).2 = true := by
  simp [nilItems, zeroStack, alloc, load, nilSlice]

theorem Clear_nonnil [Inhabited T] {p : Nat} {h h' : Heap T} (hc : Clear p h = some h') :
    nilItems p h' = false := by
  unfold Clear at hc
  cases hl : load p h with
  | none => simp [hl] at hc
  | some s =>
    simp only [hl, Option.some.injEq] at hc
    subst hc
    have hl1 : load p (makeSlice (T := T) s.cap h).2 = some s := hl
    unfold nilItems
    rw [load_store_same _ hl1]
    rfl

theorem Pop_nil [Inhabited T] {p : Nat} {h h' : Heap T} {r : T × Bool}
    (hp : Pop p h = some (r, h')) : nilItems p h' = nilItems p h := by
  unfold Pop at hp
  cases hl : load p h with
  | none => simp [hl] at hp
  | some s =>
    simp only [hl] at hp
    by_cases h0 : s.len = 0
    · simp only [h0, if_true, Option.some.injEq, Prod.mk.injEq] at hp
      rw [← hp.2]
    · simp only [h0, if_false] at hp
      cases hix : index s (s.len - 1) h with
      | none => simp [hix] at hp
      | some item =>
        cases hr : reslice s (s.len - 1) with
        | none => simp [hix, hr] at hp
        | some s' =>
          simp only [hix, hr, Option.some.injEq, Prod.mk.injEq] at hp
          rw [← hp.2]
          unfold reslice at hr
          split at hr
          · cases hr
            simp [nilItems, load_store_same _ hl, hl]
          · cases hr

theorem decodeElem_renderInt (as : List Int) (hr : ∀ v ∈ as, minInt ≤ v ∧ v ≤ maxInt) :
    (as.map (fun x => JSON.num (renderInt x))).map decodeElem = as.map Decoded.value := by
  induction as with
  | nil => rfl
  | cons a as ih =>
    have ha := hr a (List.mem_cons_self _ _)
    simp only [List.map_cons, decodeElem, decodeInt_renderInt a ha.1 ha.2]
    rw [ih (fun v hv => hr v (List.mem_cons_of_mem _ hv))]

/-- Decoding an array of `int` replaces the contents by its elements. -/
theorem Unmarshal_ints (g : Nat → Nat → Nat) {p : Nat} {h : Heap Int} {data : Bytes}
    {es : List JSON} {as : List Int} (hv : Valid p h = true)
    (hp : parseJSON data = some (JSON.arr es))
    (he : es.map decodeElem = as.map Decoded.value) :
    ∃ h', Stack.UnmarshalJSON g p data h = some (none, h') ∧ Valid p h' = true ∧
      items p h' = some as ∧ nilItems p h' = false ∧ StackFrame p h h' := by
  obtain ⟨h', out, hun, hv', hi', hlen, hnn, hf, hvals⟩ := Unmarshal_array g hv hp
  rw [errAfter_values none es as he] at hun
  have hl2 : out.length = as.length := by
    have := congrArg List.length he
    simp at this
    omega
  have : out = as := eq_of_cells hl2 (fun k n hk => hvals k n (by rw [he]; exact hk))
  subst this
  exact ⟨h', hun, hv', hi', hnn, hf⟩

theorem Unmarshal_malformed (g : Nat → Nat → Nat) {p : Nat} {h : Heap Int} {data : Bytes}
    (hv : Valid p h = true) (hp : parseJSON data = none) :
    Stack.UnmarshalJSON g p data h = some (some JSONError.malformed, h) := by
  obtain ⟨s, hl, _⟩ := valid_iff.mp hv
  simp [Stack.UnmarshalJSON, hl, jsonUnmarshal, hp, store_same hl]

theorem Unmarshal_other (g : Nat → Nat → Nat) {p : Nat} {h : Heap Int} {data : Bytes}
    {v : JSON} (hv : Valid p h = true) (hp : parseJSON data = some v)
    (hk : notArrayOrNull v = true) :
    Stack.UnmarshalJSON g p data h = some (some JSONError.mismatch, h) := by
  obtain ⟨s, hl, _⟩ := valid_iff.mp hv
  cases v with
  | null => simp [notArrayOrNull] at hk
  | arr es => simp [notArrayOrNull] at hk
  | bool => simp [Stack.UnmarshalJSON, hl, jsonUnmarshal, hp, store_same hl]
  | num lit => simp [Stack.UnmarshalJSON, hl, jsonUnmarshal, hp, store_same hl]
  | str => simp [Stack.UnmarshalJSON, hl, jsonUnmarshal, hp, store_same hl]
  | obj => simp [Stack.UnmarshalJSON, hl, jsonUnmarshal, hp, store_same hl]

theorem Unmarshal_null (g : Nat → Nat → Nat) {p : Nat} {h : Heap Int} {data : Bytes}
    (hv : Valid p h = true) (hp : parseJSON data = some JSON.null) :
    ∃ h', Stack.UnmarshalJSON g p data h = some (none, h') ∧ Valid p h' = true ∧
      items p h' = some [] ∧ nilItems p h' = true := by
  obtain ⟨s, hl, _⟩ := valid_iff.mp hv
  have hl' : load p (store p nilSlice h) = some nilSlice := load_store_same _ hl
  refine ⟨store p nilSlice h, by simp [Stack.UnmarshalJSON, hl, jsonUnmarshal, hp],
    valid_iff.mpr ⟨_, hl', by simp [Slice.ok, nilSlice]⟩, ?_, ?_⟩
  · rw [items_eq hl']
    simp [elems, nilSlice]
  · unfold nilItems
    rw [hl']
    rfl

theorem Valid_alloc {q : Nat} {h : Heap T} (s : Slice) (hv : Valid q h = true) :
    Valid q (alloc s h).2 = true ∧ items q (alloc s h).2 = items q h ∧
      nilItems q (alloc s h).2 = nilItems q h := by
  obtain ⟨sq, hl, hok⟩ := valid_iff.mp hv
  have hl' : load q (alloc s h).2 = some sq := by rw [load_alloc_old s (load_lt hl), hl]
  refine ⟨valid_iff.mpr ⟨sq, hl', hok⟩, ?_, ?_⟩
  · rw [items_eq hl', items_eq hl]
    rfl
  · simp [nilItems, hl', hl]

theorem pushAll_nonnil [Inhabited T] (g : Nat → Nat → Nat) {p : Nat} {h h' : Heap T}
    {xs : List T} (vs : List T) (hv : Valid p h = true) (hi : items p h = some xs)
    (hn : nilItems p h = false) (hp : pushAll g p vs h = some h') :
    nilItems p h' = false := by
  cases vs with
  | nil =>
    simp only [pushAll, Option.some.injEq] at hp
    rw [← hp]
    exact hn
  | cons v vs =>
    obtain ⟨h2, hall, hv2, hi2⟩ := pushAll_ok g (v :: vs) hv hi
    rw [hp] at hall
    cases hall
    exact nonnil_of_nonempty hv2 hi2 (by simp)

/-- A clone has a nil `items` exactly when the original has. -/
theorem Clone_nil [Inhabited T] (g : Nat → Nat → Nat) {p c : Nat} {h h1 : Heap T}
    (hv : Valid p h = true) (hc : Clone g p h = some (c, h1)) :
    nilItems c h1 = nilItems p h := by
  obtain ⟨s, xs, hl, hok, hi, _⟩ := valid_items hv
  rw [items_eq hl] at hi
  unfold Clone at hc
  simp only [hl] at hc
  cases ha : s.arr with
  | none =>
    simp only [slicesClone, ha, Option.some.injEq, Prod.mk.injEq] at hc
    obtain ⟨rfl, rfl⟩ := hc
    have hlc : load h.structs.length (Heap.mk h.arrays (h.structs ++ [nilSlice]))
        = some nilSlice := load_alloc_new nilSlice h
    unfold nilItems
    rw [hlc, hl]
    simp only [ha]
    rfl
  | some a =>
    have hoke : (makeSlice (T := T) 0 h).1.ok (makeSlice (T := T) 0 h).2 = true :=
      Slice_ok_iff.mpr ⟨le_refl _, Or.inr ⟨h.arrays.length, [], rfl,
        by simp [makeSlice], le_refl _⟩⟩
    obtain ⟨_, s', h2, _, happ, _, _, _, _, _, _, _, hnn⟩ := append_spec g xs hoke
    simp only [slicesClone, ha, hi] at hc
    rw [happ] at hc
    simp only [Option.some.injEq, Prod.mk.injEq] at hc
    obtain ⟨rfl, rfl⟩ := hc
    have hs' : s'.arr ≠ none := hnn (by simp [makeSlice])
    have hlc : load h2.structs.length (Heap.mk h2.arrays (h2.structs ++ [s']))
        = some s' := load_alloc_new s' h2
    unfold nilItems
    rw [hlc, hl]
    simp only [ha]
    cases hb : s'.arr with
    | none => exact absurd hb hs'
    | some b => rfl

/-! ## Scanning array texts with white space -/

theorem skipWs_allWs (w r : Bytes) (hw : allWs w = true) : skipWs (w ++ r) = skipWs r := by
  induction w with
  | nil => rfl
  | cons b w ih =>
    simp only [allWs, List.all_cons, Bool.and_eq_true] at hw
    simp only [List.cons_append, skipWs, hw.1, if_true]
    exact ih (by simpa [allWs] using hw.2)

theorem skipWs_allWs_nil (w : Bytes) (hw : allWs w = true) : skipWs w = [] := by
  have := skipWs_allWs w [] hw
  simpa [skipWs] using this

theorem endsNumber_ws {t : Nat} (r : Bytes) (ht : isWs t = true) : endsNumber (t :: r) := by
  simp only [isWs, Bool.or_eq_true, decide_eq_true_eq] at ht
  simp only [endsNumber, isDigit]
  refine ⟨?_, by omega, by omega, by omega⟩
  simp
  omega

theorem endsNumber_allWs (w : Bytes) (hw : allWs w = true) : endsNumber w := by
  cases w with
  | nil => trivial
  | cons t r =>
    simp only [allWs, List.all_cons, Bool.and_eq_true] at hw
    exact endsNumber_ws r hw.1

theorem spanDigits_ends (ds r : Bytes) (hd : ∀ b ∈ ds, isDigit b = true)
    (hr : endsNumber r) : spanDigits (ds ++ r) = (ds, r) := by
  cases r with
  | nil =>
    induction ds with
    | nil => rfl
    | cons d ds ih =>
      have h1 : isDigit d = true := hd d (List.mem_cons_self _ _)
      have h2 := ih (fun b hb => hd b (List.mem_cons_of_mem _ hb))
      simp only [List.append_nil] at h2 ⊢
      simp [spanDigits, h1, h2]
  | cons t r => exact spanDigits_append ds t r hd hr.1

theorem scanInt_renderNat_ends (n : Nat) (r : Bytes) (hr : endsNumber r) :
    scanInt (renderNat n ++ r) = some (renderNat n, r) := by
  obtain ⟨hd, hne, _, hh, h0⟩ := renderNat_spec n
  by_cases hn : n = 0
  · rw [h0 hn]
    simp [scanInt]
  · cases hl : renderNat n with
    | nil => exact absurd hl hne
    | cons d ds =>
      rw [hl] at hd hh
      have hd48 : d ≠ 48 := by
        intro e
        exact hh hn (by simp [e])
      have hdd : isDigit d = true := hd d (List.mem_cons_self _ _)
      have hsp := spanDigits_ends ds r (fun b hb => hd b (List.mem_cons_of_mem _ hb)) hr
      simp [scanInt, hd48, hdd, hsp]

theorem scanFrac_ends (r : Bytes) (hr : endsNumber r) : scanFrac r = some ([], r) := by
  cases r with
  | nil => rfl
  | cons t r => simp [scanFrac, hr.2.1]

theorem scanExp_ends (r : Bytes) (hr : endsNumber r) : scanExp r = some ([], r) := by
  cases r with
  | nil => rfl
  | cons t r => simp [scanExp, hr.2.2.1, hr.2.2.2]

theorem scanNumber_renderInt_ends (a : Int) (r : Bytes) (hr : endsNumber r) :
    scanNumber (renderInt a ++ r) = some (renderInt a, r) := by
  have hint := scanInt_renderNat_ends a.natAbs r hr
  have hfrac := scanFrac_ends r hr
  have hexp := scanExp_ends r hr
  by_cases hneg : a < 0
  · simp [renderInt, hneg, scanNumber, hint, hfrac, hexp]
  · obtain ⟨hd, hne, _, _, _⟩ := renderNat_spec a.natAbs
    cases hl : renderNat a.natAbs with
    | nil => exact absurd hl hne
    | cons d ds =>
      have hdd : isDigit d = true := by
        apply hd
        rw [hl]
        exact List.mem_cons_self _ _
      have hd45 : d ≠ 45 := by
        intro e
        rw [e] at hdd
        revert hdd
        decide
      rw [hl] at hint
      simp only [renderInt, hneg, if_false, hl, List.cons_append, scanNumber, hd45]
      simp only [List.cons_append] at hint
      simp [hint, hfrac, hexp]

theorem scanNumber_intLit (n : Int) (alt : Bool) (r : Bytes) (hr : endsNumber r) :
    scanNumber (intLit n alt ++ r) = some (intLit n alt, r) := by
  by_cases hz : (alt && decide (n = 0)) = true
  · have hfrac := scanFrac_ends r hr
    have hexp := scanExp_ends r hr
    simp [intLit, hz, scanNumber, scanInt, hfrac, hexp]
  · simp only [intLit, hz]
    exact scanNumber_renderInt_ends n r hr

theorem intLit_head (n : Int) (alt : Bool) :
    ∃ b bs, intLit n alt = b :: bs ∧ (b = 45 ∨ isDigit b = true) := by
  by_cases hz : (alt && decide (n = 0)) = true
  · exact ⟨45, [48], by simp [intLit, hz], Or.inl rfl⟩
  · obtain ⟨b, bs, hl, hb⟩ := renderInt_head n
    exact ⟨b, bs, by simp only [intLit, hz]; exact hl, hb⟩

theorem parseValue_intLit (fuel depth : Nat) (n : Int) (alt : Bool) (r : Bytes)
    (hr : endsNumber r) :
    parseValue (fuel + 1) depth (intLit n alt ++ r) = some (JSON.num (intLit n alt), r) := by
  obtain ⟨b, bs, hl, hb⟩ := intLit_head n alt
  obtain ⟨h1, h2, h3, h4, h5, h6, _, _⟩ := numeral_head_facts hb
  have hscan := scanNumber_intLit n alt r hr
  rw [hl] at hscan ⊢
  simp only [List.cons_append] at hscan ⊢
  simp only [parseValue, h1, h2, h3, h4, h5, h6, if_false, hscan]

theorem decodeInt_intLit (n : Int) (alt : Bool) (hlo : minInt ≤ n) (hhi : n ≤ maxInt) :
    decodeInt (intLit n alt) = some n := by
  by_cases hz : (alt && decide (n = 0)) = true
  · have hn : n = 0 := by
      simp only [Bool.and_eq_true, decide_eq_true_eq] at hz
      exact hz.2
    have hlit : intLit n alt = [45, 48] := by simp only [intLit, hz, if_true]
    rw [hlit, hn]
    decide
  · simp only [intLit, hz]
    exact decodeInt_renderInt n hlo hhi

/-- After the white space that follows a literal comes a comma or `]`: the
literal ends there, and skipping the white space reaches that byte. -/
theorem after_literal (post rest : Bytes) (c : Nat) (hp : allWs post = true)
    (hc : c = 44 ∨ c = 93) :
    endsNumber (post ++ c :: rest) ∧ skipWs (post ++ c :: rest) = c :: rest := by
  have hcw : isWs c = false := by rcases hc with rfl | rfl <;> rfl
  constructor
  · cases post with
    | nil =>
      rcases hc with rfl | rfl
      · exact ⟨rfl, by decide, by decide, by decide⟩
      · exact ⟨rfl, by decide, by decide, by decide⟩
    | cons t w =>
      simp only [allWs, List.all_cons, Bool.and_eq_true] at hp
      exact endsNumber_ws _ hp.1
  · rw [skipWs_allWs post _ hp]
    exact skipWs_of_not_ws _ hcw

theorem skipWs_elemsText (e : Padded) (es : List Padded) (r : Bytes) (he : e.spaced) :
    skipWs (elemsText (e :: es) ++ r)
      = intLit e.val e.alt ++ (e.post ++ ((match es with
          | [] => []
          | _ :: _ => 44 :: elemsText es) ++ r)) := by
  obtain ⟨b, bs, hl, hb⟩ := intLit_head e.val e.alt
  have hws := (numeral_head_facts hb).2.2.2.2.2.2.2
  cases es with
  | nil =>
    simp only [elemsText, List.append_assoc, List.nil_append]
    rw [skipWs_allWs e.pre _ he.1, hl]
    exact skipWs_of_not_ws _ hws
  | cons e2 es =>
    simp only [elemsText, List.append_assoc, List.cons_append]
    rw [skipWs_allWs e.pre _ he.1, hl]
    exact skipWs_of_not_ws _ hws

/-- The scanner reads the elements of a well-formed array text, up to its
`]`, as the array of their literals. -/
theorem parseElems_text (depth : Nat) (trail : Bytes) :
    ∀ (es : List Padded) (e : Padded) (fuel : Nat) (acc : List JSON),
      (∀ x ∈ e :: es, x.spaced) → es.length + 2 ≤ fuel →
      parseElems fuel depth acc (skipWs (elemsText (e :: es) ++ 93 :: trail))
        = some (JSON.arr (acc ++ (e :: es).map (fun x => JSON.num (intLit x.val x.alt))),
            trail) := by
  intro es
  induction es with
  | nil =>
    intro e fuel acc hwf hf
    obtain ⟨f, rfl⟩ : ∃ f, fuel = f + 2 := ⟨fuel - 2, by omega⟩
    have he := hwf e (List.mem_cons_self _ _)
    obtain ⟨hend, hsk⟩ := after_literal e.post trail 93 he.2 (Or.inr rfl)
    rw [skipWs_elemsText e [] _ he]
    simp only [List.nil_append]
    rw [parseElems, parseValue_intLit f depth e.val e.alt _ hend]
    simp only [hsk]
    simp
  | cons e2 es ih =>
    intro e fuel acc hwf hf
    obtain ⟨f, rfl⟩ : ∃ f, fuel = f + 2 := ⟨fuel - 2, by omega⟩
    have he := hwf e (List.mem_cons_self _ _)
    have hwf2 : ∀ x ∈ e2 :: es, x.spaced := fun x hx => hwf x (List.mem_cons_of_mem _ hx)
    obtain ⟨hend, hsk⟩ := after_literal e.post (elemsText (e2 :: es) ++ 93 :: trail) 44
      he.2 (Or.inl rfl)
    have hrec := ih e2 (f + 1) (acc ++ [JSON.num (intLit e.val e.alt)]) hwf2
      (by simp at hf ⊢; omega)
    rw [skipWs_elemsText e (e2 :: es) _ he]
    simp only [List.cons_append]
    rw [parseElems, parseValue_intLit f depth e.val e.alt _ hend]
    simp only [hsk, if_true, hrec]
    simp

/-- The scanner never accepts the elements of an array text whose `]` is
missing. -/
theorem parseElems_truncated (depth : Nat) :
    ∀ (es : List Padded) (e : Padded) (fuel : Nat) (acc : List JSON),
      (∀ x ∈ e :: es, x.spaced) →
      parseElems fuel depth acc (skipWs (elemsText (e :: es))) = none := by
  intro es
  induction es with
  | nil =>
    intro e fuel acc hwf
    have he := hwf e (List.mem_cons_self _ _)
    have hsk := skipWs_elemsText e [] [] he
    simp only [List.append_nil] at hsk
    rw [hsk]
    cases fuel with
    | zero => rfl
    | succ f =>
      cases f with
      | zero => simp [parseElems, parseValue]
      | succ f =>
        rw [parseElems, parseValue_intLit f depth e.val e.alt _ (endsNumber_allWs _ he.2)]
        simp [skipWs_allWs_nil _ he.2]
  | cons e2 es ih =>
    intro e fuel acc hwf
    have he := hwf e (List.mem_cons_self _ _)
    have hwf2 : ∀ x ∈ e2 :: es, x.spaced := fun x hx => hwf x (List.mem_cons_of_mem _ hx)
    have hsk0 := skipWs_elemsText e (e2 :: es) [] he
    simp only [List.append_nil] at hsk0
    obtain ⟨hend, hsk⟩ := after_literal e.post (elemsText (e2 :: es)) 44 he.2 (Or.inl rfl)
    rw [hsk0]
    cases fuel with
    | zero => rfl
    | succ f =>
      cases f with
      | zero => simp [parseElems, parseValue]
      | succ f =>
        rw [parseElems, parseValue_intLit f depth e.val e.alt _ hend]
        simp only [hsk, if_true]
        exact ih e2 (f + 1) _ hwf2

theorem elemsText_length (es : List Padded) : es.length ≤ (elemsText es).length := by
  induction es with
  | nil => simp
  | cons e es ih =>
    obtain ⟨b, bs, hl, _⟩ := intLit_head e.val e.alt
    cases es with
    | nil => simp [elemsText, hl]; omega
    | cons e2 es =>
      simp only [elemsText, hl, List.length_append, List.length_cons] at ih ⊢
      omega

theorem parseValue_open (fuel : Nat) (rest : Bytes) :
    parseValue (fuel + 1) 0 (91 :: rest)
      = match skipWs rest with
        | [] => none
        | c :: r => if c = 93 then some (JSON.arr [], r) else parseElems fuel 1 [] (c :: r) := by
  simp [parseValue, maxNestingDepth]

/-- The scanner reads a well-formed array text as the array of its literals. -/
theorem parseJSON_arrayText (lead inner trail : Bytes) (es : List Padded)
    (hl : allWs lead = true) (hin : allWs inner = true) (ht : allWs trail = true)
    (hes : ∀ e ∈ es, e.spaced) :
    parseJSON (arrayText lead inner es trail)
      = some (JSON.arr (es.map (fun x => JSON.num (intLit x.val x.alt)))) := by
  have h91 : isWs 91 = false := rfl
  have h93 : isWs 93 = false := rfl
  cases es with
  | nil =>
    have hsk : skipWs (arrayText lead inner [] trail) = 91 :: (inner ++ 93 :: trail) := by
      simp only [arrayText]
      rw [skipWs_allWs lead _ hl]
      exact skipWs_of_not_ws _ h91
    have hin2 : skipWs (inner ++ 93 :: trail) = 93 :: trail := by
      rw [skipWs_allWs inner _ hin]
      exact skipWs_of_not_ws _ h93
    rw [parseJSON, hsk, parseValue_open, hin2]
    simp [skipWs_allWs_nil trail ht]
  | cons e es =>
    have he := hes e (List.mem_cons_self _ _)
    have hsk : skipWs (arrayText lead inner (e :: es) trail)
        = 91 :: (elemsText (e :: es) ++ 93 :: trail) := by
      simp only [arrayText]
      rw [skipWs_allWs lead _ hl]
      exact skipWs_of_not_ws _ h91
    obtain ⟨b, bs, hlit, hb⟩ := intLit_head e.val e.alt
    have hb93 : b ≠ 93 := (numeral_head_facts hb).2.2.2.2.2.2.1
    have hbody := skipWs_elemsText e es (93 :: trail) he
    rw [hlit] at hbody
    simp only [List.cons_append] at hbody
    have hlen := elemsText_length (e :: es)
    have hfuel : es.length + 2 ≤ 2 * (arrayText lead inner (e :: es) trail).length + 1 := by
      simp only [arrayText, List.length_append, List.length_cons] at hlen ⊢
      omega
    have hrec := parseElems_text 1 trail es e _ [] hes hfuel
    rw [hbody] at hrec
    rw [parseJSON, hsk, parseValue_open, hbody]
    simp only [hb93, if_false, hrec]
    simp [skipWs_allWs_nil trail ht]

/-- The scanner rejects an array text whose `]` is missing. -/
theorem parseJSON_truncated (lead : Bytes) (e : Padded) (es : List Padded)
    (hl : allWs lead = true) (hes : ∀ x ∈ e :: es, x.spaced) :
    parseJSON (truncatedText lead (e :: es)) = none := by
  have h91 : isWs 91 = false := rfl
  have he := hes e (List.mem_cons_self _ _)
  have hsk : skipWs (truncatedText lead (e :: es)) = 91 :: elemsText (e :: es) := by
    simp only [truncatedText]
    rw [skipWs_allWs lead _ hl]
    exact skipWs_of_not_ws _ h91
  obtain ⟨b, bs, hlit, hb⟩ := intLit_head e.val e.alt
  have hb93 : b ≠ 93 := (numeral_head_facts hb).2.2.2.2.2.2.1
  have hbody := skipWs_elemsText e es [] he
  simp only [List.append_nil] at hbody
  rw [hlit] at hbody
  simp only [List.cons_append] at hbody
  have hrec := parseElems_truncated 1 es e
    (2 * (truncatedText lead (e :: es)).length + 1) [] hes
  rw [hbody] at hrec
  rw [parseJSON, hsk, parseValue_open, hbody]
  simp only [hb93, if_false, hrec]

/-- The scanner reads an integer literal standing alone as a number. -/
theorem parseJSON_number (lead trail : Bytes) (n : Int) (alt : Bool)
    (hl : allWs lead = true) (ht : allWs trail = true) :
    parseJSON (lead ++ (intLit n alt ++ trail)) = some (JSON.num (intLit n alt)) := by
  obtain ⟨b, bs, hlit, hb⟩ := intLit_head n alt
  have hws := (numeral_head_facts hb).2.2.2.2.2.2.2
  have hsk : skipWs (lead ++ (intLit n alt ++ trail)) = intLit n alt ++ trail := by
    rw [skipWs_allWs lead _ hl, hlit]
    exact skipWs_of_not_ws _ hws
  rw [parseJSON, hsk, parseValue_intLit _ 0 n alt trail (endsNumber_allWs trail ht)]
  simp [skipWs_allWs_nil trail ht]

theorem decodeElem_intLit (es : List Padded) (hes : ∀ e ∈ es, e.wf) :
    (es.map (fun x => JSON.num (intLit x.val x.alt))).map decodeElem
      = (es.map Padded.val).map Decoded.value := by
  induction es with
  | nil => rfl
  | cons e es ih =>
    have he := hes e (List.mem_cons_self _ _)
    simp only [List.map_cons, decodeElem, decodeInt_intLit e.val e.alt he.2.2.1 he.2.2.2]
    rw [← ih (fun x hx => hes x (List.mem_cons_of_mem _ hx))]

/-! ## Cells the decoder does not write -/

theorem expand_prefix [Inhabited T] (g : Nat → Nat → Nat) {s : Slice} {h : Heap T} {i : Nat}
    {xs : List T} (hok : s.ok h = true) (hi : i ≤ s.len) (hxs : elems s h = some xs) :
    ∃ s2 h1 t, expand g s i h = some (s2, h1) ∧ elems s2 h1 = some (xs ++ t) := by
  obtain ⟨s2, h1, ys, hexp, hok2, hi2, hys, hylen, hpre, _, _⟩ := expand_spec g hok hi hxs
  obtain ⟨zs, hzs, hlen⟩ := ok_elems hok
  rw [hxs] at hzs
  cases hzs
  refine ⟨s2, h1, ys.drop xs.length, hexp, ?_⟩
  rw [hys]
  congr 1
  -- the old elements are the first cells of the new slice
  obtain ⟨hlc, hcase⟩ := Slice_ok_iff.mp hok
  by_cases hil : i = s.len
  · have : ys.take xs.length = xs := by
      rw [hlen, ← hil, hpre, hil, ← hlen, List.take_length]
    conv_lhs => rw [← List.take_append_drop xs.length ys]
    rw [this]
  · -- the slice was long enough already: nothing changed
    have hlt : i < s.len := by omega
    have hcap : ¬ s.cap ≤ i := by omega
    have hnl : ¬ s.len ≤ i := by omega
    simp only [expand, hcap, hnl, if_false, Option.some.injEq, Prod.mk.injEq] at hexp
    obtain ⟨rfl, rfl⟩ := hexp
    rw [hxs] at hys
    cases hys
    simp

/-- Where an array element is not an `int`, the decoder leaves the cell as it
was: below the old length the stack keeps its old element there. -/
theorem decodeArray_keeps (g : Nat → Nat → Nat) (es : List JSON) :
    ∀ (i : Nat) (s : Slice) (h : Heap Int) (err : Option JSONError) (xs : List Int),
      s.ok h = true → i ≤ s.len → elems s h = some xs →
      ∃ s' h' out, decodeArray g es i s h err = some (s', h', errAfter err es) ∧
        elems s' h' = some out ∧
        (∀ k, i ≤ k → k < xs.length → k < i + es.length →
          (∀ n, (es.map decodeElem)[k - i]? ≠ some (Decoded.value n)) → out[k]? = xs[k]?) := by
  induction es with
  | nil =>
    intro i s h err xs hok hi hxs
    obtain ⟨s', h', out, hdec, _, hout, _⟩ := decodeArray_spec g [] i s h err xs hok hi hxs
    exact ⟨s', h', out, hdec, hout, fun k h1 _ h3 _ => by simp at h3; omega⟩
  | cons e es ih =>
    intro i s h err xs hok hi hxs
    obtain ⟨s2, h1, ys, hexp, hok2, hi2, hys, hylen, _, _, _⟩ := expand_spec g hok hi hxs
    obtain ⟨s2', h1', t, hexp', hys'⟩ := expand_prefix g hok hi hxs
    rw [hexp] at hexp'
    simp only [Option.some.injEq, Prod.mk.injEq] at hexp'
    obtain ⟨rfl, rfl⟩ := hexp'
    rw [hys] at hys'
    simp only [Option.some.injEq] at hys'
    have hiy : i < ys.length := by omega
    have key : ∀ (h2 : Heap Int) (zs : List Int) (err' : Option JSONError),
        s2.ok h2 = true → elems s2 h2 = some zs → zs.length = ys.length →
        (∀ k, i < k → zs[k]? = ys[k]?) →
        ((∀ n, decodeElem e ≠ Decoded.value n) → zs[i]? = ys[i]?) →
        ∃ s' h' out, decodeArray g es (i + 1) s2 h2 err' = some (s', h', errAfter err' es) ∧
          elems s' h' = some out ∧
          (∀ k, i ≤ k → k < xs.length → k < i + (e :: es).length →
            (∀ n, ((e :: es).map decodeElem)[k - i]? ≠ some (Decoded.value n)) →
            out[k]? = xs[k]?) := by
      intro h2 zs err' hok3 hzs hzl hgt hat
      have hi3 : i + 1 ≤ s2.len := by omega
      obtain ⟨s', h', out, hdec, hout, hkeep⟩ := ih (i + 1) s2 h2 err' zs hok3 hi3 hzs
      obtain ⟨s'', h'', out', hdec', _, hout', _, htake, _⟩ :=
        decodeArray_spec g es (i + 1) s2 h2 err' zs hok3 hi3 hzs
      rw [hdec] at hdec'
      simp only [Option.some.injEq, Prod.mk.injEq] at hdec'
      obtain ⟨rfl, rfl, _⟩ := hdec'
      rw [hout] at hout'
      simp only [Option.some.injEq] at hout'
      subst hout'
      refine ⟨s', h', out, hdec, hout, ?_⟩
      intro k hik hkx hkn hnot
      have hxk : xs[k]? = ys[k]? := by
        rw [hys', List.getElem?_append_left hkx]
      by_cases hk : k = i
      · subst hk
        have h0 : ∀ n, decodeElem e ≠ Decoded.value n := by
          intro n hn
          apply hnot n
          simp [hn]
        have : out[k]? = (out.take (k + 1))[k]? := by
          rw [List.getElem?_take_of_lt (by omega)]
        rw [this, htake, List.getElem?_take_of_lt (by omega), hat h0, hxk]
      · have hlt : i < k := by omega
        have hxy : xs.length ≤ ys.length := by rw [hys']; simp
        have hkl : k < i + (es.length + 1) := by simpa using hkn
        have := hkeep k (by omega) (by omega) (by omega) (by
          intro n hn
          apply hnot n
          have hidx : k - i = (k - (i + 1)) + 1 := by omega
          rw [hidx]
          simpa using hn)
        rw [this, hgt k hlt, hxk]
    cases hde : decodeElem e with
    | value n =>
      obtain ⟨h2, hset, hok3, hzs, _, _⟩ := setIndex_spec n hok2 hi2 hys
      obtain ⟨s', h', out, hdec, hrest⟩ := key h2 (ys.set i n) err hok3 hzs (by simp)
        (fun k hk => by simp [List.getElem?_set, Nat.ne_of_lt hk])
        (fun hno => absurd hde (hno n))
      refine ⟨s', h', out, ?_, hrest⟩
      simp only [decodeArray, hexp, hde, hset, errAfter]
      exact hdec
    | noEffect =>
      obtain ⟨s', h', out, hdec, hrest⟩ := key h1 ys err hok2 hys rfl (fun _ _ => rfl)
        (fun _ => rfl)
      refine ⟨s', h', out, ?_, hrest⟩
      simp only [decodeArray, hexp, hde, errAfter]
      exact hdec
    | mismatch =>
      obtain ⟨s', h', out, hdec, hrest⟩ := key h1 ys (saveError err) hok2 hys rfl
        (fun _ _ => rfl) (fun _ => rfl)
      refine ⟨s', h', out, ?_, hrest⟩
      simp only [decodeArray, hexp, hde, errAfter]
      exact hdec

/-- Decoding a JSON array into a valid stack: below the old length, the
element at a position where the array has no `int` is the old one. -/
theorem Unmarshal_keeps (g : Nat → Nat → Nat) {p : Nat} {h : Heap Int} {data : Bytes}
    {js : List JSON} {xs : List Int} (hv : Valid p h = true) (hi : items p h = some xs)
    (hp : parseJSON data = some (JSON.arr js)) :
    ∃ h' out, Stack.UnmarshalJSON g p data h = some (errAfter none js, h') ∧
      items p h' = some out ∧
      (∀ k, k < xs.length → k < js.length →
        (∀ n, (js.map decodeElem)[k]? ≠ some (Decoded.value n)) → out[k]? = xs[k]?) := by
  obtain ⟨s, ys, hl, hok, hys, _⟩ := valid_items hv
  rw [hi] at hys
  cases hys
  rw [items_eq hl] at hi
  obtain ⟨s', h', out, hdec, hout, hkeep⟩ :=
    decodeArray_keeps g js 0 s h none xs hok (Nat.zero_le _) hi
  obtain ⟨s'', h'', out', hdec', _, _, _, _, hst, _⟩ :=
    decodeArray_spec g js 0 s h none xs hok (Nat.zero_le _) hi
  rw [hdec] at hdec'
  simp only [Option.some.injEq, Prod.mk.injEq] at hdec'
  obtain ⟨rfl, rfl, _⟩ := hdec'
  have hl1 : load p h' = some s := by rw [load_congr hst, hl]
  have hl' : load p (store p s' h') = some s' := load_store_same s' hl1
  refine ⟨store p s' h', out, ?_, by rw [items_eq hl', elems_store, hout], ?_⟩
  · simp [Stack.UnmarshalJSON, hl, jsonUnmarshal, hp, hdec]
  · intro k hk1 hk2 hno
    exact hkeep k (Nat.zero_le _) hk1 (by simpa using hk2) (by simpa using hno)

theorem errAfter_none_mismatch (es : List JSON)
    (hbad : ∃ x ∈ es, decodeElem x = Decoded.mismatch) :
    errAfter none es = some JSONError.mismatch := by
  induction es with
  | nil =>
    obtain ⟨x, hx, _⟩ := hbad
    simp at hx
  | cons y ys ih =>
    obtain ⟨x, hx, hdx⟩ := hbad
    simp only [errAfter]
    cases hy : decodeElem y with
    | mismatch => exact errAfter_some _ _
    | value n =>
      rcases List.mem_cons.mp hx with rfl | hmem
      · rw [hy] at hdx
        cases hdx
      · exact ih ⟨x, hmem, hdx⟩
    | noEffect =>
      rcases List.mem_cons.mp hx with rfl | hmem
      · rw [hy] at hdx
        cases hdx
      · exact ih ⟨x, hmem, hdx⟩

/-- The scanner reads `null`, with white space around it, as the null value. -/
theorem parseJSON_null (lead trail : Bytes) (hl : allWs lead = true) (ht : allWs trail = true) :
    parseJSON (lead ++ (bytes "null" ++ trail)) = some JSON.null := by
  have hb : bytes "null" = [110, 117, 108, 108] := by decide
  have hsk : skipWs (lead ++ (bytes "null" ++ trail)) = 110 :: 117 :: 108 :: 108 :: trail := by
    rw [skipWs_allWs lead _ hl, hb]
    rfl
  rw [parseJSON, hsk]
  simp [parseValue, skipWs_allWs_nil trail ht]

/-! ## `json.Marshal` at another element type -/

theorem encodeAll_some (enc : T → Option Bytes) :
    ∀ (xs : List T) (bs : List Bytes), xs.map enc = bs.map some → encodeAll enc xs = some bs := by
  intro xs
  induction xs with
  | nil =>
    intro bs h
    cases bs with
    | nil => rfl
    | cons b bs => simp at h
  | cons x xs ih =>
    intro bs h
    cases bs with
    | nil => simp at h
    | cons b bs =>
      simp only [List.map_cons, List.cons.injEq] at h
      simp only [encodeAll, h.1, ih bs h.2]

theorem MarshalOf_ok (enc : T → Option Bytes) {p : Nat} {h : Heap T} {xs : List T}
    {bs : List Bytes} (hi : items p h = some xs) (hn : nilItems p h = false)
    (he : xs.map enc = bs.map some) :
    Stack.MarshalJSONOf (SliceEncoder.array enc) p h
      = some ((91 :: (List.intercalate [44] bs ++ [93]), none), h) := by
  unfold items at hi
  cases hl : load p h with
  | none => simp [hl] at hi
  | some s =>
    simp only [hl] at hi
    cases ha : s.arr with
    | none => simp [nilItems, hl, ha] at hn
    | some a =>
      simp [Stack.MarshalJSONOf, hl, jsonMarshalOf, ha, hi, encodeAll_some enc xs bs he]

theorem MarshalOf_nil (e : SliceEncoder T) {p : Nat} {h : Heap T}
    (hv : Valid p h = true) (hn : nilItems p h = true) :
    Stack.MarshalJSONOf e p h = some ((bytes "null", none), h) := by
  obtain ⟨s, hl, _⟩ := valid_iff.mp hv
  cases ha : s.arr with
  | none => simp [Stack.MarshalJSONOf, hl, jsonMarshalOf, ha]
  | some a => simp [nilItems, hl, ha] at hn

theorem MarshalOf_empty (enc : T → Option Bytes) {p : Nat} {h : Heap T}
    (hi : items p h = some []) (hn : nilItems p h = false) :
    Stack.MarshalJSONOf (SliceEncoder.array enc) p h = some ((bytes "[]", none), h) := by
  have he : ([] : List T).map enc = ([] : List Bytes).map some := rfl
  rw [MarshalOf_ok enc hi hn he]
  rfl

/-- At `int` elements the two models of `json.Marshal` agree. -/
theorem MarshalOf_int (p : Nat) (h : Heap Int) :
    Stack.MarshalJSONOf (SliceEncoder.array encodeInt) p h
      = (Stack.MarshalJSON p h).map (fun r => ((r.1.1, none), r.2)) := by
  cases hl : load p h with
  | none => simp [Stack.MarshalJSONOf, Stack.MarshalJSON, hl]
  | some s =>
    cases ha : s.arr with
    | none => simp [Stack.MarshalJSONOf, Stack.MarshalJSON, hl, jsonMarshalOf, jsonMarshal, ha]
    | some a =>
      cases he : elems s h with
      | none => simp [Stack.MarshalJSONOf, Stack.MarshalJSON, hl, jsonMarshalOf, jsonMarshal, ha, he]
      | some xs =>
        have : encodeAll encodeInt xs = some (xs.map renderInt) :=
          encodeAll_some encodeInt xs _ (by simp [encodeInt, Function.comp_def])
        simp [Stack.MarshalJSONOf, Stack.MarshalJSON, hl, jsonMarshalOf, jsonMarshal, ha, he,
          this, renderArray]

/-! ## Integer literals that do not fit `int` -/

theorem decodeInt_renderInt_none (a : Int) (h : a < minInt ∨ maxInt < a) :
    decodeInt (renderInt a) = none := by
  obtain ⟨hd, hne, hp, _, _⟩ := renderNat_spec a.natAbs
  have hall : (renderNat a.natAbs).all isDigit = true := by
    rw [List.all_eq_true]
    exact hd
  have hemp : (renderNat a.natAbs).isEmpty = false := by
    cases hl : renderNat a.natAbs with
    | nil => exact absurd hl hne
    | cons _ _ => rfl
  simp only [minInt, maxInt] at h
  by_cases hneg : a < 0
  · have hval : -((a.natAbs : Nat) : Int) = a := by omega
    have hlo : ¬ minInt ≤ a := by
      simp only [minInt]
      omega
    simp only [renderInt, hneg, if_true, decodeInt, hemp, hall, hp, hval, hlo]
    simp
  · cases hl : renderNat a.natAbs with
    | nil => exact absurd hl hne
    | cons d ds =>
      have hdd : isDigit d = true := by
        apply hd
        rw [hl]
        exact List.mem_cons_self _ _
      have hd45 : d ≠ 45 := by
        intro e
        rw [e] at hdd
        revert hdd
        decide
      have hval : ((a.natAbs : Nat) : Int) = a := by omega
      have hhi : ¬ a ≤ maxInt := by
        simp only [maxInt]
        omega
      rw [hl] at hall hp
      simp only [renderInt, hneg, if_false, hl, decodeInt, hd45, hall, hp, hval, hhi]
      simp

theorem decodeElem_intLit_in (x : Padded) (h1 : minInt ≤ x.val) (h2 : x.val ≤ maxInt) :
    decodeElem (JSON.num (intLit x.val x.alt)) = Decoded.value x.val := by
  simp only [decodeElem, decodeInt_intLit x.val x.alt h1 h2]

theorem decodeElem_intLit_out (x : Padded) (h : ¬ (minInt ≤ x.val ∧ x.val ≤ maxInt)) :
    decodeElem (JSON.num (intLit x.val x.alt)) = Decoded.mismatch := by
  have h0 : x.val ≠ 0 := by
    intro h0
    apply h
    rw [h0]
    decide
  have hlit : intLit x.val x.alt = renderInt x.val := by
    simp [intLit, h0]
  have hr : x.val < minInt ∨ maxInt < x.val := by
    by_contra hc
    apply h
    constructor <;> omega
  simp only [decodeElem, hlit, decodeInt_renderInt_none x.val hr]

/-- Decoding the text of an array of integer literals of which one does not
fit `int`: a type error, one element per literal, the literals that fit at
their positions, and below the old length the old element where the literal
does not fit. -/
theorem Unmarshal_overflow (g : Nat → Nat → Nat) {p : Nat} {h : Heap Int} {xs : List Int}
    (lead trail : Bytes) (ms : List Padded) (hv : Valid p h = true)
    (hi : items p h = some xs) (hl : allWs lead = true) (ht : allWs trail = true)
    (hms : ∀ x ∈ ms, x.spaced)
    (hout : ∃ x ∈ ms, ¬ (minInt ≤ x.val ∧ x.val ≤ maxInt)) :
    ∃ h' out, Stack.UnmarshalJSON g p (arrayText lead [] ms trail) h
        = some (some JSONError.mismatch, h') ∧
      Valid p h' = true ∧ items p h' = some out ∧ out.length = ms.length ∧
      (∀ (k : Nat) (x : Padded), ms[k]? = some x → minInt ≤ x.val → x.val ≤ maxInt →
        out[k]? = some x.val) ∧
      (∀ (k : Nat) (x : Padded), ms[k]? = some x → ¬ (minInt ≤ x.val ∧ x.val ≤ maxInt) →
        k < xs.length → out[k]? = xs[k]?) ∧
      StackFrame p h h' := by
  have hp := parseJSON_arrayText lead [] trail ms hl rfl ht hms
  obtain ⟨h', out, hun, hv', hi', hlen, _, hf, hvals⟩ := Unmarshal_array g hv hp
  obtain ⟨h'', out', hun', hi'', hkeep⟩ := Unmarshal_keeps g hv hi hp
  rw [hun] at hun'
  simp only [Option.some.injEq, Prod.mk.injEq, true_and] at hun'
  subst hun'
  rw [hi'] at hi''
  simp only [Option.some.injEq] at hi''
  subst hi''
  have hbad : ∃ j ∈ ms.map (fun x => JSON.num (intLit x.val x.alt)),
      decodeElem j = Decoded.mismatch := by
    obtain ⟨x, hx, hxo⟩ := hout
    exact ⟨_, List.mem_map_of_mem _ hx, decodeElem_intLit_out x hxo⟩
  rw [errAfter_none_mismatch _ hbad] at hun
  refine ⟨h', out, hun, hv', hi', by simpa using hlen, ?_, ?_, hf⟩
  · intro k x hk h1 h2
    apply hvals k x.val
    simp [hk, decodeElem_intLit_in x h1 h2]
  · intro k x hk hxo hkx
    have hkm : k < ms.length := by
      by_contra hc
      rw [List.getElem?_eq_none (by omega)] at hk
      cases hk
    apply hkeep k hkx (by simpa using hkm)
    intro m hm
    simp [hk, decodeElem_intLit_out x hxo] at hm

end Lemmas

/-! ## The properties -/

/-- C1 (LIFO order): on any valid stack with contents `xs`, pushing `v1..vn`
succeeds, the next `n` calls of `Pop` return `(vn, true), ..., (v1, true)` in
that order, and the stack then holds `xs` again. -/
theorem lifo_order {T : Type} [Inhabited T] (g : Nat → Nat → Nat) (p : Nat) (h : Heap T)
    (xs vs : List T) (hv : Valid p h = true) (hi : items p h = some xs) :
    ∃ h1 h2, pushAll g p vs h = some h1 ∧
      popN p vs.length h1 = some (vs.reverse.map (fun v => (v, true)), h2) ∧
      Valid p h2 = true ∧ items p h2 = some xs := by
  obtain ⟨h1, hpush, hv1, hi1⟩ := pushAll_ok g vs hv hi
  obtain ⟨h2, hpop, hv2, hi2⟩ := popN_ok vs hv1 hi1
  exact ⟨h1, h2, hpush, hpop, hv2, hi2⟩

/-- An instance of C1 on a concrete heap. -/
theorem lifo_order_witness :
    ∃ h1 h2, pushAll double 0 [1, 2, 3] sampleHeap = some h1 ∧
      popN 0 [1, 2, 3].length h1 = some ([1, 2, 3].reverse.map (fun v => (v, true)), h2) ∧
      Valid 0 h2 = true ∧ items 0 h2 = some [4, 5] :=
  lifo_order double 0 sampleHeap [4, 5] [1, 2, 3] (by decide) (by decide)

/-- C2 (Pop on a non-empty stack): if the contents are `xs ++ [x]`, `Pop`
returns `(x, true)`, the contents become exactly `xs`, and `Len` goes from
`|xs| + 1` to `|xs|`. -/
theorem Pop_nonempty {T : Type} [Inhabited T] (p : Nat) (h : Heap T) (xs : List T) (x : T)
    (hv : Valid p h = true) (hi : items p h = some (xs ++ [x])) :
    ∃ h', Pop p h = some ((x, true), h') ∧ Valid p h' = true ∧ items p h' = some xs ∧
      Len p h = some ((xs.length : Int) + 1, h) ∧ Len p h' = some ((xs.length : Int), h') := by
  obtain ⟨h', hpop, hv', hi', _⟩ := Pop_ok hv hi
  refine ⟨h', hpop, hv', hi', ?_, Len_ok hv' hi'⟩
  have := Len_ok hv hi
  simpa using this

/-- An instance of C2 on a concrete heap. -/
theorem Pop_nonempty_witness :
    ∃ h', Pop 0 sampleHeap = some ((5, true), h') ∧ Valid 0 h' = true ∧
      items 0 h' = some [4] ∧
      Len 0 sampleHeap = some (((([4] : List Nat).length : Nat) : Int) + 1, sampleHeap) ∧
      Len 0 h' = some (((([4] : List Nat).length : Nat) : Int), h') :=
  Pop_nonempty 0 sampleHeap [4] 5 (by decide) (by decide)

/-- C3 (Pop on an empty stack): on a valid stack with `Len` 0, `Pop` returns
the zero value and `false` and the heap is the same afterwards, however often
it is repeated, so `Len` stays 0; and a `Pop` that answers `false` was
called on a stack with `Len` 0 and changed nothing. -/
theorem Pop_absent {T : Type} [Inhabited T] (p : Nat) (h : Heap T)
    (hv : Valid p h = true) (h0 : Len p h = some (0, h)) :
    Pop p h = some ((default, false), h) ∧
      (∀ n, popN p n h = some (List.replicate n (default, false), h)) ∧
      (∀ (q : Nat) (k k' : Heap T) (v : T), Pop q k = some ((v, false), k') →
        Len q k = some (0, k) ∧ k' = k ∧ v = default) := by
  have hi := Len_zero_items hv h0
  refine ⟨Pop_empty hv hi, popN_empty hv hi, ?_⟩
  intro q k k' v hpop
  unfold Pop at hpop
  cases hl : load q k with
  | none => simp [hl] at hpop
  | some s =>
    simp only [hl] at hpop
    by_cases hz : s.len = 0
    · simp only [hz, if_true, Option.some.injEq, Prod.mk.injEq] at hpop
      exact ⟨by simp [Len, hl, hz], hpop.2.symm, hpop.1.1.symm⟩
    · simp only [hz, if_false] at hpop
      cases hix : index s (s.len - 1) k with
      | none => simp [hix] at hpop
      | some item =>
        cases hr : reslice s (s.len - 1) with
        | none => simp [hix, hr] at hpop
        | some s' => simp [hix, hr] at hpop

/-- An instance of C3 on a concrete heap. -/
theorem Pop_absent_witness :
    Pop 0 freshHeap = some ((default, false), freshHeap) ∧
      (∀ n, popN 0 n freshHeap = some (List.replicate n (default, false), freshHeap)) ∧
      (∀ (q : Nat) (k k' : Heap Nat) (v : Nat), Pop q k = some ((v, false), k') →
        Len q k = some (0, k) ∧ k' = k ∧ v = default) :=
  Pop_absent 0 freshHeap (by decide) (by decide)

/-- C4 (Push): on a valid stack with contents `xs`, `Push(s, v)` succeeds,
the contents become exactly `xs ++ [v]`, `Len` goes from `|xs|` to `|xs| + 1`,
and `Peek` then returns `(v, true)`. -/
theorem Push_appends {T : Type} [Inhabited T] (g : Nat → Nat → Nat) (p : Nat) (h : Heap T)
    (xs : List T) (v : T) (hv : Valid p h = true) (hi : items p h = some xs) :
    ∃ h', Push g p v h = some h' ∧ Valid p h' = true ∧ items p h' = some (xs ++ [v]) ∧
      Len p h = some ((xs.length : Int), h) ∧ Len p h' = some ((xs.length : Int) + 1, h') ∧
      Peek p h' = some ((v, true), h') := by
  obtain ⟨h', hpush, hv', hi', _⟩ := Push_ok g v hv hi
  refine ⟨h', hpush, hv', hi', Len_ok hv hi, ?_, Peek_top hv' hi'⟩
  have := Len_ok hv' hi'
  simpa using this

/-- An instance of C4 on a concrete heap. -/
theorem Push_appends_witness :
    ∃ h', Push double 0 6 sampleHeap = some h' ∧ Valid 0 h' = true ∧
      items 0 h' = some ([4, 5] ++ [6]) ∧
      Len 0 sampleHeap = some (((([4, 5] : List Nat).length : Nat) : Int), sampleHeap) ∧
      Len 0 h' = some (((([4, 5] : List Nat).length : Nat) : Int) + 1, h') ∧
      Peek 0 h' = some ((6, true), h') :=
  Push_appends double 0 sampleHeap [4, 5] 6 (by decide) (by decide)

/-- C5 (Peek): on a valid stack with contents `xs`, `Peek` returns the last
element of `xs` with `true` when there is one and the zero value with `false`
when `xs` is empty, never changes the heap, and answers `false` exactly when
the stack is empty. -/
theorem Peek_top_or_absent {T : Type} [Inhabited T] (p : Nat) (h : Heap T) (xs : List T)
    (hv : Valid p h = true) (hi : items p h = some xs) :
    (∀ x, xs.getLast? = some x → Peek p h = some ((x, true), h)) ∧
      (xs = [] → Peek p h = some ((default, false), h)) ∧
      (∀ (v : T) (h' : Heap T), Peek p h = some ((v, false), h') ↔
        (xs = [] ∧ v = default ∧ h' = h)) := by
  rcases nil_or_snoc xs with rfl | ⟨ys, y, rfl⟩
  · have hp := Peek_empty hv hi
    refine ⟨by simp, fun _ => hp, ?_⟩
    intro v h'
    rw [hp]
    constructor
    · intro e; cases e; exact ⟨rfl, rfl, rfl⟩
    · rintro ⟨_, rfl, rfl⟩; rfl
  · have hp := Peek_top hv hi
    refine ⟨?_, by simp, ?_⟩
    · intro x hx
      simp at hx
      rw [← hx]
      exact hp
    · intro v h'
      rw [hp]
      simp

/-- An instance of C5 on a concrete heap. -/
theorem Peek_top_or_absent_witness :
    (∀ x, ([4, 5] : List Nat).getLast? = some x → Peek 0 sampleHeap = some ((x, true), sampleHeap)) ∧
      (([4, 5] : List Nat) = [] → Peek 0 sampleHeap = some ((default, false), sampleHeap)) ∧
      (∀ (v : Nat) (h' : Heap Nat), Peek 0 sampleHeap = some ((v, false), h') ↔
        (([4, 5] : List Nat) = [] ∧ v = default ∧ h' = sampleHeap)) :=
  Peek_top_or_absent 0 sampleHeap [4, 5] (by decide) (by decide)

/-- C6 (Peek idempotence): on a valid stack, `n` consecutive calls of `Peek`
all return the result of the first, and the heap afterwards is the heap
before, so contents, order and `Len` are as they were. -/
theorem Peek_idempotent {T : Type} [Inhabited T] (p : Nat) (h : Heap T) (n : Nat)
    (hv : Valid p h = true) :
    ∃ r, Peek p h = some (r, h) ∧ peekN p n h = some (List.replicate n r, h) := by
  obtain ⟨s, xs, _, _, hi, _⟩ := valid_items hv
  have hp : ∃ r, Peek p h = some (r, h) := by
    rcases nil_or_snoc xs with rfl | ⟨ys, y, rfl⟩
    · exact ⟨_, Peek_empty hv hi⟩
    · exact ⟨_, Peek_top hv hi⟩
  obtain ⟨r, hr⟩ := hp
  exact ⟨r, hr, peekN_same hr n⟩

/-- An instance of C6 on a concrete heap. -/
theorem Peek_idempotent_witness :
    ∃ r, Peek 0 sampleHeap = some (r, sampleHeap) ∧
      peekN 0 3 sampleHeap = some (List.replicate 3 r, sampleHeap) :=
  Peek_idempotent 0 sampleHeap 3 (by decide)

/-- C7 as stated fails: the run `Pop; Push 7` on a new stack has one push and
one pop, yet the final `Len` is 1, not `1 - 1`. -/
theorem length_invariant_counterexample :
    freshHeap = (New (emptyHeap : Heap Nat)).2 ∧ (New (emptyHeap : Heap Nat)).1 = 0 ∧
      countPush [Op.pop, Op.push (7 : Nat)] = 1 ∧ countPop [Op.pop, Op.push (7 : Nat)] = 1 ∧
      applyOps double 0 [Op.pop, Op.push 7] freshHeap
        = some ⟨[[], [7]], [⟨some 1, 1, 1⟩]⟩ ∧
      Len 0 (⟨[[], [7]], [⟨some 1, 1, 1⟩]⟩ : Heap Nat)
        = some (1, ⟨[[], [7]], [⟨some 1, 1, 1⟩]⟩) ∧
      ((1 : Int) ≠ (countPush [Op.pop, Op.push (7 : Nat)] : Int)
        - (countPop [Op.pop, Op.push (7 : Nat)] : Int)) := by
  decide

/-- C7 (length invariant, amended): a run of `Push` and `Pop` calls on a newly
constructed stack in which every prefix has at least as many pushes as pops
succeeds, and the final `Len` is the number of pushes minus the number of
pops. -/
theorem length_invariant {T : Type} [Inhabited T] (g : Nat → Nat → Nat) (h0 : Heap T)
    (ops : List (Op T)) (hpp : Op.clear ∉ ops) (hbal : balancedRun ops) :
    ∃ h', applyOps g (New h0).1 ops (New h0).2 = some h' ∧
      Len (New h0).1 h' = some ((countPush ops : Int) - (countPop ops : Int), h') := by
  obtain ⟨_, hv, hi⟩ := New_ok h0
  obtain ⟨h', ys, hrun, hv', hi', hlen⟩ :=
    run_len g ops hv hi hpp (fun k hk => by simpa using hbal k hk)
  refine ⟨h', hrun, ?_⟩
  rw [Len_ok hv' hi']
  have : (ys.length : Int) = (countPush ops : Int) - (countPop ops : Int) := by
    simp at hlen
    omega
  rw [this]

/-- An instance of C7 on a concrete heap. -/
theorem length_invariant_witness :
    ∃ h', applyOps double (New (emptyHeap : Heap Nat)).1
        [Op.push 1, Op.push 2, Op.pop, Op.push 3, Op.pop] (New (emptyHeap : Heap Nat)).2
          = some h' ∧
      Len (New (emptyHeap : Heap Nat)).1 h'
        = some ((countPush [Op.push (1 : Nat), Op.push 2, Op.pop, Op.push 3, Op.pop] : Int)
            - (countPop [Op.push (1 : Nat), Op.push 2, Op.pop, Op.push 3, Op.pop] : Int), h') :=
  length_invariant double emptyHeap [Op.push 1, Op.push 2, Op.pop, Op.push 3, Op.pop]
    (by decide) (by unfold balancedRun; decide)

/-- C8 (Clone independence): cloning a valid stack with contents `xs` gives a
stack `c` such that any run of `Push`, `Pop` and `Clear` calls on the
original leaves `Len` and `Values` of `c` at what they were when cloned, and
any such run on `c` leaves `Len` and `Values` of the original unchanged. -/
theorem Clone_independent {T : Type} [Inhabited T] (g : Nat → Nat → Nat) (s : Nat)
    (h : Heap T) (xs : List T) (hv : Valid s h = true) (hi : items s h = some xs) :
    ∃ c h1, Clone g s h = some (c, h1) ∧
      Len c h1 = some ((xs.length : Int), h1) ∧
      slicesCollect (Values c) h1 = some (xs, h1) ∧
      Len s h1 = some ((xs.length : Int), h1) ∧
      slicesCollect (Values s) h1 = some (xs, h1) ∧
      (∀ ops : List (Op T), ∃ h2, applyOps g s ops h1 = some h2 ∧
        Len c h2 = some ((xs.length : Int), h2) ∧
        slicesCollect (Values c) h2 = some (xs, h2)) ∧
      (∀ ops : List (Op T), ∃ h2, applyOps g c ops h1 = some h2 ∧
        Len s h2 = some ((xs.length : Int), h2) ∧
        slicesCollect (Values s) h2 = some (xs, h2)) := by
  obtain ⟨c, h1, hcl, _, hvc, hic, hvs, his, _, hsep⟩ := Clone_ok g hv hi
  refine ⟨c, h1, hcl, Len_ok hvc hic, Values_ok hvc hic, Len_ok hvs his, Values_ok hvs his,
    ?_, ?_⟩
  · intro ops
    obtain ⟨h2, hrun, _, hvc2, _, hic2⟩ := applyOps_frame g ops hvs hvc hsep
    rw [hic] at hic2
    exact ⟨h2, hrun, Len_ok hvc2 hic2, Values_ok hvc2 hic2⟩
  · intro ops
    obtain ⟨h2, hrun, _, hvs2, _, his2⟩ := applyOps_frame g ops hvc hvs (Sep_symm hsep)
    rw [his] at his2
    exact ⟨h2, hrun, Len_ok hvs2 his2, Values_ok hvs2 his2⟩

/-- An instance of C8 on a concrete heap. -/
theorem Clone_independent_witness :
    ∃ c h1, Clone double 0 sampleHeap = some (c, h1) ∧
      Len c h1 = some (((([4, 5] : List Nat).length : Nat) : Int), h1) ∧
      slicesCollect (Values c) h1 = some ([4, 5], h1) ∧
      Len 0 h1 = some (((([4, 5] : List Nat).length : Nat) : Int), h1) ∧
      slicesCollect (Values 0) h1 = some ([4, 5], h1) ∧
      (∀ ops : List (Op Nat), ∃ h2, applyOps double 0 ops h1 = some h2 ∧
        Len c h2 = some (((([4, 5] : List Nat).length : Nat) : Int), h2) ∧
        slicesCollect (Values c) h2 = some ([4, 5], h2)) ∧
      (∀ ops : List (Op Nat), ∃ h2, applyOps double c ops h1 = some h2 ∧
        Len 0 h2 = some (((([4, 5] : List Nat).length : Nat) : Int), h2) ∧
        slicesCollect (Values 0) h2 = some ([4, 5], h2)) :=
  Clone_independent double 0 sampleHeap [4, 5] (by decide) (by decide)

/-- C9 (Clone copies contents): cloning a valid stack with contents `xs`
succeeds and gives a new stack with the same `Len` and the same `Values`
sequence, the original keeps its header, contents, `Len` and `Values`, and
the clone of an empty stack is empty. -/
theorem Clone_copies {T : Type} [Inhabited T] (g : Nat → Nat → Nat) (s : Nat)
    (h : Heap T) (xs : List T) (hv : Valid s h = true) (hi : items s h = some xs) :
    ∃ c h1, Clone g s h = some (c, h1) ∧ c ≠ s ∧ Valid c h1 = true ∧
      items c h1 = some xs ∧ Len c h1 = Len s h1 ∧
      Len c h1 = some ((xs.length : Int), h1) ∧
      slicesCollect (Values c) h1 = some (xs, h1) ∧
      slicesCollect (Values s) h = some (xs, h) ∧
      load s h1 = load s h ∧ items s h1 = some xs ∧
      slicesCollect (Values s) h1 = some (xs, h1) ∧
      (xs = [] → Len c h1 = some (0, h1) ∧ slicesCollect (Values c) h1 = some ([], h1)) := by
  obtain ⟨c, h1, hcl, _, hvc, hic, hvs, his, hld, hsep⟩ := Clone_ok g hv hi
  refine ⟨c, h1, hcl, fun e => hsep.1 e.symm, hvc, hic, ?_, Len_ok hvc hic,
    Values_ok hvc hic, Values_ok hv hi, hld, his, Values_ok hvs his, ?_⟩
  · rw [Len_ok hvc hic, Len_ok hvs his]
  · rintro rfl
    exact ⟨Len_ok hvc hic, Values_ok hvc hic⟩

/-- An instance of C9 on a concrete heap. -/
theorem Clone_copies_witness :
    ∃ c h1, Clone double 0 sampleHeap = some (c, h1) ∧ c ≠ 0 ∧ Valid c h1 = true ∧
      items c h1 = some [4, 5] ∧ Len c h1 = Len 0 h1 ∧
      Len c h1 = some (((([4, 5] : List Nat).length : Nat) : Int), h1) ∧
      slicesCollect (Values c) h1 = some ([4, 5], h1) ∧
      slicesCollect (Values 0) sampleHeap = some ([4, 5], sampleHeap) ∧
      load 0 h1 = load 0 sampleHeap ∧ items 0 h1 = some [4, 5] ∧
      slicesCollect (Values 0) h1 = some ([4, 5], h1) ∧
      (([4, 5] : List Nat) = [] →
        Len c h1 = some (0, h1) ∧ slicesCollect (Values c) h1 = some ([], h1)) :=
  Clone_copies double 0 sampleHeap [4, 5] (by decide) (by decide)

/-- C10 (Collect): on any heap, `Collect` over the elements `e1..en` returns
a new valid stack with `Len` `n` whose `Values` are `e1..en` in that order,
with `Peek` returning `en` when `n > 0`; an empty source gives an empty
stack. -/
theorem Collect_in_order {T : Type} [Inhabited T] (g : Nat → Nat → Nat) (es : List T)
    (h : Heap T) :
    ∃ p h', Collect g (slicesValues es) h = some (p, h') ∧ Valid p h' = true ∧
      items p h' = some es ∧ Len p h' = some ((es.length : Int), h') ∧
      slicesCollect (Values p) h' = some (es, h') ∧
      (∀ e, es.getLast? = some e → Peek p h' = some ((e, true), h')) ∧
      (es = [] → Len p h' = some (0, h') ∧ Peek p h' = some ((default, false), h')) := by
  obtain ⟨h', hc, hv, hi⟩ := Collect_ok g es h
  refine ⟨h.structs.length, h', hc, hv, hi, Len_ok hv hi, Values_ok hv hi,
    fun e he => Peek_last hv hi he, ?_⟩
  rintro rfl
  exact ⟨Len_ok hv hi, Peek_empty hv hi⟩

/-- C11 (iteration order): pushing `v1..vn` onto a new stack succeeds and a
full traversal of `Values` then yields exactly `v1..vn` and returns the heap
it started from, so `Len` and the contents are as before and a second
traversal yields the same; a new stack yields the empty sequence; and on any
valid stack the traversal yields the contents bottom to top and changes
nothing. -/
theorem Values_in_push_order {T : Type} [Inhabited T] (g : Nat → Nat → Nat) (h0 : Heap T)
    (vs : List T) :
    ∃ h1, pushAll g (New h0).1 vs (New h0).2 = some h1 ∧
      slicesCollect (Values (New h0).1) h1 = some (vs, h1) ∧
      Len (New h0).1 h1 = some ((vs.length : Int), h1) ∧
      items (New h0).1 h1 = some vs ∧
      (∀ r h2, slicesCollect (Values (New h0).1) h1 = some (r, h2) →
        h2 = h1 ∧ slicesCollect (Values (New h0).1) h2 = some (r, h2)) ∧
      slicesCollect (Values (New h0).1) (New h0).2 = some ([], (New h0).2) ∧
      (∀ (p : Nat) (k : Heap T) (xs : List T), Valid p k = true → items p k = some xs →
        slicesCollect (Values p) k = some (xs, k)) := by
  obtain ⟨_, hv, hi⟩ := New_ok h0
  obtain ⟨h1, hall, hv1, hi1⟩ := pushAll_ok g vs hv hi
  have hi1' : items (New h0).1 h1 = some vs := by simpa using hi1
  have hval := Values_ok hv1 hi1'
  refine ⟨h1, hall, hval, Len_ok hv1 hi1', hi1', ?_, Values_ok hv hi,
    fun p k xs hp hk => Values_ok hp hk⟩
  intro r h2 hr
  rw [hval] at hr
  cases hr
  exact ⟨rfl, hval⟩

/-- C12 as stated fails: clearing an empty stack can be observed.  The
zero-value `Stack[int]` is valid and empty and `MarshalJSON` returns `null`
for it; after `Clear` it is still empty and `MarshalJSON` returns `[]`.
Likewise the stack that held 7, 8 and was emptied by two `Pop`s: decoding
`[null,null]` into it gives 7, 8, and after a `Clear` it gives 0, 0. -/
theorem Clear_resets_counterexample :
    zeroHeap = (zeroStack (emptyHeap : Heap Int)).2 ∧
      Valid 0 zeroHeap = true ∧ items 0 zeroHeap = some [] ∧
      Stack.MarshalJSON 0 zeroHeap = some ((bytes "null", none), zeroHeap) ∧
      Clear 0 zeroHeap = some ⟨[[]], [⟨some 0, 0, 0⟩]⟩ ∧
      items 0 (⟨[[]], [⟨some 0, 0, 0⟩]⟩ : Heap Int) = some [] ∧
      Stack.MarshalJSON 0 (⟨[[]], [⟨some 0, 0, 0⟩]⟩ : Heap Int)
        = some ((bytes "[]", none), ⟨[[]], [⟨some 0, 0, 0⟩]⟩) ∧
      bytes "null" ≠ bytes "[]" ∧
      (popN 0 2 intHeap).map (fun r => r.2) = some ⟨[[], [7], [7, 8]], [⟨some 2, 0, 2⟩]⟩ ∧
      items 0 (⟨[[], [7], [7, 8]], [⟨some 2, 0, 2⟩]⟩ : Heap Int) = some [] ∧
      Stack.UnmarshalJSON double 0 (bytes "[null,null]")
          (⟨[[], [7], [7, 8]], [⟨some 2, 0, 2⟩]⟩ : Heap Int)
        = some (none, ⟨[[], [7], [7, 8]], [⟨some 2, 2, 2⟩]⟩) ∧
      items 0 (⟨[[], [7], [7, 8]], [⟨some 2, 2, 2⟩]⟩ : Heap Int) = some [7, 8] ∧
      Clear 0 (⟨[[], [7], [7, 8]], [⟨some 2, 0, 2⟩]⟩ : Heap Int)
        = some ⟨[[], [7], [7, 8], [0, 0]], [⟨some 3, 0, 2⟩]⟩ ∧
      Stack.UnmarshalJSON double 0 (bytes "[null,null]")
          (⟨[[], [7], [7, 8], [0, 0]], [⟨some 3, 0, 2⟩]⟩ : Heap Int)
        = some (none, ⟨[[], [7], [7, 8], [0, 0]], [⟨some 3, 2, 2⟩]⟩) ∧
      items 0 (⟨[[], [7], [7, 8], [0, 0]], [⟨some 3, 2, 2⟩]⟩ : Heap Int) = some [0, 0] := by
  decide

/-- C12 (Clear resets, amended): on a valid stack `Clear` succeeds; afterwards
`Len` is 0 and `Peek` and `Pop` answer absent; every run of `Push`, `Pop`,
`Peek`, `Len` and `Values` calls gives the same answers on the cleared stack
as on a stack made by `New` (in any heap); a following `Push(s, v)` gives
`Len` 1 and `Peek` `(v, true)`; and if the stack was already empty, every run
of `Push`, `Pop`, `Peek`, `Len` and `Values` calls gives the same answers
before and after the `Clear`. -/
theorem Clear_resets {T : Type} [Inhabited T] (g : Nat → Nat → Nat) (p : Nat) (h : Heap T)
    (hv : Valid p h = true) :
    ∃ h1, Clear p h = some h1 ∧ Valid p h1 = true ∧ items p h1 = some [] ∧
      Len p h1 = some (0, h1) ∧
      Peek p h1 = some ((default, false), h1) ∧
      Pop p h1 = some ((default, false), h1) ∧
      (∀ (k : Heap T) (cs : List (Call T)), ∃ rs h2 k2,
        runCalls g p cs h1 = some (rs, h2) ∧
        runCalls g (New k).1 cs (New k).2 = some (rs, k2)) ∧
      (∀ v, ∃ h2, Push g p v h1 = some h2 ∧ Len p h2 = some (1, h2) ∧
        Peek p h2 = some ((v, true), h2)) ∧
      (items p h = some [] → ∀ cs : List (Call T), ∃ rs h2 h3,
        runCalls g p cs h = some (rs, h2) ∧ runCalls g p cs h1 = some (rs, h3)) := by
  obtain ⟨h1, hcl, hv1, hi1, _⟩ := Clear_ok hv
  refine ⟨h1, hcl, hv1, hi1, by simpa using Len_ok hv1 hi1, Peek_empty hv1 hi1,
    Pop_empty hv1 hi1, ?_, ?_, ?_⟩
  · intro k cs
    obtain ⟨_, hvk, hik⟩ := New_ok k
    obtain ⟨h2, hr, _⟩ := runCalls_ok g cs hv1 hi1
    obtain ⟨k2, hrk, _⟩ := runCalls_ok g cs hvk hik
    exact ⟨_, h2, k2, hr, hrk⟩
  · intro v
    obtain ⟨h2, hp, hv2, hi2, _⟩ := Push_ok g v hv1 hi1
    exact ⟨h2, hp, by simpa using Len_ok hv2 hi2, Peek_top hv2 hi2⟩
  · intro hi cs
    obtain ⟨h2, hr, _⟩ := runCalls_ok g cs hv hi
    obtain ⟨h3, hr1, _⟩ := runCalls_ok g cs hv1 hi1
    exact ⟨_, h2, h3, hr, hr1⟩

/-- An instance of C12 on a concrete heap. -/
theorem Clear_resets_witness :
    ∃ h1, Clear 0 sampleHeap = some h1 ∧ Valid 0 h1 = true ∧ items 0 h1 = some [] ∧
      Len 0 h1 = some (0, h1) ∧
      Peek 0 h1 = some ((default, false), h1) ∧
      Pop 0 h1 = some ((default, false), h1) ∧
      (∀ (k : Heap Nat) (cs : List (Call Nat)), ∃ rs h2 k2,
        runCalls double 0 cs h1 = some (rs, h2) ∧
        runCalls double (New k).1 cs (New k).2 = some (rs, k2)) ∧
      (∀ v, ∃ h2, Push double 0 v h1 = some h2 ∧ Len 0 h2 = some (1, h2) ∧
        Peek 0 h2 = some ((v, true), h2)) ∧
      (items 0 sampleHeap = some [] → ∀ cs : List (Call Nat), ∃ rs h2 h3,
        runCalls double 0 cs sampleHeap = some (rs, h2) ∧
        runCalls double 0 cs h1 = some (rs, h3)) :=
  Clear_resets double 0 sampleHeap (by decide)

/-- C18 (textual rendering): on a stack with contents `e0..eN`, `String`
returns `Stack{`, then the renderings of the elements joined by `, `, then
`}`, and the heap is unchanged; the empty stack gives `Stack{}` and the
integers 1, 2 give `Stack{1, 2}`. -/
theorem String_renders {T : Type} (sprint : T → Bytes) (p : Nat) (h : Heap T) (xs : List T)
    (hi : items p h = some xs) :
    Stack.String sprint p h
        = some (bytes "Stack\x7b" ++ List.intercalate (bytes ", ") (xs.map sprint)
            ++ bytes "\x7d", h) ∧
      (xs = [] → Stack.String sprint p h = some (bytes "Stack\x7b\x7d", h)) ∧
      (∀ (q : Nat) (k : Heap Int), items q k = some [1, 2] →
        Stack.String renderInt q k = some (bytes "Stack\x7b1, 2\x7d", k)) := by
  refine ⟨String_ok sprint hi, ?_, ?_⟩
  · rintro rfl
    rw [String_ok sprint hi]
    rfl
  · intro q k hk
    rw [String_ok renderInt hk]
    rfl

/-- An instance of C18 on a concrete heap. -/
theorem String_renders_witness :
    Stack.String renderNat 0 sampleHeap
        = some (bytes "Stack\x7b" ++ List.intercalate (bytes ", ") ([4, 5].map renderNat)
            ++ bytes "\x7d", sampleHeap) ∧
      (([4, 5] : List Nat) = [] →
        Stack.String renderNat 0 sampleHeap = some (bytes "Stack\x7b\x7d", sampleHeap)) ∧
      (∀ (q : Nat) (k : Heap Int), items q k = some [1, 2] →
        Stack.String renderInt q k = some (bytes "Stack\x7b1, 2\x7d", k)) :=
  String_renders renderNat 0 sampleHeap [4, 5] (by decide)

/-- C19 (early stop): on a valid stack with contents `e0..en-1`, if the
consumer answers `true` on its first `j - 1` calls and `false` on the `j`-th
(`1 ≤ j ≤ n`), the traversal of `Values` ends normally, the consumer has been
called exactly on `e0, ..., ej-1` in that order and never again, and the heap
is unchanged. -/
theorem Values_early_stop {T σ : Type} (p : Nat) (h : Heap T) (es : List T)
    (f : T → σ → σ × Bool) (c : σ) (j : Nat) (hv : Valid p h = true)
    (hi : items p h = some es) (hj : 1 ≤ j) (hjn : j ≤ es.length)
    (hans : answers f (es.take j) c = List.replicate (j - 1) true ++ [false]) :
    Values p (σ × List T) (loggingYield f) (c, []) h
        = some ((stateAfter f (es.take j) c, es.take j), h) ∧
      (es.take j).length = j := by
  obtain ⟨s, hl, hok⟩ := valid_iff.mp hv
  rw [items_eq hl] at hi
  obtain ⟨hlc, hcase⟩ := Slice_ok_iff.mp hok
  refine ⟨?_, by simp [hjn]⟩
  rcases hcase with ⟨hn, hc⟩ | ⟨a, arr, ha, harr, hc⟩
  · have h0 : s.len = 0 := by omega
    simp [elems, hn, h0] at hi
    subst hi
    simp at hjn
    omega
  · have hle : s.len ≤ arr.length := by omega
    simp [elems, ha, harr, hle] at hi
    simp only [Values, hl, ha]
    rw [rangeLoop_feed f harr s.len 0 c [] (by omega)]
    simp only [List.drop_zero, hi]
    rw [feed_stop f es j c [] hj hjn hans]
    simp

/-- An instance of C19: the consumer adds up what it receives and stops at
the first element that is not below 5. -/
theorem Values_early_stop_witness :
    Values 0 (Nat × List Nat) (loggingYield (fun v c => (c + v, decide (v < 5)))) (0, [])
        sampleHeap
        = some ((stateAfter (fun v c => (c + v, decide (v < 5))) ([4, 5].take 2) 0,
            [4, 5].take 2), sampleHeap) ∧
      (([4, 5] : List Nat).take 2).length = 2 :=
  Values_early_stop 0 sampleHeap [4, 5] (fun v c => (c + v, decide (v < 5))) 0 2
    (by decide) (by decide) (by decide) (by decide) (by decide)

/-- C20 (live view): `Values(s)` only captures the pointer, so the sequence
obtained from a stack with contents `xs` would yield `xs` if traversed at
once, but traversed after a run of `Push`, `Pop` and `Clear` calls on `s` it
yields the contents `s` has then; obtained from an empty stack and traversed
after `Push(s, v)` it yields exactly `v`. -/
theorem Values_live_view {T : Type} [Inhabited T] (g : Nat → Nat → Nat) (p : Nat)
    (h : Heap T) (xs : List T) (ops : List (Op T)) (hv : Valid p h = true)
    (hi : items p h = some xs) :
    slicesCollect (Values p) h = some (xs, h) ∧
      (∃ h2 ys, applyOps g p ops h = some h2 ∧ items p h2 = some ys ∧
        slicesCollect (Values p) h2 = some (ys, h2)) ∧
      (xs = [] → ∀ v, ∃ h2, Push g p v h = some h2 ∧
        slicesCollect (Values p) h2 = some ([v], h2)) := by
  refine ⟨Values_ok hv hi, ?_, ?_⟩
  · obtain ⟨h2, hrun, hv2⟩ := applyOps_valid g ops hv
    obtain ⟨_, ys, _, _, hi2, _⟩ := valid_items hv2
    exact ⟨h2, ys, hrun, hi2, Values_ok hv2 hi2⟩
  · rintro rfl v
    obtain ⟨h2, hp, hv2, hi2, _⟩ := Push_ok g v hv hi
    exact ⟨h2, hp, Values_ok hv2 (by simpa using hi2)⟩

/-- An instance of C20: the sequence is taken from a new stack, two values
are pushed, and the traversal sees the stack as it is then. -/
theorem Values_live_view_witness :
    slicesCollect (Values 0) freshHeap = some ([], freshHeap) ∧
      (∃ h2 ys, applyOps double 0 [Op.push 9, Op.push 8] freshHeap = some h2 ∧
        items 0 h2 = some ys ∧ slicesCollect (Values 0) h2 = some (ys, h2)) ∧
      (([] : List Nat) = [] → ∀ v, ∃ h2, Push double 0 v freshHeap = some h2 ∧
        slicesCollect (Values 0) h2 = some ([v], h2)) :=
  Values_live_view double 0 freshHeap [] [Op.push 9, Op.push 8] (by decide) (by decide)

/-- C13 (serialization round trip): for `int` elements `v1..vn` pushed onto a
new stack `s`, `MarshalJSON(s)` succeeds with a nil error, `UnmarshalJSON` of
its output into a fresh zero-value stack succeeds with a nil error, and
`Values` of that stack yields `v1..vn`, the very sequence `Values(s)` yields
before and after. -/
theorem json_round_trip (g : Nat → Nat → Nat) (h0 : Heap Int) (vs : List Int)
    (hr : ∀ v ∈ vs, minInt ≤ v ∧ v ≤ maxInt) :
    ∃ h1 data h3, pushAll g (New h0).1 vs (New h0).2 = some h1 ∧
      Stack.MarshalJSON (New h0).1 h1 = some ((data, none), h1) ∧
      Stack.UnmarshalJSON g (zeroStack h1).1 data (zeroStack h1).2 = some (none, h3) ∧
      slicesCollect (Values (zeroStack h1).1) h3 = some (vs, h3) ∧
      slicesCollect (Values (New h0).1) h1 = some (vs, h1) ∧
      slicesCollect (Values (New h0).1) h3 = some (vs, h3) := by
  obtain ⟨hnew, hv, hi⟩ := New_ok h0
  obtain ⟨h1, hall, hv1, hi1⟩ := pushAll_ok g vs hv hi
  have hi1' : items (New h0).1 h1 = some vs := by simpa using hi1
  have hnn := pushAll_nonnil g vs hv hi (New_nonnil h0) hall
  have hm := Marshal_ok hi1'
  rw [hnn] at hm
  obtain ⟨hvz, hiz⟩ := zeroStack_ok h1
  obtain ⟨hvs2, his2, _⟩ := Valid_alloc nilSlice hv1
  obtain ⟨h3, hun, hv3, hi3, _, hf⟩ := Unmarshal_ints g hvz (parseJSON_renderArray vs)
    (decodeElem_renderInt vs hr)
  have hsep : Sep (zeroStack h1).1 (New h0).1 (zeroStack h1).2 := by
    obtain ⟨s, hl, _⟩ := valid_iff.mp hv1
    have hlt := load_lt hl
    refine ⟨?_, ?_⟩
    · simp only [zeroStack, alloc]
      omega
    · intro sp sq a hp _ ha
      have hlz : load (zeroStack h1).1 (zeroStack h1).2 = some nilSlice := load_alloc_new _ _
      rw [hlz] at hp
      cases hp
      simp [nilSlice] at ha
  obtain ⟨hvs3, _, his3, _⟩ := frame_other hf hvz hvs2 hsep
  refine ⟨h1, renderArray vs, h3, hall, by simpa using hm, hun, Values_ok hv3 hi3,
    Values_ok hv1 hi1', Values_ok hvs3 ?_⟩
  rw [his3]
  exact his2.trans hi1'

/-- An instance of C13: the elements -3, 0, 42. -/
theorem json_round_trip_witness :
    ∃ h1 data h3, pushAll double (New (emptyHeap : Heap Int)).1 [-3, 0, 42]
          (New (emptyHeap : Heap Int)).2 = some h1 ∧
      Stack.MarshalJSON (New (emptyHeap : Heap Int)).1 h1 = some ((data, none), h1) ∧
      Stack.UnmarshalJSON double (zeroStack h1).1 data (zeroStack h1).2 = some (none, h3) ∧
      slicesCollect (Values (zeroStack h1).1) h3 = some ([-3, 0, 42], h3) ∧
      slicesCollect (Values (New (emptyHeap : Heap Int)).1) h1 = some ([-3, 0, 42], h1) ∧
      slicesCollect (Values (New (emptyHeap : Heap Int)).1) h3 = some ([-3, 0, 42], h3) :=
  json_round_trip double emptyHeap [-3, 0, 42] (by decide)

/-- C14 as stated fails: after `UnmarshalJSON` of `null` the stack is valid and
empty, its `items` is nil, and `MarshalJSON` returns `null`, which is not the
text `[]` of the array of its elements; a stack of bytes that holds 1, 2
marshals to the JSON string `"AQI="`, not to an array; and a stack that holds
a channel marshals to an error. -/
theorem MarshalJSON_form_counterexample :
    Stack.UnmarshalJSON double 0 (bytes "null") intHeap
        = some (none, ⟨[[], [7], [7, 8]], [⟨none, 0, 0⟩]⟩) ∧
      Valid 0 (⟨[[], [7], [7, 8]], [⟨none, 0, 0⟩]⟩ : Heap Int) = true ∧
      items 0 (⟨[[], [7], [7, 8]], [⟨none, 0, 0⟩]⟩ : Heap Int) = some [] ∧
      Stack.MarshalJSON 0 (⟨[[], [7], [7, 8]], [⟨none, 0, 0⟩]⟩ : Heap Int)
        = some ((bytes "null", none), ⟨[[], [7], [7, 8]], [⟨none, 0, 0⟩]⟩) ∧
      bytes "null" ≠ renderArray [] ∧
      pushAll double (New (emptyHeap : Heap Nat)).1 [1, 2] (New (emptyHeap : Heap Nat)).2
        = some byteHeap ∧
      Valid 0 byteHeap = true ∧ items 0 byteHeap = some [1, 2] ∧
      Stack.MarshalJSONOf (SliceEncoder.byteSlice id) 0 byteHeap
        = some ((bytes "\x22AQI=\x22", none), byteHeap) ∧
      pushAll double (New (emptyHeap : Heap Unit)).1 [()] (New (emptyHeap : Heap Unit)).2
        = some chanHeap ∧
      Valid 0 chanHeap = true ∧ items 0 chanHeap = some [()] ∧
      Stack.MarshalJSONOf (SliceEncoder.array encodeChan) 0 chanHeap
        = some (([], some MarshalError.unsupported), chanHeap) := by
  decide

/-- C14 (serialized form, amended): for every stack whose `items` is not nil,
whose element type is not a byte type and whose elements all have a JSON
encoding, `MarshalJSON` returns a nil error and exactly `[`, the encodings of
the elements bottom to top separated by commas, `]`, and leaves the heap
unchanged; for a stack of `int` the encodings are the decimal texts of the
elements; every non-empty stack has an `items` that is not nil; and 1 then 2
pushed onto a new stack give exactly `[1,2]`. -/
theorem MarshalJSON_form {T : Type} (enc : T → Option Bytes) (p : Nat) (h : Heap T)
    (xs : List T) (bs : List Bytes)
    (hi : items p h = some xs) (hn : nilItems p h = false) (he : xs.map enc = bs.map some) :
    Stack.MarshalJSONOf (SliceEncoder.array enc) p h
        = some ((91 :: (List.intercalate [44] bs ++ [93]), none), h) ∧
      (∀ (q : Nat) (k : Heap Int) (ys : List Int), items q k = some ys →
        nilItems q k = false →
        Stack.MarshalJSON q k
            = some ((91 :: (List.intercalate [44] (ys.map renderInt) ++ [93]), none), k) ∧
          Stack.MarshalJSONOf (SliceEncoder.array encodeInt) q k
            = some ((91 :: (List.intercalate [44] (ys.map renderInt) ++ [93]), none), k)) ∧
      (∀ (q : Nat) (k : Heap T) (ys : List T), Valid q k = true → items q k = some ys →
        ys ≠ [] → nilItems q k = false) ∧
      (∀ (g : Nat → Nat → Nat) (k : Heap Int), ∃ k1,
        pushAll g (New k).1 [1, 2] (New k).2 = some k1 ∧
        Stack.MarshalJSON (New k).1 k1 = some ((bytes "[1,2]", none), k1)) := by
  refine ⟨MarshalOf_ok enc hi hn he, ?_,
    fun q k ys hq hk hne => nonnil_of_nonempty hq hk hne, ?_⟩
  · intro q k ys hk hnk
    have h1 : Stack.MarshalJSON q k
        = some ((91 :: (List.intercalate [44] (ys.map renderInt) ++ [93]), none), k) := by
      rw [Marshal_ok hk, hnk]
      rfl
    refine ⟨h1, ?_⟩
    rw [MarshalOf_int, h1]
    rfl
  · intro g k
    obtain ⟨_, hv, hi0⟩ := New_ok k
    obtain ⟨k1, hall, hv1, hi1⟩ := pushAll_ok g [1, 2] hv hi0
    have hnn := nonnil_of_nonempty hv1 hi1 (by simp)
    refine ⟨k1, hall, ?_⟩
    rw [Marshal_ok hi1, hnn]
    rfl

/-- An instance of C14: the stack of `int` that holds 7, 8 gives `[7,8]`. -/
theorem MarshalJSON_form_witness :
    91 :: (List.intercalate [44] [[55], [56]] ++ [93]) = bytes "[7,8]" ∧
      (Stack.MarshalJSONOf (SliceEncoder.array encodeInt) 0 intHeap
          = some ((91 :: (List.intercalate [44] [[55], [56]] ++ [93]), none), intHeap) ∧
        (∀ (q : Nat) (k : Heap Int) (ys : List Int), items q k = some ys →
          nilItems q k = false →
          Stack.MarshalJSON q k
              = some ((91 :: (List.intercalate [44] (ys.map renderInt) ++ [93]), none), k) ∧
            Stack.MarshalJSONOf (SliceEncoder.array encodeInt) q k
              = some ((91 :: (List.intercalate [44] (ys.map renderInt) ++ [93]), none), k)) ∧
        (∀ (q : Nat) (k : Heap Int) (ys : List Int), Valid q k = true → items q k = some ys →
          ys ≠ [] → nilItems q k = false) ∧
        (∀ (g : Nat → Nat → Nat) (k : Heap Int), ∃ k1,
          pushAll g (New k).1 [1, 2] (New k).2 = some k1 ∧
          Stack.MarshalJSON (New k).1 k1 = some ((bytes "[1,2]", none), k1))) :=
  ⟨by decide,
    MarshalJSON_form encodeInt 0 intHeap [7, 8] [[55], [56]] (by decide) (by decide) (by decide)⟩

/-- C15 as stated fails: a zero-value `Stack[int]` that was never pushed to is
valid, has `Len` 0, and `MarshalJSON` returns `null`, not `[]`; and a new
stack of bytes has `Len` 0 and marshals to the empty JSON string. -/
theorem MarshalJSON_empty_counterexample :
    zeroHeap = (zeroStack (emptyHeap : Heap Int)).2 ∧
      (zeroStack (emptyHeap : Heap Int)).1 = 0 ∧
      Valid 0 zeroHeap = true ∧ Len 0 zeroHeap = some (0, zeroHeap) ∧
      Stack.MarshalJSON 0 zeroHeap = some ((bytes "null", none), zeroHeap) ∧
      bytes "null" ≠ bytes "[]" ∧
      (New (emptyHeap : Heap Nat)).1 = 0 ∧
      Len 0 (New (emptyHeap : Heap Nat)).2 = some (0, (New (emptyHeap : Heap Nat)).2) ∧
      Stack.MarshalJSONOf (SliceEncoder.byteSlice id) 0 (New (emptyHeap : Heap Nat)).2
        = some ((bytes "\x22\x22", none), (New (emptyHeap : Heap Nat)).2) := by
  decide

/-- C15 (empty stack, amended): every valid stack with `Len` 0 whose `items`
is not nil and whose element type is not a byte type marshals to `[]`, with a
nil error; that is the case for a stack made by `New`, for any stack after
`Clear`, for a stack emptied by `Pop` whose `items` was not nil, for `Collect`
of nothing and for a clone of such a stack; a zero-value stack marshals to
`null`. -/
theorem MarshalJSON_empty {T : Type} [Inhabited T] (enc : T → Option Bytes) (p : Nat)
    (h : Heap T) (hv : Valid p h = true)
    (h0 : Len p h = some (0, h)) (hn : nilItems p h = false) :
    Stack.MarshalJSONOf (SliceEncoder.array enc) p h = some ((bytes "[]", none), h) ∧
      (∀ k : Heap T,
        Stack.MarshalJSONOf (SliceEncoder.array enc) (New k).1 (New k).2
          = some ((bytes "[]", none), (New k).2)) ∧
      (∀ (q : Nat) (k k1 : Heap T), Valid q k = true → Clear q k = some k1 →
        Stack.MarshalJSONOf (SliceEncoder.array enc) q k1
          = some ((bytes "[]", none), k1)) ∧
      (∀ (q : Nat) (k k1 : Heap T) (r : T × Bool), Valid q k = true →
        nilItems q k = false → Pop q k = some (r, k1) → items q k1 = some [] →
        Stack.MarshalJSONOf (SliceEncoder.array enc) q k1
          = some ((bytes "[]", none), k1)) ∧
      (∀ (g : Nat → Nat → Nat) (k : Heap T), ∃ q k1,
        Collect g (slicesValues []) k = some (q, k1) ∧
        Stack.MarshalJSONOf (SliceEncoder.array enc) q k1
          = some ((bytes "[]", none), k1)) ∧
      (∀ (g : Nat → Nat → Nat) (q c : Nat) (k k1 : Heap T), Valid q k = true →
        items q k = some [] → nilItems q k = false → Clone g q k = some (c, k1) →
        Stack.MarshalJSONOf (SliceEncoder.array enc) c k1
          = some ((bytes "[]", none), k1)) ∧
      (∀ (e : SliceEncoder T) (k : Heap T),
        Stack.MarshalJSONOf e (zeroStack k).1 (zeroStack k).2
          = some ((bytes "null", none), (zeroStack k).2)) ∧
      (∀ (q : Nat) (k : Heap Int), Valid q k = true → Len q k = some (0, k) →
        nilItems q k = false → Stack.MarshalJSON q k = some ((bytes "[]", none), k)) := by
  refine ⟨MarshalOf_empty enc (Len_zero_items hv h0) hn, ?_, ?_, ?_, ?_, ?_, ?_, ?_⟩
  · intro k
    obtain ⟨_, _, hik⟩ := New_ok k
    exact MarshalOf_empty enc hik (New_nonnil k)
  · intro q k k1 hq hc
    obtain ⟨k2, hc2, _, hi2, _⟩ := Clear_ok hq
    rw [hc] at hc2
    cases hc2
    exact MarshalOf_empty enc hi2 (Clear_nonnil hc)
  · intro q k k1 r _ hnq hp hi1
    exact MarshalOf_empty enc hi1 (by rw [Pop_nil hp, hnq])
  · intro g k
    obtain ⟨_, _, hik⟩ := New_ok k
    exact ⟨(New k).1, (New k).2, by simp [Collect, slicesValues, slicesValuesLoop],
      MarshalOf_empty enc hik (New_nonnil k)⟩
  · intro g q c k k1 hq hiq hnq hcl
    obtain ⟨c2, k2, hcl2, _, _, hic, _⟩ := Clone_ok g hq hiq
    rw [hcl] at hcl2
    cases hcl2
    exact MarshalOf_empty enc hic (by rw [Clone_nil g hq hcl, hnq])
  · intro e k
    exact MarshalOf_nil e (zeroStack_ok k).1 (zeroStack_nil k)
  · intro q k hq hk hnk
    rw [Marshal_ok (Len_zero_items hq hk), hnk]
    rfl

/-- An instance of C15: a stack of `int` that was pushed to and then cleared. -/
theorem MarshalJSON_empty_witness :
    Stack.MarshalJSONOf (SliceEncoder.array encodeInt) 0
          (⟨[[], [7], [7, 8], [0, 0]], [⟨some 3, 0, 2⟩]⟩ : Heap Int)
        = some ((bytes "[]", none), ⟨[[], [7], [7, 8], [0, 0]], [⟨some 3, 0, 2⟩]⟩) ∧
      (∀ k : Heap Int,
        Stack.MarshalJSONOf (SliceEncoder.array encodeInt) (New k).1 (New k).2
          = some ((bytes "[]", none), (New k).2)) ∧
      (∀ (q : Nat) (k k1 : Heap Int), Valid q k = true → Clear q k = some k1 →
        Stack.MarshalJSONOf (SliceEncoder.array encodeInt) q k1
          = some ((bytes "[]", none), k1)) ∧
      (∀ (q : Nat) (k k1 : Heap Int) (r : Int × Bool), Valid q k = true →
        nilItems q k = false → Pop q k = some (r, k1) → items q k1 = some [] →
        Stack.MarshalJSONOf (SliceEncoder.array encodeInt) q k1
          = some ((bytes "[]", none), k1)) ∧
      (∀ (g : Nat → Nat → Nat) (k : Heap Int), ∃ q k1,
        Collect g (slicesValues []) k = some (q, k1) ∧
        Stack.MarshalJSONOf (SliceEncoder.array encodeInt) q k1
          = some ((bytes "[]", none), k1)) ∧
      (∀ (g : Nat → Nat → Nat) (q c : Nat) (k k1 : Heap Int), Valid q k = true →
        items q k = some [] → nilItems q k = false → Clone g q k = some (c, k1) →
        Stack.MarshalJSONOf (SliceEncoder.array encodeInt) c k1
          = some ((bytes "[]", none), k1)) ∧
      (∀ (e : SliceEncoder Int) (k : Heap Int),
        Stack.MarshalJSONOf e (zeroStack k).1 (zeroStack k).2
          = some ((bytes "null", none), (zeroStack k).2)) ∧
      (∀ (q : Nat) (k : Heap Int), Valid q k = true → Len q k = some (0, k) →
        nilItems q k = false → Stack.MarshalJSON q k = some ((bytes "[]", none), k)) :=
  MarshalJSON_empty encodeInt 0 ⟨[[], [7], [7, 8], [0, 0]], [⟨some 3, 0, 2⟩]⟩
    (by decide) (by decide) (by decide)

/-- C16 as stated fails at the element type `struct{ x int }`: the stack
holds one element, with `x` 1; the JSON array `[{}]`, which is what
`json.Marshal` writes for a one-element slice of this type, is accepted with a
nil error, and afterwards the stack still holds the prior element, whereas the
same text decoded into a zero-value stack gives the element with `x` 0. -/
theorem UnmarshalJSON_replaces_counterexample :
    pushAll double (New (emptyHeap : Heap Hidden)).1 [⟨1⟩] (New (emptyHeap : Heap Hidden)).2
        = some hiddenHeap ∧
      (zeroStack (emptyHeap : Heap Hidden)).2 = hiddenZeroHeap ∧
      Valid 0 hiddenHeap = true ∧ items 0 hiddenHeap = some [⟨1⟩] ∧
      Stack.UnmarshalJSONOf decodeHidden double 0 (bytes "[\x7b\x7d]") hiddenHeap
        = some (none, hiddenHeap) ∧
      Stack.UnmarshalJSONOf decodeHidden double 0 (bytes "[\x7b\x7d]") hiddenZeroHeap
        = some (none, ⟨[[⟨0⟩]], [⟨some 0, 1, 1⟩]⟩) ∧
      items 0 (⟨[[⟨0⟩]], [⟨some 0, 1, 1⟩]⟩ : Heap Hidden) = some [⟨0⟩] := by
  decide

/-- C16 (deserialize replaces contents, amended): on a valid stack of `int`,
whatever it holds, for every text of a JSON array of integers - any white
space before `[`, after `]` and around each element, each element an integer
literal whose value fits `int` - `UnmarshalJSON` returns a nil error, and
afterwards the contents are exactly the values of the literals in array
order, none of the prior contents remaining, `Len` is their number and
`Values` yields them in array order, and nothing outside the stack has
changed; `[5,10]` gives bottom 5 and top 10. -/
theorem UnmarshalJSON_replaces (g : Nat → Nat → Nat) (p : Nat) (h : Heap Int)
    (lead inner trail : Bytes) (es : List Padded) (hv : Valid p h = true)
    (hl : allWs lead = true) (hin : allWs inner = true) (ht : allWs trail = true)
    (hes : ∀ e ∈ es, e.wf) :
    ∃ h', Stack.UnmarshalJSON g p (arrayText lead inner es trail) h = some (none, h') ∧
      Valid p h' = true ∧ items p h' = some (es.map Padded.val) ∧
      Len p h' = some ((es.length : Int), h') ∧
      slicesCollect (Values p) h' = some (es.map Padded.val, h') ∧
      StackFrame p h h' ∧
      (∀ (q : Nat) (k : Heap Int), Valid q k = true → ∃ k1,
        Stack.UnmarshalJSON g q (bytes "[5,10]") k = some (none, k1) ∧
        slicesCollect (Values q) k1 = some ([5, 10], k1) ∧
        Peek q k1 = some ((10, true), k1)) := by
  obtain ⟨h', hun, hv', hi', _, hf⟩ :=
    Unmarshal_ints g hv
      (parseJSON_arrayText lead inner trail es hl hin ht
        (fun e he => ⟨(hes e he).1, (hes e he).2.1⟩))
      (decodeElem_intLit es hes)
  refine ⟨h', hun, hv', hi', by simpa using Len_ok hv' hi', Values_ok hv' hi', hf, ?_⟩
  intro q k hq
  have hp5 : parseJSON (bytes "[5,10]") = some (JSON.arr [JSON.num [53], JSON.num [49, 48]]) := by
    rfl
  have he5 : [JSON.num [53], JSON.num [49, 48]].map decodeElem
      = ([5, 10] : List Int).map Decoded.value := rfl
  obtain ⟨k1, hun1, hv1, hi1, _, _⟩ := Unmarshal_ints g hq hp5 he5
  exact ⟨k1, hun1, Values_ok hv1 hi1, Peek_last hv1 hi1 (by rfl)⟩

/-- An instance of C16: the text ` [5, 10 ,-0`, line feed, `]`, line feed,
into the stack that holds 7, 8. -/
theorem UnmarshalJSON_replaces_witness :
    (items 0 intHeap = some [7, 8] ∧
        arrayText [32] [] threeElems [10] = bytes " [5, 10 ,-0\n]\n" ∧
        threeElems.map Padded.val = [5, 10, 0]) ∧
      ∃ h', Stack.UnmarshalJSON double 0 (arrayText [32] [] threeElems [10]) intHeap
          = some (none, h') ∧
        Valid 0 h' = true ∧
        items 0 h' = some (threeElems.map Padded.val) ∧
        Len 0 h' = some ((threeElems.length : Int), h') ∧
        slicesCollect (Values 0) h' = some (threeElems.map Padded.val, h') ∧
        StackFrame 0 intHeap h' ∧
        (∀ (q : Nat) (k : Heap Int), Valid q k = true → ∃ k1,
          Stack.UnmarshalJSON double q (bytes "[5,10]") k = some (none, k1) ∧
          slicesCollect (Values q) k1 = some ([5, 10], k1) ∧
          Peek q k1 = some ((10, true), k1)) :=
  ⟨by decide,
    UnmarshalJSON_replaces double 0 intHeap [32] [] [10] threeElems
      (by decide) (by decide) (by decide) (by decide)
      (by
        intro e he
        simp only [threeElems, List.mem_cons, List.mem_singleton, List.not_mem_nil,
          or_false] at he
        rcases he with rfl | rfl | rfl <;>
          exact ⟨by decide, by decide, by decide, by decide⟩)⟩

/-- C17 as stated fails: on the stack holding 7, 8 the input `[1,"a"]`
makes `UnmarshalJSON` return an error, and the stack then holds 1, 8: the
new first element and the old second one. -/
theorem UnmarshalJSON_failure_counterexample :
    items 0 intHeap = some [7, 8] ∧
      Stack.UnmarshalJSON double 0 (bytes "[1,\x22a\x22]") intHeap
        = some (some JSONError.mismatch, ⟨[[], [7], [1, 8]], [⟨some 2, 2, 2⟩]⟩) ∧
      items 0 (⟨[[], [7], [1, 8]], [⟨some 2, 2, 2⟩]⟩ : Heap Int) = some [1, 8] := by
  decide

/-- C17 (decode failure, amended): on a valid stack of `int` with contents
`xs`: an input with a syntax error (such as the text of an array of integers
cut off before its `]`) makes `UnmarshalJSON` return a syntax error and leave
the heap as it was; an input that is a JSON boolean, number, string or object
(such as an integer literal standing alone) makes it return a type error and
leave the heap as it was; an array with an element that is neither an `int`
nor `null` (such as an integer literal that does not fit `int`) makes it
return a type error after the whole array has been decoded into the stack,
which then has one element per array element, every `int` element at its
position, and, below the old length, the old element wherever the array has
no `int`; and the text `null` is accepted and empties the stack. -/
theorem UnmarshalJSON_failure (g : Nat → Nat → Nat) (p : Nat) (h : Heap Int) (xs : List Int)
    (bad other arr : Bytes) (v : JSON) (js : List JSON)
    (lead trail : Bytes) (e : Padded) (es ms : List Padded) (n : Int) (alt : Bool)
    (hv : Valid p h = true) (hi : items p h = some xs)
    (hbad : parseJSON bad = none)
    (hother : parseJSON other = some v) (hk : notArrayOrNull v = true)
    (harr : parseJSON arr = some (JSON.arr js))
    (hmis : ∃ x ∈ js, decodeElem x = Decoded.mismatch)
    (hl : allWs lead = true) (ht : allWs trail = true) (hes : ∀ x ∈ e :: es, x.spaced)
    (hms : ∀ x ∈ ms, x.spaced) (hout : ∃ x ∈ ms, ¬ (minInt ≤ x.val ∧ x.val ≤ maxInt)) :
    Stack.UnmarshalJSON g p bad h = some (some JSONError.malformed, h) ∧
      Stack.UnmarshalJSON g p (truncatedText lead (e :: es)) h
        = some (some JSONError.malformed, h) ∧
      Stack.UnmarshalJSON g p other h = some (some JSONError.mismatch, h) ∧
      Stack.UnmarshalJSON g p (lead ++ (intLit n alt ++ trail)) h
        = some (some JSONError.mismatch, h) ∧
      (∃ h' out, Stack.UnmarshalJSON g p arr h = some (some JSONError.mismatch, h') ∧
        Valid p h' = true ∧ items p h' = some out ∧ out.length = js.length ∧
        (∀ (k : Nat) (m : Int),
          (js.map decodeElem)[k]? = some (Decoded.value m) → out[k]? = some m) ∧
        (∀ k : Nat, k < xs.length → k < js.length →
          (∀ m : Int, (js.map decodeElem)[k]? ≠ some (Decoded.value m)) →
          out[k]? = xs[k]?) ∧
        StackFrame p h h') ∧
      (∃ h' out, Stack.UnmarshalJSON g p (arrayText lead [] ms trail) h
          = some (some JSONError.mismatch, h') ∧
        Valid p h' = true ∧ items p h' = some out ∧ out.length = ms.length ∧
        (∀ (k : Nat) (x : Padded), ms[k]? = some x → minInt ≤ x.val → x.val ≤ maxInt →
          out[k]? = some x.val) ∧
        (∀ (k : Nat) (x : Padded), ms[k]? = some x → ¬ (minInt ≤ x.val ∧ x.val ≤ maxInt) →
          k < xs.length → out[k]? = xs[k]?) ∧
        StackFrame p h h') ∧
      (∃ h', Stack.UnmarshalJSON g p (lead ++ (bytes "null" ++ trail)) h = some (none, h') ∧
        Valid p h' = true ∧ items p h' = some []) := by
  refine ⟨Unmarshal_malformed g hv hbad,
    Unmarshal_malformed g hv (parseJSON_truncated lead e es hl hes),
    Unmarshal_other g hv hother hk,
    Unmarshal_other g hv (parseJSON_number lead trail n alt hl ht) rfl, ?_,
    Unmarshal_overflow g lead trail ms hv hi hl ht hms hout, ?_⟩
  · obtain ⟨h', out, hun, hv', hi', hlen, _, hf, hvals⟩ := Unmarshal_array g hv harr
    obtain ⟨h'', out', hun', hi'', hkeep⟩ := Unmarshal_keeps g hv hi harr
    rw [hun] at hun'
    simp only [Option.some.injEq, Prod.mk.injEq, true_and] at hun'
    subst hun'
    rw [hi'] at hi''
    simp only [Option.some.injEq] at hi''
    subst hi''
    rw [errAfter_none_mismatch js hmis] at hun
    exact ⟨h', out, hun, hv', hi', hlen, hvals, hkeep, hf⟩
  · obtain ⟨h', hun, hv', hi', _⟩ := Unmarshal_null g hv (parseJSON_null lead trail hl ht)
    exact ⟨h', hun, hv', hi'⟩

/-- An instance of C17 on the stack that holds 7, 8: the texts `[1,]`,
` [1,2` cut off, a string, ` -12` standing alone, `[1,"a"]`,
` [1,9223372036854775808]` and ` null`. -/
theorem UnmarshalJSON_failure_witness :
    (Valid 0 intHeap = true ∧ items 0 intHeap = some [7, 8] ∧
        parseJSON (bytes "[1,]") = none ∧
        truncatedText [32] [⟨[], 1, false, []⟩, ⟨[], 2, false, []⟩] = bytes " [1,2" ∧
        parseJSON (bytes "\x22ab\x22") = some JSON.str ∧
        [32] ++ (intLit (-12) false ++ [10]) = bytes " -12\n" ∧
        parseJSON (bytes "[1,\x22a\x22]") = some (JSON.arr [JSON.num [49], JSON.str]) ∧
        decodeElem JSON.str = Decoded.mismatch ∧
        arrayText [32] [] overflowElems [10] = bytes " [1,9223372036854775808]\n" ∧
        [32] ++ (bytes "null" ++ [10]) = bytes " null\n") ∧
      (Stack.UnmarshalJSON double 0 (bytes "[1,]") intHeap
          = some (some JSONError.malformed, intHeap) ∧
        Stack.UnmarshalJSON double 0
            (truncatedText [32] (⟨[], 1, false, []⟩ :: [⟨[], 2, false, []⟩])) intHeap
          = some (some JSONError.malformed, intHeap) ∧
        Stack.UnmarshalJSON double 0 (bytes "\x22ab\x22") intHeap
          = some (some JSONError.mismatch, intHeap) ∧
        Stack.UnmarshalJSON double 0 ([32] ++ (intLit (-12) false ++ [10])) intHeap
          = some (some JSONError.mismatch, intHeap) ∧
        (∃ h' out, Stack.UnmarshalJSON double 0 (bytes "[1,\x22a\x22]") intHeap
            = some (some JSONError.mismatch, h') ∧
          Valid 0 h' = true ∧ items 0 h' = some out ∧
          out.length = [JSON.num [49], JSON.str].length ∧
          (∀ (k : Nat) (m : Int),
            ([JSON.num [49], JSON.str].map decodeElem)[k]? = some (Decoded.value m) →
            out[k]? = some m) ∧
          (∀ k : Nat, k < ([7, 8] : List Int).length → k < [JSON.num [49], JSON.str].length →
            (∀ m : Int,
              ([JSON.num [49], JSON.str].map decodeElem)[k]? ≠ some (Decoded.value m)) →
            out[k]? = ([7, 8] : List Int)[k]?) ∧
          StackFrame 0 intHeap h') ∧
        (∃ h' out, Stack.UnmarshalJSON double 0 (arrayText [32] [] overflowElems [10]) intHeap
            = some (some JSONError.mismatch, h') ∧
          Valid 0 h' = true ∧ items 0 h' = some out ∧ out.length = overflowElems.length ∧
          (∀ (k : Nat) (x : Padded), overflowElems[k]? = some x → minInt ≤ x.val →
            x.val ≤ maxInt → out[k]? = some x.val) ∧
          (∀ (k : Nat) (x : Padded), overflowElems[k]? = some x →
            ¬ (minInt ≤ x.val ∧ x.val ≤ maxInt) →
            k < ([7, 8] : List Int).length → out[k]? = ([7, 8] : List Int)[k]?) ∧
          StackFrame 0 intHeap h') ∧
        (∃ h', Stack.UnmarshalJSON double 0 ([32] ++ (bytes "null" ++ [10])) intHeap
            = some (none, h') ∧
          Valid 0 h' = true ∧ items 0 h' = some [])) :=
  ⟨⟨by decide, by decide, rfl, by decide, rfl, by decide, rfl, rfl, by decide, by decide⟩,
    UnmarshalJSON_failure double 0 intHeap [7, 8] (bytes "[1,]") (bytes "\x22ab\x22")
      (bytes "[1,\x22a\x22]") JSON.str [JSON.num [49], JSON.str] [32] [10]
      ⟨[], 1, false, []⟩ [⟨[], 2, false, []⟩] overflowElems (-12) false
      (by decide) (by decide) (by rfl) (by rfl) (by decide) (by rfl)
      ⟨JSON.str, by simp, by decide⟩ (by decide) (by decide)
      (by
        intro x hx
        simp only [List.mem_cons, List.mem_singleton, List.not_mem_nil, or_false] at hx
        rcases hx with rfl | rfl <;> exact ⟨by decide, by decide⟩)
      (by
        intro x hx
        simp only [overflowElems, List.mem_cons, List.mem_singleton, List.not_mem_nil,
          or_false] at hx
        rcases hx with rfl | rfl <;> exact ⟨by decide, by decide⟩)
      ⟨⟨[], 9223372036854775808, false, []⟩, by simp [overflowElems], by decide⟩⟩

end Stacks
